import Mathlib

/-!
Verification of the version-to-regex constraint compiler.

The program under verification converts semantic-version constraints
(for example a caret range or a greater-or-equal bound) into regular
expression pattern strings.  Patterns are represented here at two levels:

* a syntax tree `Regex` together with an executable matcher `mrun`,
  which gives the semantics of the generated patterns, and
* plain character lists mirroring the string builders of the source
  (`regexes.go`, the constraint compiler and the ecosystem formatters),
  connected to the tree level by the rendering function `renderR`.

Go strings are modelled as `List Char`.
-/

namespace V2R

/-- Abstract syntax of the regex dialect emitted by the generators.
Each constructor corresponds to one syntactic form appearing in the
generated patterns. -/
inductive Regex where
  | eps : Regex
  | lit (c : Char) : Regex
  | esc (c : Char) : Regex
  | anyd : Regex
  | dotAny : Regex
  | hatA : Regex
  | dollarA : Regex
  | cls (lo hi : Char) : Regex
  | clsL (rs : List (Char × Char)) : Regex
  | cat (a b : Regex) : Regex
  | alt (a b : Regex) : Regex
  | grp (r : Regex) : Regex
  | opt (r : Regex) : Regex
  | nlk (r : Regex) : Regex
  | starR (r : Regex) : Regex
  | plusR (r : Regex) : Regex
  | repE (r : Regex) (k : Nat) : Regex
  | repL (r : Regex) (k : Nat) : Regex
  deriving DecidableEq, Repr

/-- Character-range test, by code point. -/
def chIn (lo hi c : Char) : Bool :=
  decide (lo.toNat ≤ c.toNat ∧ c.toNat ≤ hi.toNat)

/-- Membership of a character in a union of ranges. -/
def inRanges (rs : List (Char × Char)) (c : Char) : Bool :=
  rs.any (fun p => chIn p.1 p.2 c)

/-- Size measure used to bound the fuel of the matcher. -/
def rsize : Regex → Nat
  | .eps => 1
  | .lit _ => 1
  | .esc _ => 1
  | .anyd => 1
  | .dotAny => 1
  | .hatA => 1
  | .dollarA => 1
  | .cls _ _ => 1
  | .clsL _ => 1
  | .cat a b => rsize a + rsize b + 1
  | .alt a b => rsize a + rsize b + 1
  | .grp r => rsize r + 1
  | .opt r => rsize r + 1
  | .nlk r => rsize r + 1
  | .starR r => rsize r + 1
  | .plusR r => rsize r + 2
  | .repE r k => rsize r + k + 1
  | .repL r k => rsize r + k + 3

/-- Fueled matcher.  `go f r s` returns the possible remainders of `s`
after `r` has consumed a prefix; the lookahead form consumes nothing and
succeeds only if the inner pattern matches no prefix of the remainder. -/
def go : Nat → Regex → List Char → List (List Char)
  | 0, _, _ => []
  | _ + 1, .eps, s => [s]
  | _ + 1, .lit c, s =>
    match s with
    | [] => []
    | a :: t => if a = c then [t] else []
  | _ + 1, .esc c, s =>
    match s with
    | [] => []
    | a :: t => if a = c then [t] else []
  | _ + 1, .anyd, s =>
    match s with
    | [] => []
    | a :: t => if chIn '0' '9' a then [t] else []
  | _ + 1, .dotAny, s =>
    match s with
    | [] => []
    | a :: t => if a = '\n' then [] else [t]
  | _ + 1, .hatA, s => [s]
  | _ + 1, .dollarA, s =>
    match s with
    | [] => [[]]
    | _ :: _ => []
  | _ + 1, .cls lo hi, s =>
    match s with
    | [] => []
    | a :: t => if chIn lo hi a then [t] else []
  | _ + 1, .clsL rs, s =>
    match s with
    | [] => []
    | a :: t => if inRanges rs a then [t] else []
  | f + 1, .cat a b, s => (go f a s).flatMap (fun t => go f b t)
  | f + 1, .alt a b, s => go f a s ++ go f b s
  | f + 1, .grp r, s => go f r s
  | f + 1, .opt r, s => go f r s ++ [s]
  | f + 1, .nlk r, s => if (go f r s).isEmpty then [s] else []
  | f + 1, .starR r, s =>
    s :: ((go f r s).filter (fun t => decide (t.length < s.length))).flatMap
      (fun t => go f (.starR r) t)
  | f + 1, .plusR r, s => (go f r s).flatMap (fun t => go f (.starR r) t)
  | f + 1, .repE r k, s =>
    match k with
    | 0 => [s]
    | k + 1 => (go f r s).flatMap (fun t => go f (.repE r k) t)
  | f + 1, .repL r k, s => (go f (.repE r k) s).flatMap (fun t => go f (.starR r) t)

/-- The matcher, run with enough fuel. -/
def mrun (r : Regex) (s : List Char) : List (List Char) :=
  go (rsize r + s.length) r s

/-- Anchored (whole-string) match of a pattern against a candidate. -/
def fullmatch (r : Regex) (s : List Char) : Bool :=
  (mrun r s).any (fun t => t.isEmpty)

/-- Patterns free of lookahead and of the context-sensitive anchors;
for these, matching a prefix is insensitive to the remainder of the
input. -/
def plain : Regex → Bool
  | .eps => true
  | .lit _ => true
  | .esc _ => true
  | .anyd => true
  | .dotAny => true
  | .hatA => false
  | .dollarA => false
  | .cls _ _ => true
  | .clsL _ => true
  | .cat a b => plain a && plain b
  | .alt a b => plain a && plain b
  | .grp r => plain r
  | .opt r => plain r
  | .nlk _ => false
  | .starR r => plain r
  | .plusR r => plain r
  | .repE r _ => plain r
  | .repL r _ => plain r

/-! ### Decimal digits and integer literals -/

/-- The ASCII character of a decimal digit value. -/
def dChar (d : Nat) : Char := Char.ofNat (48 + d)

/-- The decimal value of an ASCII digit character. -/
def dVal (c : Char) : Nat := c.toNat - 48

/-- All characters of the list are ASCII digits. -/
def allDigits (x : List Char) : Bool := x.all (chIn '0' '9')

/-- A multi-digit literal does not start with `0`. -/
def noLeadZero : List Char → Bool
  | c :: _ :: _ => !(c = '0')
  | _ => true

/-- A well-formed decimal integer literal: nonempty, ASCII digits only,
no leading zeros. -/
def ValidNum (x : List Char) : Prop :=
  x ≠ [] ∧ allDigits x = true ∧ noLeadZero x = true

instance decidableValidNum (x : List Char) : Decidable (ValidNum x) :=
  inferInstanceAs (Decidable (x ≠ [] ∧ allDigits x = true ∧ noLeadZero x = true))

/-- Value of a most-significant-first digit list. -/
def valBE (l : List Nat) : Nat := l.foldl (fun a d => 10 * a + d) 0

/-- Numeric value of a digit string. -/
def numVal (x : List Char) : Nat := valBE (x.map dVal)

/-- Decimal digits of `n`, most significant first, as produced by
`strconv.Itoa` (so `0` yields `[0]`). -/
def itoaDigits (n : Nat) : List Nat :=
  if n = 0 then [0] else (Nat.digits 10 n).reverse

/-- Decimal representation of `n` as characters (`strconv.Itoa`). -/
def itoaChars (n : Nat) : List Char := (itoaDigits n).map dChar

/-- The candidate version string `xs.ys.zs`. -/
def verStr (xs ys zs : List Char) : List Char :=
  xs ++ '.' :: ys ++ '.' :: zs

/-- Does the pattern string contain the negative-lookahead opener
`(?!` (the construct absent from lookahead-free dialects such as the
one the program targets)? -/
def containsLk (pat : List Char) : Bool :=
  (List.range (pat.length + 1)).any (fun i => ("(?!".toList).isPrefixOf (pat.drop i))

/-! ### String-level pattern constants (`regexes.go`)

Go strings are `List Char`; braces inside Lean string literals are
written with the `\x7b` / `\x7d` escapes. -/

/-- `REGEX_START`: the start anchor. -/
def REGEX_START : List Char := "^".toList

/-- `REGEX_END`: the end anchor. -/
def REGEX_END : List Char := "$".toList

/-- `REGEX_OR`: the alternation operator. -/
def REGEX_OR : List Char := "|".toList

/-- `VERSION_DIGITS`: one or more digits. -/
def VERSION_DIGITS : List Char := "\\d+".toList

/-- `VERSION_DOT`: a literal dot separator. -/
def VERSION_DOT : List Char := "\\.".toList

/-- `PRE_RELEASE_PATTERN`: optional pre-release identifiers. -/
def PRE_RELEASE_PATTERN : List Char := "(?:-[a-zA-Z0-9\\-\\.]+)?".toList

/-- `BUILD_META_PATTERN`: optional build metadata. -/
def BUILD_META_PATTERN : List Char := "(?:\\+[a-zA-Z0-9\\-\\.]+)?".toList

/-- `VERSION_SUFFIX_PATTERN`: pre-release then build metadata. -/
def VERSION_SUFFIX_PATTERN : List Char := PRE_RELEASE_PATTERN ++ BUILD_META_PATTERN

/-- `SEMANTIC_VERSION_CORE`: the core major.minor.patch pattern. -/
def SEMANTIC_VERSION_CORE : List Char :=
  VERSION_DIGITS ++ VERSION_DOT ++ VERSION_DIGITS ++ VERSION_DOT ++ VERSION_DIGITS

/-- `EXACT_VERSION_TEMPLATE`: an exact semantic version with optional suffixes. -/
def EXACT_VERSION_TEMPLATE : List Char :=
  REGEX_START ++ SEMANTIC_VERSION_CORE ++ VERSION_SUFFIX_PATTERN ++ REGEX_END

/-- `EMPTY_MATCH_PATTERN`: matches no versions (impossible constraints). -/
def EMPTY_MATCH_PATTERN : List Char := REGEX_START ++ "(?!.*)".toList ++ REGEX_END

/-! ### String-level digit-range synthesizer (`regexes.go`) -/

/-- `digitRangeUp`: a pattern matching digits from `d` to `9`. -/
def digitRangeUpS (d : Nat) : List Char :=
  if d = 9 then "9".toList else '[' :: dChar d :: "-9]".toList

/-- `digitRangeDown`: a pattern matching digits from `0` to `d`. -/
def digitRangeDownS (d : Nat) : List Char :=
  if d = 0 then "0".toList else "[0-".toList ++ dChar d :: "]".toList

/-- `strings.Join(patterns, REGEX_OR)`. -/
def joinBar : List (List Char) → List Char
  | [] => []
  | [p] => p
  | p :: ps => p ++ REGEX_OR ++ joinBar ps

/-- `joinPatterns`: joins patterns by alternation, grouping when there
is more than one. -/
def joinPatternsS : List (List Char) → List Char
  | [p] => p
  | ps => "(?:".toList ++ joinBar ps ++ ")".toList

/-- `NumGreaterOrEqual`: regex source matching integers `≥ n`. -/
def NumGreaterOrEqualS (n : Int) : List Char :=
  if n ≤ 0 then VERSION_DIGITS
  else
    let s := itoaChars n.toNat
    let numDigits := s.length
    let patterns : List (List Char) :=
      (if numDigits < 10 then ["\\d\x7b".toList ++ itoaChars (numDigits + 1) ++ ",\x7d".toList]
       else [])
      ++ (List.range numDigits).filterMap (fun i =>
        let digit := dVal (s.getD i '0')
        let pfx := s.take i
        let suffixLen := numDigits - i - 1
        if i = numDigits - 1 then
          some (pfx ++ digitRangeUpS digit)
        else if digit < 9 then
          some (pfx ++ digitRangeUpS (digit + 1)
            ++ "\\d\x7b".toList ++ itoaChars suffixLen ++ "\x7d".toList)
        else none)
    joinPatternsS patterns

/-- `NumLessOrEqual`: regex source matching integers `≤ n`. -/
def NumLessOrEqualS (n : Int) : List Char :=
  if n < 0 then EMPTY_MATCH_PATTERN
  else
    let s := itoaChars n.toNat
    let numDigits := s.length
    let patterns : List (List Char) :=
      (List.range' 1 (numDigits - 1)).map (fun d =>
        if d = 1 then "\\d".toList
        else "\\d\x7b".toList ++ itoaChars d ++ "\x7d".toList)
      ++ (List.range numDigits).filterMap (fun i =>
        let digit := dVal (s.getD i '0')
        let pfx := s.take i
        let suffixLen := numDigits - i - 1
        if i = numDigits - 1 then
          some (pfx ++ digitRangeDownS digit)
        else if 0 < digit then
          some (pfx ++ digitRangeDownS (digit - 1)
            ++ "\\d\x7b".toList ++ itoaChars suffixLen ++ "\x7d".toList)
        else none)
    joinPatternsS patterns

/-! ### Tree-level pattern constants

Each definition is the syntax tree of the corresponding string-level
fragment; `renderR` maps it back to exactly that string. -/

/-- A literal run of characters. -/
def litStr (cs : List Char) : Regex :=
  cs.foldr (fun c acc => .cat (.lit c) acc) .eps

/-- A literal run of decimal digits. -/
def litDigits (p : List Nat) : Regex := litStr (p.map dChar)

/-- A literal decimal number (`fmt.Sprintf("%d", m)`). -/
def litNumR (m : Nat) : Regex := litStr (itoaChars m)

/-- Tree form of `digitRangeUp`. -/
def digitRangeUpR (d : Nat) : Regex :=
  if d = 9 then .lit '9' else .cls (dChar d) '9'

/-- Tree form of `digitRangeDown`. -/
def digitRangeDownR (d : Nat) : Regex :=
  if d = 0 then .lit '0' else .cls '0' (dChar d)

/-- Alternation of a list of patterns (`strings.Join(·, "|")`). -/
def altListR : List Regex → Regex
  | [] => .eps
  | [p] => p
  | p :: ps => .alt p (altListR ps)

/-- Tree form of `joinPatterns`. -/
def joinPatternsR : List Regex → Regex
  | [p] => p
  | ps => .grp (altListR ps)

/-- Tree form of `VERSION_DOT`. -/
def dotR : Regex := .esc '.'

/-- Tree form of `VERSION_DIGITS`. -/
def digitsR : Regex := .plusR .anyd

/-- The character ranges of the pre-release / build-metadata class
`[a-zA-Z0-9\-\.]`. -/
def preClassRs : List (Char × Char) :=
  [('a', 'z'), ('A', 'Z'), ('0', '9'), ('-', '-'), ('.', '.')]

/-- Tree form of `PRE_RELEASE_PATTERN`. -/
def PRE_RELEASE_R : Regex :=
  .opt (.grp (.cat (.lit '-') (.plusR (.clsL preClassRs))))

/-- Tree form of `BUILD_META_PATTERN`. -/
def BUILD_META_R : Regex :=
  .opt (.grp (.cat (.esc '+') (.plusR (.clsL preClassRs))))

/-- Tree form of `VERSION_SUFFIX_PATTERN`. -/
def VERSION_SUFFIX_R : Regex := .cat PRE_RELEASE_R BUILD_META_R

/-- Tree form of `EMPTY_MATCH_PATTERN` (`^(?!.*)$`). -/
def emptyMatchR : Regex := .cat .hatA (.cat (.nlk (.starR .dotAny)) .dollarA)

/-- Tree form of `NumGreaterOrEqual` (`regexes.go`). -/
def NumGreaterOrEqualR (n : Int) : Regex :=
  if n ≤ 0 then digitsR
  else
    let s := itoaDigits n.toNat
    let numDigits := s.length
    let patterns : List Regex :=
      (if numDigits < 10 then [Regex.repL .anyd (numDigits + 1)] else [])
      ++ (List.range numDigits).filterMap (fun i =>
        let digit := s.getD i 0
        let pfx := s.take i
        let suffixLen := numDigits - i - 1
        if i = numDigits - 1 then
          some (Regex.cat (litDigits pfx) (digitRangeUpR digit))
        else if digit < 9 then
          some (.cat (litDigits pfx)
            (.cat (digitRangeUpR (digit + 1)) (.repE .anyd suffixLen)))
        else none)
    joinPatternsR patterns

/-- Tree form of `NumLessOrEqual` (`regexes.go`). -/
def NumLessOrEqualR (n : Int) : Regex :=
  if n < 0 then emptyMatchR
  else
    let s := itoaDigits n.toNat
    let numDigits := s.length
    let patterns : List Regex :=
      (List.range' 1 (numDigits - 1)).map (fun d =>
        if d = 1 then Regex.anyd else .repE .anyd d)
      ++ (List.range numDigits).filterMap (fun i =>
        let digit := s.getD i 0
        let pfx := s.take i
        let suffixLen := numDigits - i - 1
        if i = numDigits - 1 then
          some (Regex.cat (litDigits pfx) (digitRangeDownR digit))
        else if 0 < digit then
          some (.cat (litDigits pfx)
            (.cat (digitRangeDownR (digit - 1)) (.repE .anyd suffixLen)))
        else none)
    joinPatternsR patterns

/-- Anchored alternation with version suffix: the common gluing
`"^" + "(?:" + join + ")" + VERSION_SUFFIX_PATTERN + "$"` of the
comparison builders. -/
def anchoredGroupR (patterns : List Regex) : Regex :=
  .cat .hatA (.cat (.grp (altListR patterns)) (.cat VERSION_SUFFIX_R .dollarA))

/-- Tree form of the `>=` pattern body built by `greaterThanEqualRegex`
on the parsed triple. -/
def greaterThanEqualPatternR (major minor patch : Nat) : Regex :=
  anchoredGroupR [
    .cat (NumGreaterOrEqualR ((major : Int) + 1))
      (.cat dotR (.cat digitsR (.cat dotR digitsR))),
    .cat (litNumR major)
      (.cat dotR (.cat (NumGreaterOrEqualR ((minor : Int) + 1)) (.cat dotR digitsR))),
    .cat (litNumR major)
      (.cat dotR (.cat (litNumR minor) (.cat dotR (NumGreaterOrEqualR (patch : Int)))))]

/-- Tree form of the `<` pattern body built by `lessThanRegex` on the
parsed triple. -/
def lessThanPatternR (major minor patch : Nat) : Regex :=
  let patterns : List Regex :=
    (if major > 0 then
      [Regex.cat (NumLessOrEqualR ((major : Int) - 1))
        (.cat dotR (.cat digitsR (.cat dotR digitsR)))] else [])
    ++ (if minor > 0 then
      [Regex.cat (litNumR major)
        (.cat dotR (.cat (NumLessOrEqualR ((minor : Int) - 1)) (.cat dotR digitsR)))] else [])
    ++ (if patch > 0 then
      [Regex.cat (litNumR major)
        (.cat dotR (.cat (litNumR minor) (.cat dotR (NumLessOrEqualR ((patch : Int) - 1)))))] else [])
  if patterns = [] then emptyMatchR else anchoredGroupR patterns

/-- Tree form of the caret pattern built by `caretRangeRegex` on the
parsed triple (`CARET_RANGE_TEMPLATE` / `CARET_RANGE_ZERO_MAJOR_TEMPLATE`). -/
def caretPatternR (major minor : Nat) : Regex :=
  if major = 0 then
    .cat .hatA (.cat (.lit '0') (.cat dotR (.cat (litNumR minor)
      (.cat dotR (.cat digitsR (.cat VERSION_SUFFIX_R .dollarA))))))
  else
    .cat .hatA (.cat (litNumR major) (.cat dotR (.cat digitsR
      (.cat dotR (.cat digitsR (.cat VERSION_SUFFIX_R .dollarA))))))

/-! ### Rendering trees back to pattern source -/

/-- Source of one character range inside a class. -/
def renderRange (p : Char × Char) : List Char :=
  if p.1 = p.2 then ['\\', p.1] else [p.1, '-', p.2]

/-- Pattern source of a regex tree. -/
def renderR : Regex → List Char
  | .eps => []
  | .lit c => [c]
  | .esc c => ['\\', c]
  | .anyd => ['\\', 'd']
  | .dotAny => ['.']
  | .hatA => ['^']
  | .dollarA => ['$']
  | .cls lo hi => '[' :: lo :: '-' :: hi :: [']']
  | .clsL rs => '[' :: (rs.flatMap renderRange ++ [']'])
  | .cat a b => renderR a ++ renderR b
  | .alt a b => renderR a ++ '|' :: renderR b
  | .grp r => '(' :: '?' :: ':' :: (renderR r ++ [')'])
  | .opt r => renderR r ++ ['?']
  | .nlk r => '(' :: '?' :: '!' :: (renderR r ++ [')'])
  | .starR r => renderR r ++ ['*']
  | .plusR r => renderR r ++ ['+']
  | .repE r k => renderR r ++ '\x7b' :: (itoaChars k ++ ['\x7d'])
  | .repL r k => renderR r ++ '\x7b' :: (itoaChars k ++ [',', '\x7d'])

/-! ### Go library helpers used by the compiler -/

/-- Go whitespace characters trimmed by `strings.TrimSpace` (the
inputs of interest are ASCII). -/
def isSpaceGo (c : Char) : Bool :=
  c = ' ' || c = '\t' || c = '\n' || c = '\r' || c = '\x0b' || c = '\x0c'

/-- `strings.TrimSpace`. -/
def trimSpaceL (cs : List Char) : List Char :=
  ((cs.dropWhile isSpaceGo).reverse.dropWhile isSpaceGo).reverse

/-- `strings.Split(s, sep)` for a one-character separator. -/
def splitChar (sep : Char) (cs : List Char) : List (List Char) :=
  cs.splitOn sep

/-- `strings.Split(s, ".")`. -/
def splitDot (cs : List Char) : List (List Char) := splitChar '.' cs

/-- Substring containment (`strings.Contains`). -/
def containsSub (haystack needle : List Char) : Bool :=
  (List.range (haystack.length + 1)).any (fun i => needle.isPrefixOf (haystack.drop i))

/-- `strings.TrimPrefix`. -/
def trimPfx (p cs : List Char) : List Char :=
  if p.isPrefixOf cs then cs.drop p.length else cs

/-- `strings.TrimSuffix`. -/
def trimSfx (p cs : List Char) : List Char :=
  if p.isSuffixOf cs then cs.take (cs.length - p.length) else cs

/-- `strconv.Atoi` on the sign-free component strings produced by the
version splitter (they contain neither `-` nor `+`, so this is exactly
a base-10 digit parse; empty or non-digit input is an error). -/
def atoiL (cs : List Char) : Option Nat :=
  if cs.isEmpty then none
  else if cs.all (chIn '0' '9') then some (valBE (cs.map dVal)) else none

/-- The characters escaped by `regexp.QuoteMeta`. -/
def isSpecialRE (c : Char) : Bool :=
  c = '\\' || c = '.' || c = '+' || c = '*' || c = '?' || c = '(' || c = ')' ||
  c = '|' || c = '[' || c = ']' || c = '\x7b' || c = '\x7d' || c = '^' || c = '$'

/-- `regexp.QuoteMeta`. -/
def quoteMetaL (cs : List Char) : List Char :=
  cs.flatMap (fun c => if isSpecialRE c then ['\\', c] else [c])

/-! ### Constraint data model -/

/-- Structured form of the compiler's error values: a parse error names
the offending component text, and the unsupported-operator error names
the operator. -/
inductive ConvErr where
  | invalidMajor (s : List Char)
  | invalidMinor (s : List Char)
  | invalidPatch (s : List Char)
  | unsupportedOperator (op : List Char)
  | mavenFormat (s : List Char)
  | mavenBrackets (s : List Char)
  deriving DecidableEq, Repr

/-- `VersionConstraint`: a parsed operator tag and version literal. -/
structure VersionConstraintL where
  Operator : List Char
  Version : List Char
  deriving DecidableEq, Repr

/-- `OP_GREATER_EQUAL = ">="` (the operator-tag const block of the
types file, `src/unnamed/part_005`). -/
def OP_GREATER_EQUAL : List Char := ">=".toList

/-- `OP_LESS_EQUAL = "<="`. -/
def OP_LESS_EQUAL : List Char := "<=".toList

/-- `OP_NOT_EQUAL = "!="`. -/
def OP_NOT_EQUAL : List Char := "!=".toList

/-- `OP_EQUAL_EQUAL = "=="`. -/
def OP_EQUAL_EQUAL : List Char := "==".toList

/-- `OP_PESSIMISTIC = "~>"`. -/
def OP_PESSIMISTIC : List Char := "~>".toList

/-- `OP_COMPATIBLE = "~="`. -/
def OP_COMPATIBLE : List Char := "~=".toList

/-- `OP_GREATER = ">"`. -/
def OP_GREATER : List Char := ">".toList

/-- `OP_LESS = "<"`. -/
def OP_LESS : List Char := "<".toList

/-- `OP_EQUAL = "="`. -/
def OP_EQUAL : List Char := "=".toList

/-- `OP_CARET = "^"`. -/
def OP_CARET : List Char := "^".toList

/-- `OP_TILDE = "~"`. -/
def OP_TILDE : List Char := "~".toList

/-- `OP_MAVEN_RANGE = "maven-range"` (the synthetic tag
`parseMavenRange` attaches to bracket ranges). -/
def OP_MAVEN_RANGE : List Char := "maven-range".toList

/-- The operator list of `parseVersionConstraint`, in source order
(multi-character operators before their single-character prefixes). -/
def operatorsL : List (List Char) :=
  [OP_GREATER_EQUAL, OP_LESS_EQUAL, OP_NOT_EQUAL, OP_EQUAL_EQUAL,
   OP_PESSIMISTIC, OP_COMPATIBLE, OP_GREATER, OP_LESS, OP_EQUAL,
   OP_CARET, OP_TILDE]

/-! ### Constraint parser (`parseVersionConstraint`, `parseMavenRange`) -/

/-- `parseMavenRange`: validates the bracket syntax and keeps the
range content. -/
def parseMavenRangeL (versionStr : List Char) : Except ConvErr VersionConstraintL :=
  if versionStr.length < 3 then .error (.mavenFormat versionStr)
  else
    let openChar := versionStr.headD ' '
    let closeChar := versionStr.getLastD ' '
    if (openChar ≠ '[' ∧ openChar ≠ '(') ∨ (closeChar ≠ ']' ∧ closeChar ≠ ')') then
      .error (.mavenBrackets versionStr)
    else
      .ok ⟨OP_MAVEN_RANGE, (versionStr.drop 1).dropLast⟩

/-- The operator-scan loop of `parseVersionConstraint`. -/
def findOp : List (List Char) → List Char → Option VersionConstraintL
  | [], _ => none
  | op :: rest, v =>
    if op.isPrefixOf v then some ⟨op, trimSpaceL (v.drop op.length)⟩
    else findOp rest v

/-- `parseVersionConstraint`: bracket ranges first, then the operator
prefixes in precedence order, defaulting to exact match. -/
def parseVersionConstraintL (versionStr : List Char) : Except ConvErr VersionConstraintL :=
  let vs := trimSpaceL versionStr
  if vs.head? = some '[' ∨ vs.head? = some '(' then parseMavenRangeL vs
  else
    match findOp operatorsL vs with
    | some c => .ok c
    | none => .ok ⟨OP_EQUAL_EQUAL, vs⟩

/-! ### Version-part parsing (`parseVersionParts`) -/

/-- `parseVersionParts`: strips pre-release and build metadata, splits
on dots and parses up to three numeric components (missing components
default to 0). -/
def parseVersionPartsL (version : List Char) : Except ConvErr (Nat × Nat × Nat) :=
  let cleanVersion := version.takeWhile (fun c => !(c = '-'))
  let cleanVersion := cleanVersion.takeWhile (fun c => !(c = '+'))
  let parts := splitDot cleanVersion
  match atoiL (parts.getD 0 []) with
  | none => .error (.invalidMajor (parts.getD 0 []))
  | some major =>
    if parts.length < 2 then .ok (major, 0, 0)
    else
      match atoiL (parts.getD 1 []) with
      | none => .error (.invalidMinor (parts.getD 1 []))
      | some minor =>
        if parts.length < 3 then .ok (major, minor, 0)
        else
          match atoiL (parts.getD 2 []) with
          | none => .error (.invalidPatch (parts.getD 2 []))
          | some patch => .ok (major, minor, patch)

/-! ### Exact-match formatters (`exactMatchRegex` and the ecosystem
formatters of `golang.go`, `csharp.go`, the wildcard converter) -/

/-- `convertWildcardParts`: each part is either the digit matcher (for
`*`) or the quoted literal. -/
def convertWildcardPartsL (parts : List (List Char)) : List (List Char) :=
  parts.map (fun part =>
    if part = "*".toList then VERSION_DIGITS else quoteMetaL part)

/-- The padding loop of `padToSemanticVersion`. -/
def padTo3 (l : List (List Char)) : List (List Char) :=
  if l.length < 3 then padTo3 (l ++ [VERSION_DIGITS]) else l
  termination_by 3 - l.length
  decreasing_by simp; omega

/-- `padToSemanticVersion`: appends digit matchers up to three parts
when the last original part is a wildcard. -/
def padToSemanticVersionL (patternParts originalParts : List (List Char)) :
    List (List Char) :=
  if originalParts = [] then patternParts
  else if originalParts.getLastD [] ≠ "*".toList then patternParts
  else padTo3 patternParts

/-- `wildcardToRegex`. -/
def wildcardToRegexS (version : List Char) : List Char :=
  let parts := splitDot version
  let patternParts := convertWildcardPartsL parts
  let patternParts := padToSemanticVersionL patternParts parts
  REGEX_START ++ List.intercalate VERSION_DOT patternParts
    ++ VERSION_SUFFIX_PATTERN ++ REGEX_END

/-- `isGoModuleVersion`: a `v` prefix and more than the prefix. -/
def isGoModuleVersionL (version : List Char) : Bool :=
  ("v".toList).isPrefixOf version && version.length > 1

/-- The per-part pattern of the `goModuleVersionRegex` loop. -/
def goPartPattern (part : List Char) : List Char :=
  if part.contains '-' then
    let preParts := splitChar '-' part
    quoteMetaL (preParts.getD 0 []) ++
      (if preParts.length > 1 then
        "(?:-".toList
          ++ quoteMetaL (List.intercalate ("-".toList) (preParts.drop 1))
          ++ ".*)?".toList
       else [])
  else quoteMetaL part

/-- `goModuleVersionRegex`: exact pattern for pseudo-versions, else a
per-part pattern with optional pre-release tail. -/
def goModuleVersionRegexS (version : List Char) : List Char :=
  let cleanVersion := version.drop 1
  if cleanVersion.contains '-' ∧ (splitChar '-' cleanVersion).length ≥ 3 ∧
      (splitChar '-' cleanVersion).getD 0 [] = "0.0.0".toList ∧
      ((splitChar '-' cleanVersion).getD 1 []).length = 14 ∧
      ((splitChar '-' cleanVersion).getD 2 []).length = 12 then
    REGEX_START ++ quoteMetaL version ++ REGEX_END
  else
    let parts := splitDot cleanVersion
    REGEX_START ++ "v".toList
      ++ List.intercalate VERSION_DOT (parts.map goPartPattern)
      ++ (if !(cleanVersion.contains '-') then PRE_RELEASE_PATTERN else [])
      ++ REGEX_END

/-- `containsCSharpPreRelease`. -/
def containsCSharpPreReleaseL (version : List Char) : Bool :=
  containsSub version ("-alpha".toList) || containsSub version ("-beta".toList) ||
  containsSub version ("-rc".toList) || containsSub version ("-preview".toList)

/-- `isCSharpVersion`: four dot-parts or a C# pre-release marker. -/
def isCSharpVersionL (version : List Char) : Bool :=
  decide ((splitDot version).length = 4) || containsCSharpPreReleaseL version

/-- `csharpVersionRegex`. -/
def csharpVersionRegexS (version : List Char) : List Char :=
  let preRelease := version.dropWhile (fun c => !(c = '-'))
  let mainVersion := version.takeWhile (fun c => !(c = '-'))
  let parts := splitDot mainVersion
  REGEX_START ++ List.intercalate VERSION_DOT (parts.map quoteMetaL)
    ++ (if preRelease ≠ [] then quoteMetaL preRelease
        else "(?:-(?:alpha|beta|rc|preview)(?:\\d+)?(?:\\.\\d+)?)?".toList)
    ++ REGEX_END

/-- `exactMatchRegex`: wildcard, Go-module and C# detection, else the
quoted literal with the optional suffix patterns. -/
def exactMatchRegexS (version : List Char) : List Char :=
  if version.contains '*' then wildcardToRegexS version
  else if isGoModuleVersionL version then goModuleVersionRegexS version
  else if isCSharpVersionL version then csharpVersionRegexS version
  else
    let buildMeta := version.dropWhile (fun c => !(c = '+'))
    let mainVersion := version.takeWhile (fun c => !(c = '+'))
    let preRelease := mainVersion.dropWhile (fun c => !(c = '-'))
    let mainVersion := mainVersion.takeWhile (fun c => !(c = '-'))
    let parts := splitDot mainVersion
    REGEX_START ++ List.intercalate VERSION_DOT (parts.map quoteMetaL)
      ++ (if preRelease ≠ [] then quoteMetaL preRelease else PRE_RELEASE_PATTERN)
      ++ (if buildMeta ≠ [] then quoteMetaL buildMeta else BUILD_META_PATTERN)
      ++ REGEX_END

/-! ### Comparison builders (string level) -/

/-- The `>=` pattern on the parsed triple (`greaterThanEqualRegex`). -/
def greaterThanEqualPatternS (major minor patch : Nat) : List Char :=
  let patterns : List (List Char) := [
    NumGreaterOrEqualS ((major : Int) + 1)
      ++ VERSION_DOT ++ VERSION_DIGITS ++ VERSION_DOT ++ VERSION_DIGITS,
    itoaChars major ++ VERSION_DOT ++ NumGreaterOrEqualS ((minor : Int) + 1)
      ++ VERSION_DOT ++ VERSION_DIGITS,
    itoaChars major ++ VERSION_DOT ++ itoaChars minor ++ VERSION_DOT
      ++ NumGreaterOrEqualS (patch : Int)]
  REGEX_START ++ "(?:".toList ++ joinBar patterns ++ ")".toList
    ++ VERSION_SUFFIX_PATTERN ++ REGEX_END

/-- `greaterThanEqualRegex`. -/
def greaterThanEqualRegexS (version : List Char) : Except ConvErr (List Char) :=
  (parseVersionPartsL version).map (fun t => greaterThanEqualPatternS t.1 t.2.1 t.2.2)

/-- The `<=` pattern on the parsed triple (`lessThanEqualRegex`). -/
def lessThanEqualPatternS (major minor patch : Nat) : List Char :=
  let patterns : List (List Char) :=
    (if major > 0 then
      [NumLessOrEqualS ((major : Int) - 1)
        ++ VERSION_DOT ++ VERSION_DIGITS ++ VERSION_DOT ++ VERSION_DIGITS] else [])
    ++ (if minor > 0 then
      [itoaChars major ++ VERSION_DOT ++ NumLessOrEqualS ((minor : Int) - 1)
        ++ VERSION_DOT ++ VERSION_DIGITS] else [])
    ++ [itoaChars major ++ VERSION_DOT ++ itoaChars minor ++ VERSION_DOT
        ++ NumLessOrEqualS (patch : Int)]
  REGEX_START ++ "(?:".toList ++ joinBar patterns ++ ")".toList
    ++ VERSION_SUFFIX_PATTERN ++ REGEX_END

/-- `lessThanEqualRegex`. -/
def lessThanEqualRegexS (version : List Char) : Except ConvErr (List Char) :=
  (parseVersionPartsL version).map (fun t => lessThanEqualPatternS t.1 t.2.1 t.2.2)

/-- The `>` pattern on the parsed triple (`greaterThanRegex`). -/
def greaterThanPatternS (major minor patch : Nat) : List Char :=
  let patterns : List (List Char) := [
    NumGreaterOrEqualS ((major : Int) + 1)
      ++ VERSION_DOT ++ VERSION_DIGITS ++ VERSION_DOT ++ VERSION_DIGITS,
    itoaChars major ++ VERSION_DOT ++ NumGreaterOrEqualS ((minor : Int) + 1)
      ++ VERSION_DOT ++ VERSION_DIGITS,
    itoaChars major ++ VERSION_DOT ++ itoaChars minor ++ VERSION_DOT
      ++ NumGreaterOrEqualS ((patch : Int) + 1)]
  REGEX_START ++ "(?:".toList ++ joinBar patterns ++ ")".toList
    ++ VERSION_SUFFIX_PATTERN ++ REGEX_END

/-- `greaterThanRegex`. -/
def greaterThanRegexS (version : List Char) : Except ConvErr (List Char) :=
  (parseVersionPartsL version).map (fun t => greaterThanPatternS t.1 t.2.1 t.2.2)

/-- The `<` pattern on the parsed triple (`lessThanRegex`): every
clause is guarded, and the contradiction pattern is returned when all
clauses vanish. -/
def lessThanPatternS (major minor patch : Nat) : List Char :=
  let patterns : List (List Char) :=
    (if major > 0 then
      [NumLessOrEqualS ((major : Int) - 1)
        ++ VERSION_DOT ++ VERSION_DIGITS ++ VERSION_DOT ++ VERSION_DIGITS] else [])
    ++ (if minor > 0 then
      [itoaChars major ++ VERSION_DOT ++ NumLessOrEqualS ((minor : Int) - 1)
        ++ VERSION_DOT ++ VERSION_DIGITS] else [])
    ++ (if patch > 0 then
      [itoaChars major ++ VERSION_DOT ++ itoaChars minor ++ VERSION_DOT
        ++ NumLessOrEqualS ((patch : Int) - 1)] else [])
  if patterns = [] then EMPTY_MATCH_PATTERN
  else
    REGEX_START ++ "(?:".toList ++ joinBar patterns ++ ")".toList
      ++ VERSION_SUFFIX_PATTERN ++ REGEX_END

/-- `lessThanRegex`. -/
def lessThanRegexS (version : List Char) : Except ConvErr (List Char) :=
  (parseVersionPartsL version).map (fun t => lessThanPatternS t.1 t.2.1 t.2.2)

/-- `NOT_EQUAL_BASE_PATTERN` applied to the exact core (the raw Go
constant keeps its doubled backslashes verbatim). -/
def notEqualBasePattern (core : List Char) : List Char :=
  REGEX_START ++ "(?!".toList ++ core ++ REGEX_END ++ ")".toList
    ++ "\\d+(?:\\.\\d+)?(?:\\.\\d+)?".toList
    ++ "(?:-[a-zA-Z0-9\\\\-\\\\.]+)?(?:\\\\+[a-zA-Z0-9\\\\-\\\\.]+)?".toList
    ++ REGEX_END

/-- `notEqualRegex`: negative lookahead around the exact-match core. -/
def notEqualRegexS (version : List Char) : Except ConvErr (List Char) :=
  let exactPattern := exactMatchRegexS version
  let exactCore := trimPfx REGEX_START (trimSfx REGEX_END exactPattern)
  .ok (notEqualBasePattern exactCore)

/-- The caret pattern on the parsed triple (`caretRangeRegex` using
`CARET_RANGE_TEMPLATE`, or the zero-major template when `major = 0`). -/
def caretPatternS (major minor : Nat) : List Char :=
  if major = 0 then
    REGEX_START ++ "0".toList ++ VERSION_DOT ++ itoaChars minor ++ VERSION_DOT
      ++ VERSION_DIGITS ++ VERSION_SUFFIX_PATTERN ++ REGEX_END
  else
    REGEX_START ++ itoaChars major ++ VERSION_DOT ++ VERSION_DIGITS ++ VERSION_DOT
      ++ VERSION_DIGITS ++ VERSION_SUFFIX_PATTERN ++ REGEX_END

/-- `caretRangeRegex`. -/
def caretRangeRegexS (version : List Char) : Except ConvErr (List Char) :=
  (parseVersionPartsL version).map (fun t => caretPatternS t.1 t.2.1)

/-- The tilde pattern on the parsed triple (`tildeRangeRegex` using
`TILDE_RANGE_TEMPLATE`). -/
def tildePatternS (major minor : Nat) : List Char :=
  REGEX_START ++ itoaChars major ++ VERSION_DOT ++ itoaChars minor ++ VERSION_DOT
    ++ VERSION_DIGITS ++ VERSION_SUFFIX_PATTERN ++ REGEX_END

/-- `tildeRangeRegex`. -/
def tildeRangeRegexS (version : List Char) : Except ConvErr (List Char) :=
  (parseVersionPartsL version).map (fun t => tildePatternS t.1 t.2.1)

/-- `compatibleReleaseRegex` delegates to the tilde range. -/
def compatibleReleaseRegexS (version : List Char) : Except ConvErr (List Char) :=
  tildeRangeRegexS version

/-! ### Maven formatter (string level) -/

/-- `parseMavenRangeBounds`. -/
def parseMavenRangeBoundsL (rangeStr : List Char) :
    Except ConvErr (List Char × List Char) :=
  let parts := splitChar ',' rangeStr
  if parts.length ≠ 2 then .error (.mavenFormat rangeStr)
  else .ok (trimSpaceL (parts.getD 0 []), trimSpaceL (parts.getD 1 []))

/-- `extractMajorVersion` (parse errors are discarded, yielding 0). -/
def extractMajorVersionL (version : List Char) : Nat :=
  (atoiL ((splitDot version).getD 0 [])).getD 0

/-- `mavenBothBoundsPattern`. -/
def mavenBothBoundsPatternS (lowerBound upperBound : List Char) : List Char :=
  let lowerMajor := extractMajorVersionL lowerBound
  let upperMajor := extractMajorVersionL upperBound
  if lowerMajor = upperMajor then
    REGEX_START ++ itoaChars lowerMajor ++ VERSION_DOT ++ VERSION_DIGITS
      ++ VERSION_DOT ++ VERSION_DIGITS ++ VERSION_SUFFIX_PATTERN ++ REGEX_END
  else
    REGEX_START ++ "[".toList ++ itoaChars lowerMajor ++ "-".toList
      ++ itoaChars upperMajor ++ "]".toList ++ VERSION_DOT ++ VERSION_DIGITS
      ++ VERSION_DOT ++ VERSION_DIGITS ++ VERSION_SUFFIX_PATTERN ++ REGEX_END

/-- `mavenLowerBoundPattern`. -/
def mavenLowerBoundPatternS (lowerBound : List Char) : List Char :=
  let lowerMajor := extractMajorVersionL lowerBound
  REGEX_START ++ "(?:[".toList ++ itoaChars lowerMajor
    ++ "-9]|\\d\x7b2,\x7d)".toList ++ VERSION_DOT ++ VERSION_DIGITS
    ++ VERSION_DOT ++ VERSION_DIGITS ++ VERSION_SUFFIX_PATTERN ++ REGEX_END

/-- `mavenUpperBoundPattern`. -/
def mavenUpperBoundPatternS (upperBound : List Char) : List Char :=
  let upperMajor := extractMajorVersionL upperBound
  if upperMajor > 0 then
    REGEX_START ++ "[0-".toList ++ itoaChars upperMajor ++ "]".toList
      ++ VERSION_DOT ++ VERSION_DIGITS ++ VERSION_DOT ++ VERSION_DIGITS
      ++ VERSION_SUFFIX_PATTERN ++ REGEX_END
  else
    REGEX_START ++ "0".toList ++ VERSION_DOT ++ VERSION_DIGITS ++ VERSION_DOT
      ++ VERSION_DIGITS ++ VERSION_SUFFIX_PATTERN ++ REGEX_END

/-- `mavenRangeRegex`. -/
def mavenRangeRegexS (rangeStr : List Char) : Except ConvErr (List Char) :=
  (parseMavenRangeBoundsL rangeStr).map (fun b =>
    if b.1 ≠ [] ∧ b.2 ≠ [] then mavenBothBoundsPatternS b.1 b.2
    else if b.1 ≠ [] then mavenLowerBoundPatternS b.1
    else if b.2 ≠ [] then mavenUpperBoundPatternS b.2
    else EXACT_VERSION_TEMPLATE)

/-! ### Dispatch (`constraintToRegex`, `VersionToRegex`) -/

/-- `constraintToRegex`: single dispatch on the operator tag. -/
def constraintToRegexL (c : VersionConstraintL) : Except ConvErr (List Char) :=
  let version := c.Version
  if c.Operator = OP_EQUAL_EQUAL ∨ c.Operator = OP_EQUAL then
    .ok (exactMatchRegexS version)
  else if c.Operator = OP_GREATER_EQUAL then greaterThanEqualRegexS version
  else if c.Operator = OP_LESS_EQUAL then lessThanEqualRegexS version
  else if c.Operator = OP_GREATER then greaterThanRegexS version
  else if c.Operator = OP_LESS then lessThanRegexS version
  else if c.Operator = OP_NOT_EQUAL then notEqualRegexS version
  else if c.Operator = OP_CARET then caretRangeRegexS version
  else if c.Operator = OP_TILDE ∨ c.Operator = OP_PESSIMISTIC then
    tildeRangeRegexS version
  else if c.Operator = OP_COMPATIBLE then compatibleReleaseRegexS version
  else if c.Operator = OP_MAVEN_RANGE then mavenRangeRegexS version
  else .error (.unsupportedOperator c.Operator)

/-- `VersionToRegex` up to the final `regexp.Compile` call: parse the
constraint, then convert it to a pattern string (each stage's error is
propagated to the caller). -/
def VersionToRegexL (versionStr : List Char) : Except ConvErr (List Char) :=
  (parseVersionConstraintL versionStr).bind constraintToRegexL

/-! ## Matcher infrastructure -/

theorem rsize_pos (r : Regex) : 1 ≤ rsize r := by
  cases r <;> simp [rsize]

theorem go_sublen :
    ∀ (f : Nat) (r : Regex) (s t : List Char), t ∈ go f r s → t.length ≤ s.length := by
  intro f
  induction f with
  | zero => intro r s t h; simp [go] at h
  | succ f ih =>
    intro r s t h
    cases r with
    | eps => simp [go] at h; simp [h]
    | lit c =>
      cases s with
      | nil => simp [go] at h
      | cons a s' =>
        simp only [go] at h
        split at h <;> simp_all
    | esc c =>
      cases s with
      | nil => simp [go] at h
      | cons a s' =>
        simp only [go] at h
        split at h <;> simp_all
    | anyd =>
      cases s with
      | nil => simp [go] at h
      | cons a s' =>
        simp only [go] at h
        split at h <;> simp_all
    | dotAny =>
      cases s with
      | nil => simp [go] at h
      | cons a s' =>
        simp only [go] at h
        split at h <;> simp_all
    | hatA => simp [go] at h; simp [h]
    | dollarA =>
      cases s with
      | nil => simp [go] at h; simp [h]
      | cons a s' => simp [go] at h
    | cls lo hi =>
      cases s with
      | nil => simp [go] at h
      | cons a s' =>
        simp only [go] at h
        split at h <;> simp_all
    | clsL rs =>
      cases s with
      | nil => simp [go] at h
      | cons a s' =>
        simp only [go] at h
        split at h <;> simp_all
    | cat a b =>
      simp only [go, List.mem_flatMap] at h
      obtain ⟨u, hu, ht⟩ := h
      exact le_trans (ih b u t ht) (ih a s u hu)
    | alt a b =>
      simp only [go, List.mem_append] at h
      rcases h with h | h
      · exact ih a s t h
      · exact ih b s t h
    | grp r => simp only [go] at h; exact ih r s t h
    | opt r =>
      simp only [go, List.mem_append, List.mem_singleton] at h
      rcases h with h | h
      · exact ih r s t h
      · simp [h]
    | nlk r =>
      simp only [go] at h
      split at h <;> simp_all
    | starR r =>
      simp only [go, List.mem_cons, List.mem_flatMap, List.mem_filter] at h
      rcases h with h | ⟨u, ⟨_, hlen⟩, ht⟩
      · simp [h]
      · have := ih (.starR r) u t ht
        simp at hlen
        omega
    | plusR r =>
      simp only [go, List.mem_flatMap] at h
      obtain ⟨u, hu, ht⟩ := h
      exact le_trans (ih (.starR r) u t ht) (ih r s u hu)
    | repE r k =>
      cases k with
      | zero => simp [go] at h; simp [h]
      | succ k =>
        simp only [go, List.mem_flatMap] at h
        obtain ⟨u, hu, ht⟩ := h
        exact le_trans (ih (.repE r k) u t ht) (ih r s u hu)
    | repL r k =>
      simp only [go, List.mem_flatMap] at h
      obtain ⟨u, hu, ht⟩ := h
      exact le_trans (ih (.starR r) u t ht) (ih (.repE r k) s u hu)

theorem flatMap_congr_mem {α β : Type} {l : List α} {f g : α → List β}
    (h : ∀ a ∈ l, f a = g a) : l.flatMap f = l.flatMap g := by
  induction l with
  | nil => rfl
  | cons a l ih =>
    simp only [List.flatMap_cons]
    rw [h a (by simp), ih (fun b hb => h b (by simp [hb]))]

theorem go_stable :
    ∀ (f₁ f₂ : Nat) (r : Regex) (s : List Char),
      rsize r + s.length ≤ f₁ → rsize r + s.length ≤ f₂ →
      go f₁ r s = go f₂ r s := by
  intro f₁
  induction f₁ with
  | zero => intro f₂ r s h₁ _; have := rsize_pos r; omega
  | succ f ih =>
    intro f₂ r s h₁ h₂
    have hr := rsize_pos r
    cases f₂ with
    | zero => omega
    | succ g =>
      cases r with
      | eps => simp [go]
      | lit c => cases s <;> simp [go]
      | esc c => cases s <;> simp [go]
      | anyd => cases s <;> simp [go]
      | dotAny => cases s <;> simp [go]
      | hatA => simp [go]
      | dollarA => cases s <;> simp [go]
      | cls lo hi => cases s <;> simp [go]
      | clsL rs => cases s <;> simp [go]
      | cat a b =>
        simp only [go]
        have hsa := rsize_pos a
        have hsb := rsize_pos b
        simp only [rsize] at h₁ h₂
        rw [ih g a s (by omega) (by omega)]
        apply flatMap_congr_mem
        intro t ht
        have := go_sublen g a s t ht
        exact ih g b t (by omega) (by omega)
      | alt a b =>
        have hsa := rsize_pos a
        have hsb := rsize_pos b
        simp only [rsize] at h₁ h₂
        simp only [go]
        rw [ih g a s (by omega) (by omega), ih g b s (by omega) (by omega)]
      | grp r =>
        simp only [rsize] at h₁ h₂
        simp only [go]
        exact ih g r s (by omega) (by omega)
      | opt r =>
        simp only [rsize] at h₁ h₂
        simp only [go]
        rw [ih g r s (by omega) (by omega)]
      | nlk r =>
        simp only [rsize] at h₁ h₂
        simp only [go]
        rw [ih g r s (by omega) (by omega)]
      | starR r =>
        simp only [rsize] at h₁ h₂
        have hsr := rsize_pos r
        simp only [go]
        rw [ih g r s (by omega) (by omega)]
        congr 1
        apply flatMap_congr_mem
        intro t ht
        simp only [List.mem_filter, decide_eq_true_eq] at ht
        exact ih g (.starR r) t (by simp only [rsize]; omega) (by simp only [rsize]; omega)
      | plusR r =>
        simp only [rsize] at h₁ h₂
        have hsr := rsize_pos r
        simp only [go]
        rw [ih g r s (by omega) (by omega)]
        apply flatMap_congr_mem
        intro t ht
        have := go_sublen g r s t ht
        exact ih g (.starR r) t (by simp only [rsize]; omega) (by simp only [rsize]; omega)
      | repE r k =>
        simp only [rsize] at h₁ h₂
        have hsr := rsize_pos r
        cases k with
        | zero => simp [go]
        | succ k =>
          simp only [go]
          rw [ih g r s (by omega) (by omega)]
          apply flatMap_congr_mem
          intro t ht
          have := go_sublen g r s t ht
          exact ih g (.repE r k) t (by simp only [rsize]; omega) (by simp only [rsize]; omega)
      | repL r k =>
        simp only [rsize] at h₁ h₂
        have hsr := rsize_pos r
        simp only [go]
        rw [ih g (.repE r k) s (by simp only [rsize]; omega) (by simp only [rsize]; omega)]
        apply flatMap_congr_mem
        intro t ht
        have := go_sublen g (.repE r k) s t ht
        exact ih g (.starR r) t (by simp only [rsize]; omega) (by simp only [rsize]; omega)

theorem go_eq_mrun (f : Nat) (r : Regex) (s : List Char)
    (h : rsize r + s.length ≤ f) : go f r s = mrun r s :=
  go_stable f (rsize r + s.length) r s h le_rfl

theorem mrun_sublen {r : Regex} {s t : List Char} (h : t ∈ mrun r s) :
    t.length ≤ s.length :=
  go_sublen _ r s t h

theorem mrun_unfold (r : Regex) (s : List Char) :
    mrun r s = go (rsize r - 1 + s.length + 1) r s := by
  rw [mrun]
  congr 1
  have := rsize_pos r
  omega

theorem mrun_eps (s : List Char) : mrun .eps s = [s] := by
  rw [mrun_unfold]; simp [go]

theorem mrun_lit (c : Char) (s : List Char) :
    mrun (.lit c) s =
      match s with
      | [] => []
      | a :: t => if a = c then [t] else [] := by
  rw [mrun_unfold]; cases s <;> simp [go]

theorem mrun_esc (c : Char) (s : List Char) :
    mrun (.esc c) s =
      match s with
      | [] => []
      | a :: t => if a = c then [t] else [] := by
  rw [mrun_unfold]; cases s <;> simp [go]

theorem mrun_anyd (s : List Char) :
    mrun .anyd s =
      match s with
      | [] => []
      | a :: t => if chIn '0' '9' a then [t] else [] := by
  rw [mrun_unfold]; cases s <;> simp [go]

theorem mrun_dotAny (s : List Char) :
    mrun .dotAny s =
      match s with
      | [] => []
      | a :: t => if a = '\n' then [] else [t] := by
  rw [mrun_unfold]; cases s <;> simp [go]

theorem mrun_hatA (s : List Char) : mrun .hatA s = [s] := by
  rw [mrun_unfold]; simp [go]

theorem mrun_dollarA (s : List Char) :
    mrun .dollarA s = match s with | [] => [[]] | _ :: _ => [] := by
  rw [mrun_unfold]; cases s <;> simp [go]

theorem mrun_cls (lo hi : Char) (s : List Char) :
    mrun (.cls lo hi) s =
      match s with
      | [] => []
      | a :: t => if chIn lo hi a then [t] else [] := by
  rw [mrun_unfold]; cases s <;> simp [go]

theorem mrun_clsL (rs : List (Char × Char)) (s : List Char) :
    mrun (.clsL rs) s =
      match s with
      | [] => []
      | a :: t => if inRanges rs a then [t] else [] := by
  rw [mrun_unfold]; cases s <;> simp [go]

theorem mrun_cat (a b : Regex) (s : List Char) :
    mrun (.cat a b) s = (mrun a s).flatMap (fun t => mrun b t) := by
  rw [mrun_unfold]
  simp only [go]
  rw [go_eq_mrun _ a s (by simp only [rsize]; omega)]
  apply flatMap_congr_mem
  intro t ht
  have := mrun_sublen ht
  exact go_eq_mrun _ b t (by simp only [rsize]; omega)

theorem mrun_alt (a b : Regex) (s : List Char) :
    mrun (.alt a b) s = mrun a s ++ mrun b s := by
  rw [mrun_unfold]
  simp only [go]
  rw [go_eq_mrun _ a s (by simp only [rsize]; omega),
    go_eq_mrun _ b s (by simp only [rsize]; omega)]

theorem mrun_grp (r : Regex) (s : List Char) : mrun (.grp r) s = mrun r s := by
  rw [mrun_unfold]
  simp only [go]
  exact go_eq_mrun _ r s (by simp only [rsize]; omega)

theorem mrun_opt (r : Regex) (s : List Char) :
    mrun (.opt r) s = mrun r s ++ [s] := by
  rw [mrun_unfold]
  simp only [go]
  rw [go_eq_mrun _ r s (by simp only [rsize]; omega)]

theorem mrun_nlk (r : Regex) (s : List Char) :
    mrun (.nlk r) s = if (mrun r s).isEmpty then [s] else [] := by
  rw [mrun_unfold]
  simp only [go]
  rw [go_eq_mrun _ r s (by simp only [rsize]; omega)]

theorem mrun_starR (r : Regex) (s : List Char) :
    mrun (.starR r) s =
      s :: ((mrun r s).filter (fun t => decide (t.length < s.length))).flatMap
        (fun t => mrun (.starR r) t) := by
  rw [mrun_unfold]
  simp only [go]
  rw [go_eq_mrun _ r s (by simp only [rsize]; omega)]
  congr 1
  apply flatMap_congr_mem
  intro t ht
  simp only [List.mem_filter, decide_eq_true_eq] at ht
  exact go_eq_mrun _ (.starR r) t (by simp only [rsize]; omega)

theorem mrun_plusR (r : Regex) (s : List Char) :
    mrun (.plusR r) s = (mrun r s).flatMap (fun t => mrun (.starR r) t) := by
  rw [mrun_unfold]
  simp only [go]
  rw [go_eq_mrun _ r s (by simp only [rsize]; omega)]
  apply flatMap_congr_mem
  intro t ht
  have := mrun_sublen ht
  exact go_eq_mrun _ (.starR r) t (by simp only [rsize]; omega)

theorem mrun_repE_zero (r : Regex) (s : List Char) : mrun (.repE r 0) s = [s] := by
  rw [mrun_unfold]; simp [go]

theorem mrun_repE_succ (r : Regex) (k : Nat) (s : List Char) :
    mrun (.repE r (k + 1)) s = (mrun r s).flatMap (fun t => mrun (.repE r k) t) := by
  rw [mrun_unfold]
  simp only [go]
  rw [go_eq_mrun _ r s (by simp only [rsize]; omega)]
  apply flatMap_congr_mem
  intro t ht
  have := mrun_sublen ht
  exact go_eq_mrun _ (.repE r k) t (by simp only [rsize]; omega)

theorem mrun_repL (r : Regex) (k : Nat) (s : List Char) :
    mrun (.repL r k) s = (mrun (.repE r k) s).flatMap (fun t => mrun (.starR r) t) := by
  rw [mrun_unfold]
  simp only [go]
  rw [go_eq_mrun _ (.repE r k) s (by simp only [rsize]; omega)]
  apply flatMap_congr_mem
  intro t ht
  have := mrun_sublen ht
  exact go_eq_mrun _ (.starR r) t (by simp only [rsize]; omega)

theorem fullmatch_iff {r : Regex} {s : List Char} :
    fullmatch r s = true ↔ [] ∈ mrun r s := by
  simp only [fullmatch, List.any_eq_true]
  constructor
  · rintro ⟨t, ht, he⟩
    simpa [List.isEmpty_iff.1 he] using ht
  · intro h
    exact ⟨[], h, rfl⟩

/-! ### Prefix matching of lookahead-free patterns -/

theorem mrun_extend_aux :
    ∀ (n : Nat) (r : Regex) (u : List Char), rsize r + u.length ≤ n →
      plain r = true → ∀ t ext, t ∈ mrun r u → t ++ ext ∈ mrun r (u ++ ext) := by
  intro n
  induction n using Nat.strong_induction_on with
  | _ n ih =>
    intro r u hn hp t ext ht
    have h1 := rsize_pos r
    cases r with
    | eps =>
      simp only [mrun_eps, List.mem_singleton] at ht ⊢
      simp [ht]
    | lit c =>
      cases u with
      | nil => simp [mrun_lit] at ht
      | cons a u' =>
        simp only [mrun_lit] at ht ⊢
        split at ht <;> simp_all
    | esc c =>
      cases u with
      | nil => simp [mrun_esc] at ht
      | cons a u' =>
        simp only [mrun_esc] at ht ⊢
        split at ht <;> simp_all
    | anyd =>
      cases u with
      | nil => simp [mrun_anyd] at ht
      | cons a u' =>
        simp only [mrun_anyd] at ht ⊢
        split at ht <;> simp_all
    | dotAny =>
      cases u with
      | nil => simp [mrun_dotAny] at ht
      | cons a u' =>
        simp only [mrun_dotAny] at ht ⊢
        split at ht <;> simp_all
    | hatA => simp [plain] at hp
    | dollarA => simp [plain] at hp
    | cls lo hi =>
      cases u with
      | nil => simp [mrun_cls] at ht
      | cons a u' =>
        simp only [mrun_cls] at ht ⊢
        split at ht <;> simp_all
    | clsL rs =>
      cases u with
      | nil => simp [mrun_clsL] at ht
      | cons a u' =>
        simp only [mrun_clsL] at ht ⊢
        split at ht <;> simp_all
    | nlk r => simp [plain] at hp
    | cat a b =>
      simp only [plain, Bool.and_eq_true] at hp
      simp only [mrun_cat, List.mem_flatMap] at ht ⊢
      obtain ⟨w, hw, htw⟩ := ht
      have hwlen := mrun_sublen hw
      simp only [rsize] at hn
      refine ⟨w ++ ext, ?_, ?_⟩
      · exact ih (rsize a + u.length) (by omega) a u le_rfl hp.1 w ext hw
      · exact ih (rsize b + w.length) (by omega) b w le_rfl hp.2 t ext htw
    | alt a b =>
      simp only [plain, Bool.and_eq_true] at hp
      simp only [mrun_alt, List.mem_append] at ht ⊢
      simp only [rsize] at hn
      rcases ht with ht | ht
      · exact Or.inl (ih (rsize a + u.length) (by omega) a u le_rfl hp.1 t ext ht)
      · exact Or.inr (ih (rsize b + u.length) (by omega) b u le_rfl hp.2 t ext ht)
    | grp r =>
      simp only [plain] at hp
      simp only [mrun_grp] at ht ⊢
      simp only [rsize] at hn
      exact ih (rsize r + u.length) (by omega) r u le_rfl hp t ext ht
    | opt r =>
      simp only [plain] at hp
      simp only [mrun_opt, List.mem_append, List.mem_singleton] at ht ⊢
      simp only [rsize] at hn
      rcases ht with ht | ht
      · exact Or.inl (ih (rsize r + u.length) (by omega) r u le_rfl hp t ext ht)
      · simp [ht]
    | starR r =>
      simp only [plain] at hp
      simp only [rsize] at hn
      have h2 := rsize_pos r
      rw [mrun_starR] at ht
      rcases List.mem_cons.1 ht with ht | ht
      · subst ht
        rw [mrun_starR]
        simp
      · simp only [List.mem_flatMap, List.mem_filter, decide_eq_true_eq] at ht
        obtain ⟨w, ⟨hw, hwlen⟩, htw⟩ := ht
        have hext := ih (rsize r + u.length) (by omega) r u le_rfl hp w ext hw
        have hrec := ih (rsize r + 1 + w.length) (by omega) (.starR r) w
          (by simp only [rsize]; omega) (by simp [plain, hp]) t ext htw
        rw [mrun_starR]
        refine List.mem_cons.2 (Or.inr ?_)
        simp only [List.mem_flatMap, List.mem_filter, decide_eq_true_eq]
        exact ⟨w ++ ext, ⟨hext, by simp; omega⟩, hrec⟩
    | plusR r =>
      simp only [plain] at hp
      simp only [rsize] at hn
      have h2 := rsize_pos r
      simp only [mrun_plusR, List.mem_flatMap] at ht ⊢
      obtain ⟨w, hw, htw⟩ := ht
      have hwlen := mrun_sublen hw
      refine ⟨w ++ ext, ih (rsize r + u.length) (by omega) r u le_rfl hp w ext hw, ?_⟩
      exact ih (rsize r + 1 + w.length) (by omega) (.starR r) w
        (by simp only [rsize]; omega) (by simp [plain, hp]) t ext htw
    | repE r k =>
      simp only [plain] at hp
      simp only [rsize] at hn
      have h2 := rsize_pos r
      cases k with
      | zero =>
        simp only [mrun_repE_zero, List.mem_singleton] at ht ⊢
        simp [ht]
      | succ k =>
        simp only [mrun_repE_succ, List.mem_flatMap] at ht ⊢
        obtain ⟨w, hw, htw⟩ := ht
        have hwlen := mrun_sublen hw
        refine ⟨w ++ ext, ih (rsize r + u.length) (by omega) r u le_rfl hp w ext hw, ?_⟩
        exact ih (rsize r + k + 1 + w.length) (by omega) (.repE r k) w
          (by simp only [rsize]; omega) (by simp [plain, hp]) t ext htw
    | repL r k =>
      simp only [plain] at hp
      simp only [rsize] at hn
      have h2 := rsize_pos r
      simp only [mrun_repL, List.mem_flatMap] at ht ⊢
      obtain ⟨w, hw, htw⟩ := ht
      have hwlen := mrun_sublen hw
      refine ⟨w ++ ext, ih (rsize r + k + 1 + u.length) (by omega) (.repE r k) u
        (by simp only [rsize]; omega) (by simp [plain, hp]) w ext hw, ?_⟩
      exact ih (rsize r + 1 + w.length) (by omega) (.starR r) w
        (by simp only [rsize]; omega) (by simp [plain, hp]) t ext htw

theorem mrun_extend {r : Regex} {u : List Char} (hp : plain r = true)
    {t ext : List Char} (ht : t ∈ mrun r u) : t ++ ext ∈ mrun r (u ++ ext) :=
  mrun_extend_aux (rsize r + u.length) r u le_rfl hp t ext ht

theorem mrun_split_aux :
    ∀ (n : Nat) (r : Regex) (s : List Char), rsize r + s.length ≤ n →
      plain r = true → ∀ t, t ∈ mrun r s →
      ∃ u, s = u ++ t ∧ [] ∈ mrun r u := by
  intro n
  induction n using Nat.strong_induction_on with
  | _ n ih =>
    intro r s hn hp t ht
    have h1 := rsize_pos r
    cases r with
    | eps =>
      simp only [mrun_eps, List.mem_singleton] at ht
      exact ⟨[], by simp [ht], by simp [mrun_eps]⟩
    | lit c =>
      cases s with
      | nil => simp [mrun_lit] at ht
      | cons a s' =>
        simp only [mrun_lit] at ht
        split at ht
        · rename_i hcond
          simp only [List.mem_singleton] at ht
          subst ht
          exact ⟨[a], rfl, by simp [mrun_lit, hcond]⟩
        · simp at ht
    | esc c =>
      cases s with
      | nil => simp [mrun_esc] at ht
      | cons a s' =>
        simp only [mrun_esc] at ht
        split at ht
        · rename_i hcond
          simp only [List.mem_singleton] at ht
          subst ht
          exact ⟨[a], rfl, by simp [mrun_esc, hcond]⟩
        · simp at ht
    | anyd =>
      cases s with
      | nil => simp [mrun_anyd] at ht
      | cons a s' =>
        simp only [mrun_anyd] at ht
        split at ht
        · rename_i hcond
          simp only [List.mem_singleton] at ht
          subst ht
          exact ⟨[a], rfl, by simp [mrun_anyd, hcond]⟩
        · simp at ht
    | dotAny =>
      cases s with
      | nil => simp [mrun_dotAny] at ht
      | cons a s' =>
        simp only [mrun_dotAny] at ht
        split at ht
        · simp at ht
        · rename_i hcond
          simp only [List.mem_singleton] at ht
          subst ht
          exact ⟨[a], rfl, by simp [mrun_dotAny, hcond]⟩
    | hatA => simp [plain] at hp
    | dollarA => simp [plain] at hp
    | cls lo hi =>
      cases s with
      | nil => simp [mrun_cls] at ht
      | cons a s' =>
        simp only [mrun_cls] at ht
        split at ht
        · rename_i hcond
          simp only [List.mem_singleton] at ht
          subst ht
          exact ⟨[a], rfl, by simp [mrun_cls, hcond]⟩
        · simp at ht
    | clsL rs =>
      cases s with
      | nil => simp [mrun_clsL] at ht
      | cons a s' =>
        simp only [mrun_clsL] at ht
        split at ht
        · rename_i hcond
          simp only [List.mem_singleton] at ht
          subst ht
          exact ⟨[a], rfl, by simp [mrun_clsL, hcond]⟩
        · simp at ht
    | nlk r => simp [plain] at hp
    | cat a b =>
      simp only [plain, Bool.and_eq_true] at hp
      simp only [rsize] at hn
      simp only [mrun_cat, List.mem_flatMap] at ht
      obtain ⟨w, hw, htw⟩ := ht
      have hwlen := mrun_sublen hw
      obtain ⟨u₁, hs₁, hm₁⟩ :=
        ih (rsize a + s.length) (by omega) a s le_rfl hp.1 w hw
      obtain ⟨u₂, hs₂, hm₂⟩ :=
        ih (rsize b + w.length) (by omega) b w le_rfl hp.2 t htw
      refine ⟨u₁ ++ u₂, by simp [hs₁, hs₂], ?_⟩
      simp only [mrun_cat, List.mem_flatMap]
      exact ⟨u₂, by simpa using mrun_extend hp.1 hm₁, hm₂⟩
    | alt a b =>
      simp only [plain, Bool.and_eq_true] at hp
      simp only [rsize] at hn
      simp only [mrun_alt, List.mem_append] at ht
      rcases ht with ht | ht
      · obtain ⟨u, hs, hm⟩ := ih (rsize a + s.length) (by omega) a s le_rfl hp.1 t ht
        exact ⟨u, hs, by simp [mrun_alt, hm]⟩
      · obtain ⟨u, hs, hm⟩ := ih (rsize b + s.length) (by omega) b s le_rfl hp.2 t ht
        exact ⟨u, hs, by simp [mrun_alt, hm]⟩
    | grp r =>
      simp only [plain] at hp
      simp only [rsize] at hn
      simp only [mrun_grp] at ht
      obtain ⟨u, hs, hm⟩ := ih (rsize r + s.length) (by omega) r s le_rfl hp t ht
      exact ⟨u, hs, by simp [mrun_grp, hm]⟩
    | opt r =>
      simp only [plain] at hp
      simp only [rsize] at hn
      simp only [mrun_opt, List.mem_append, List.mem_singleton] at ht
      rcases ht with ht | ht
      · obtain ⟨u, hs, hm⟩ := ih (rsize r + s.length) (by omega) r s le_rfl hp t ht
        exact ⟨u, hs, by simp [mrun_opt, hm]⟩
      · exact ⟨[], by simp [ht], by simp [mrun_opt]⟩
    | starR r =>
      simp only [plain] at hp
      simp only [rsize] at hn
      have h2 := rsize_pos r
      rw [mrun_starR] at ht
      rcases List.mem_cons.1 ht with ht | ht
      · exact ⟨[], by simp [ht], by rw [mrun_starR]; simp⟩
      · simp only [List.mem_flatMap, List.mem_filter, decide_eq_true_eq] at ht
        obtain ⟨w, ⟨hw, hwlen⟩, htw⟩ := ht
        obtain ⟨u₁, hs₁, hm₁⟩ :=
          ih (rsize r + s.length) (by omega) r s le_rfl hp w hw
        obtain ⟨u₂, hs₂, hm₂⟩ :=
          ih (rsize r + 1 + w.length) (by omega) (.starR r) w
            (by simp only [rsize]; omega) (by simp [plain, hp]) t htw
        refine ⟨u₁ ++ u₂, by simp [hs₁, hs₂], ?_⟩
        by_cases hu₁ : u₁ = []
        · simpa [hu₁] using hm₂
        · rw [mrun_starR]
          refine List.mem_cons.2 (Or.inr ?_)
          simp only [List.mem_flatMap, List.mem_filter, decide_eq_true_eq]
          refine ⟨u₂, ⟨by simpa using mrun_extend hp hm₁, ?_⟩, hm₂⟩
          have : 0 < u₁.length := List.length_pos.2 hu₁
          simp
          omega
    | plusR r =>
      simp only [plain] at hp
      simp only [rsize] at hn
      have h2 := rsize_pos r
      simp only [mrun_plusR, List.mem_flatMap] at ht
      obtain ⟨w, hw, htw⟩ := ht
      have hwlen := mrun_sublen hw
      obtain ⟨u₁, hs₁, hm₁⟩ :=
        ih (rsize r + s.length) (by omega) r s le_rfl hp w hw
      obtain ⟨u₂, hs₂, hm₂⟩ :=
        ih (rsize r + 1 + w.length) (by omega) (.starR r) w
          (by simp only [rsize]; omega) (by simp [plain, hp]) t htw
      refine ⟨u₁ ++ u₂, by simp [hs₁, hs₂], ?_⟩
      simp only [mrun_plusR, List.mem_flatMap]
      exact ⟨u₂, by simpa using mrun_extend hp hm₁, hm₂⟩
    | repE r k =>
      simp only [plain] at hp
      simp only [rsize] at hn
      have h2 := rsize_pos r
      cases k with
      | zero =>
        simp only [mrun_repE_zero, List.mem_singleton] at ht
        exact ⟨[], by simp [ht], by simp [mrun_repE_zero]⟩
      | succ k =>
        simp only [mrun_repE_succ, List.mem_flatMap] at ht
        obtain ⟨w, hw, htw⟩ := ht
        have hwlen := mrun_sublen hw
        obtain ⟨u₁, hs₁, hm₁⟩ :=
          ih (rsize r + s.length) (by omega) r s le_rfl hp w hw
        obtain ⟨u₂, hs₂, hm₂⟩ :=
          ih (rsize r + k + 1 + w.length) (by omega) (.repE r k) w
            (by simp only [rsize]; omega) (by simp [plain, hp]) t htw
        refine ⟨u₁ ++ u₂, by simp [hs₁, hs₂], ?_⟩
        simp only [mrun_repE_succ, List.mem_flatMap]
        exact ⟨u₂, by simpa using mrun_extend hp hm₁, hm₂⟩
    | repL r k =>
      simp only [plain] at hp
      simp only [rsize] at hn
      have h2 := rsize_pos r
      simp only [mrun_repL, List.mem_flatMap] at ht
      obtain ⟨w, hw, htw⟩ := ht
      have hwlen := mrun_sublen hw
      obtain ⟨u₁, hs₁, hm₁⟩ :=
        ih (rsize r + k + 1 + s.length) (by omega) (.repE r k) s
          (by simp only [rsize]; omega) (by simp [plain, hp]) w hw
      obtain ⟨u₂, hs₂, hm₂⟩ :=
        ih (rsize r + 1 + w.length) (by omega) (.starR r) w
          (by simp only [rsize]; omega) (by simp [plain, hp]) t htw
      refine ⟨u₁ ++ u₂, by simp [hs₁, hs₂], ?_⟩
      simp only [mrun_repL, List.mem_flatMap]
      exact ⟨u₂, by simpa using mrun_extend (by simp [plain, hp] : plain (.repE r k) = true) hm₁, hm₂⟩

theorem mrun_split {r : Regex} {s : List Char} (hp : plain r = true)
    {t : List Char} (ht : t ∈ mrun r s) : ∃ u, s = u ++ t ∧ [] ∈ mrun r u :=
  mrun_split_aux (rsize r + s.length) r s le_rfl hp t ht

theorem fullmatch_cat_iff {a b : Regex} (ha : plain a = true) (s : List Char) :
    fullmatch (.cat a b) s = true ↔
      ∃ u v, s = u ++ v ∧ fullmatch a u = true ∧ fullmatch b v = true := by
  simp only [fullmatch_iff, mrun_cat, List.mem_flatMap]
  constructor
  · rintro ⟨w, hw, hbw⟩
    obtain ⟨u, hs, hm⟩ := mrun_split ha hw
    exact ⟨u, w, hs, hm, hbw⟩
  · rintro ⟨u, v, hs, hau, hbv⟩
    subst hs
    exact ⟨v, by simpa using mrun_extend ha hau, hbv⟩

theorem fullmatch_alt (a b : Regex) (s : List Char) :
    fullmatch (.alt a b) s = true ↔
      fullmatch a s = true ∨ fullmatch b s = true := by
  simp only [fullmatch_iff, mrun_alt, List.mem_append]

theorem fullmatch_grp (r : Regex) (s : List Char) :
    fullmatch (.grp r) s = true ↔ fullmatch r s = true := by
  simp only [fullmatch_iff, mrun_grp]

theorem fullmatch_opt (r : Regex) (s : List Char) :
    fullmatch (.opt r) s = true ↔ fullmatch r s = true ∨ s = [] := by
  simp only [fullmatch_iff, mrun_opt, List.mem_append, List.mem_singleton]
  exact or_congr Iff.rfl eq_comm

theorem fullmatch_eps (s : List Char) : fullmatch .eps s = true ↔ s = [] := by
  cases s <;> simp [fullmatch_iff, mrun_eps]

theorem fullmatch_lit (c : Char) (s : List Char) :
    fullmatch (.lit c) s = true ↔ s = [c] := by
  cases s with
  | nil => simp [fullmatch_iff, mrun_lit]
  | cons a t =>
    simp only [fullmatch_iff, mrun_lit]
    constructor
    · intro hm
      split at hm
      · rename_i h
        simp only [List.mem_singleton] at hm
        rw [h, ← hm]
      · simp at hm
    · intro hs
      injection hs with h1 h2
      subst h1
      subst h2
      simp

theorem fullmatch_esc (c : Char) (s : List Char) :
    fullmatch (.esc c) s = true ↔ s = [c] := by
  cases s with
  | nil => simp [fullmatch_iff, mrun_esc]
  | cons a t =>
    simp only [fullmatch_iff, mrun_esc]
    constructor
    · intro hm
      split at hm
      · rename_i h
        simp only [List.mem_singleton] at hm
        rw [h, ← hm]
      · simp at hm
    · intro hs
      injection hs with h1 h2
      subst h1
      subst h2
      simp

theorem fullmatch_cls (lo hi : Char) (s : List Char) :
    fullmatch (.cls lo hi) s = true ↔ ∃ c, chIn lo hi c = true ∧ s = [c] := by
  cases s with
  | nil => simp [fullmatch_iff, mrun_cls]
  | cons a t =>
    simp only [fullmatch_iff, mrun_cls]
    constructor
    · intro hm
      split at hm
      · rename_i h
        simp only [List.mem_singleton] at hm
        exact ⟨a, h, by rw [← hm]⟩
      · simp at hm
    · rintro ⟨c, hc, hac⟩
      injection hac with h1 h2
      subst h1
      subst h2
      simp [hc]

theorem fullmatch_clsL (rs : List (Char × Char)) (s : List Char) :
    fullmatch (.clsL rs) s = true ↔ ∃ c, inRanges rs c = true ∧ s = [c] := by
  cases s with
  | nil => simp [fullmatch_iff, mrun_clsL]
  | cons a t =>
    simp only [fullmatch_iff, mrun_clsL]
    constructor
    · intro hm
      split at hm
      · rename_i h
        simp only [List.mem_singleton] at hm
        exact ⟨a, h, by rw [← hm]⟩
      · simp at hm
    · rintro ⟨c, hc, hac⟩
      injection hac with h1 h2
      subst h1
      subst h2
      simp [hc]

theorem fullmatch_anyd (s : List Char) :
    fullmatch .anyd s = true ↔ ∃ c, chIn '0' '9' c = true ∧ s = [c] := by
  cases s with
  | nil => simp [fullmatch_iff, mrun_anyd]
  | cons a t =>
    simp only [fullmatch_iff, mrun_anyd]
    constructor
    · intro hm
      split at hm
      · rename_i h
        simp only [List.mem_singleton] at hm
        exact ⟨a, h, by rw [← hm]⟩
      · simp at hm
    · rintro ⟨c, hc, hac⟩
      injection hac with h1 h2
      subst h1
      subst h2
      simp [hc]


/-! ### Digit arithmetic -/

theorem dChar_toNat {d : Nat} (h : d ≤ 9) : (dChar d).toNat = 48 + d := by
  interval_cases d <;> decide

theorem dVal_dChar {d : Nat} (h : d ≤ 9) : dVal (dChar d) = d := by
  simp [dVal, dChar_toNat h]

theorem chIn_digit_iff {lo hi : Nat} (hlo : lo ≤ 9) (hhi : hi ≤ 9) (c : Char) :
    chIn (dChar lo) (dChar hi) c = true ↔
      ∃ e, lo ≤ e ∧ e ≤ hi ∧ c = dChar e := by
  simp only [chIn, dChar_toNat hlo, dChar_toNat hhi, decide_eq_true_eq]
  constructor
  · rintro ⟨h1, h2⟩
    refine ⟨c.toNat - 48, by omega, by omega, ?_⟩
    have hc : c.toNat = 48 + (c.toNat - 48) := by omega
    rw [dChar, ← hc, Char.ofNat_toNat]
  · rintro ⟨e, he1, he2, rfl⟩
    rw [dChar_toNat (by omega)]
    omega

theorem isDigit_iff (c : Char) :
    chIn '0' '9' c = true ↔ ∃ e, e ≤ 9 ∧ c = dChar e := by
  have h0 : ('0' : Char) = dChar 0 := by decide
  have h9 : ('9' : Char) = dChar 9 := by decide
  rw [h0, h9, chIn_digit_iff (by omega) (by omega)]
  constructor
  · rintro ⟨e, _, he, rfl⟩; exact ⟨e, he, rfl⟩
  · rintro ⟨e, he, rfl⟩; exact ⟨e, by omega, he, rfl⟩

theorem dChar_inj {d e : Nat} (hd : d ≤ 9) (he : e ≤ 9) :
    dChar d = dChar e ↔ d = e := by
  constructor
  · intro h
    have := congrArg Char.toNat h
    rw [dChar_toNat hd, dChar_toNat he] at this
    omega
  · rintro rfl; rfl

theorem valBE_nil : valBE [] = 0 := rfl

theorem valBE_foldl (l : List Nat) :
    ∀ a : Nat, l.foldl (fun a d => 10 * a + d) a = a * 10 ^ l.length + valBE l := by
  induction l with
  | nil => intro a; simp [valBE]
  | cons d t ih =>
    intro a
    have hv : valBE (d :: t) = d * 10 ^ t.length + valBE t := by
      show List.foldl _ 0 (d :: t) = _
      simp only [List.foldl_cons]
      have := ih (10 * 0 + d)
      simpa using this
    simp only [List.foldl_cons, List.length_cons]
    rw [ih (10 * a + d), hv]
    ring

theorem valBE_cons (d : Nat) (t : List Nat) :
    valBE (d :: t) = d * 10 ^ t.length + valBE t := by
  show List.foldl _ 0 (d :: t) = _
  simp only [List.foldl_cons]
  have := valBE_foldl t (10 * 0 + d)
  simpa using this

theorem valBE_append (p q : List Nat) :
    valBE (p ++ q) = valBE p * 10 ^ q.length + valBE q := by
  induction p with
  | nil => simp [valBE_nil]
  | cons d t ih =>
    simp only [List.cons_append, valBE_cons, List.length_append, ih]
    ring

theorem valBE_lt_pow {l : List Nat} (h : ∀ d ∈ l, d < 10) :
    valBE l < 10 ^ l.length := by
  induction l with
  | nil => simp [valBE_nil]
  | cons d t ih =>
    have hd : d < 10 := h d (by simp)
    have ht := ih (fun e he => h e (by simp [he]))
    rw [valBE_cons]
    have : d * 10 ^ t.length ≤ 9 * 10 ^ t.length :=
      Nat.mul_le_mul_right _ (by omega)
    calc d * 10 ^ t.length + valBE t < d * 10 ^ t.length + 10 ^ t.length := by omega
    _ ≤ 9 * 10 ^ t.length + 10 ^ t.length := by omega
    _ = 10 ^ (t.length + 1) := by ring
    _ = 10 ^ (d :: t).length := by simp

theorem valBE_eq_ofDigits (l : List Nat) :
    valBE l = Nat.ofDigits 10 l.reverse := by
  induction l with
  | nil => simp [valBE_nil]
  | cons d t ih =>
    rw [valBE_cons, List.reverse_cons, Nat.ofDigits_append, ih]
    simp [Nat.ofDigits_singleton]
    ring

theorem itoaDigits_ne_nil (n : Nat) : itoaDigits n ≠ [] := by
  rw [itoaDigits]
  split
  · simp
  · simpa using Nat.digits_ne_nil_iff_ne_zero.mpr (by assumption)

theorem itoaDigits_lt (n : Nat) : ∀ d ∈ itoaDigits n, d < 10 := by
  intro d hd
  rw [itoaDigits] at hd
  split at hd
  · simp at hd; omega
  · exact Nat.digits_lt_base (by omega) (List.mem_reverse.1 hd)

theorem valBE_itoaDigits (n : Nat) : valBE (itoaDigits n) = n := by
  rw [itoaDigits]
  split
  · simp [valBE_cons, valBE_nil]; omega
  · rw [valBE_eq_ofDigits, List.reverse_reverse, Nat.ofDigits_digits]

theorem itoaDigits_head_ne_zero {n d : Nat} {t : List Nat} (hn : n ≠ 0)
    (h : itoaDigits n = d :: t) : d ≠ 0 := by
  rw [itoaDigits, if_neg hn] at h
  have h2 : Nat.digits 10 n = t.reverse ++ [d] := by
    have := congrArg List.reverse h
    simpa using this
  have hnil : Nat.digits 10 n ≠ [] := Nat.digits_ne_nil_iff_ne_zero.mpr hn
  have h5 := Nat.getLast_digit_ne_zero 10 hn
  have h4 : (Nat.digits 10 n).getLast hnil = d := by
    simp only [h2]
    exact List.getLast_append _
  rw [← h4]
  exact h5

theorem lt_pow_itoaDigits_length (n : Nat) : n < 10 ^ (itoaDigits n).length := by
  rw [itoaDigits]
  split
  · simp; omega
  · rw [List.length_reverse]
    exact Nat.lt_base_pow_length_digits (by omega)

theorem pow_le_of_itoaDigits_length {n : Nat} (hn : n ≠ 0) :
    10 ^ ((itoaDigits n).length - 1) ≤ n := by
  rw [itoaDigits, if_neg hn, List.length_reverse]
  have h := Nat.base_pow_length_digits_le 10 n (by omega) hn
  have hlen : (Nat.digits 10 n).length ≠ 0 := by
    simpa using Nat.digits_ne_nil_iff_ne_zero.mpr hn
  have : 10 ^ (Nat.digits 10 n).length = 10 * 10 ^ ((Nat.digits 10 n).length - 1) := by
    rw [← pow_succ']
    congr 1
    omega
  omega

theorem valBE_ne_zero {d : Nat} {t : List Nat} (hd : d ≠ 0) :
    valBE (d :: t) ≠ 0 := by
  rw [valBE_cons]
  have hp : 0 < 10 ^ t.length := Nat.pos_pow_of_pos _ (by omega)
  intro hv0
  rcases Nat.add_eq_zero.mp hv0 with ⟨h1, _⟩
  rcases Nat.mul_eq_zero.mp h1 with h | h
  · exact hd h
  · omega

theorem itoaDigits_of_valBE {y : List Nat} (hne : y ≠ [])
    (hlt : ∀ d ∈ y, d < 10)
    (hhead : (∀ d t, y = d :: t → d ≠ 0) ∨ y = [0]) :
    itoaDigits (valBE y) = y := by
  rcases hhead with hh | rfl
  · obtain ⟨d, t, rfl⟩ : ∃ d t, y = d :: t := by
      cases y with
      | nil => exact absurd rfl hne
      | cons d t => exact ⟨d, t, rfl⟩
    have hd0 : d ≠ 0 := hh d t rfl
    have hv : valBE (d :: t) ≠ 0 := valBE_ne_zero hd0
    rw [itoaDigits, if_neg hv, valBE_eq_ofDigits,
      Nat.digits_ofDigits 10 (by omega) (d :: t).reverse
        (fun l hl => hlt l (List.mem_reverse.1 hl))
        (fun h => by
          rw [List.getLast_reverse]
          simpa using hd0),
      List.reverse_reverse]
  · simp [valBE_cons, valBE_nil, itoaDigits]

theorem itoaChars_eq (n : Nat) : itoaChars n = (itoaDigits n).map dChar := rfl

/-! ### Valid numeral strings -/

theorem allDigits_iff {x : List Char} :
    allDigits x = true ↔ ∀ c ∈ x, ∃ e, e ≤ 9 ∧ c = dChar e := by
  simp only [allDigits, List.all_eq_true]
  constructor
  · intro h c hc
    exact (isDigit_iff c).1 (h c hc)
  · intro h c hc
    exact (isDigit_iff c).2 (h c hc)

theorem map_dVal_dChar {x : List Char} (h : allDigits x = true) :
    (x.map dVal).map dChar = x := by
  rw [allDigits_iff] at h
  induction x with
  | nil => rfl
  | cons c t ih =>
    obtain ⟨e, he, rfl⟩ := h c (by simp)
    simp only [List.map_cons, dVal_dChar he]
    rw [ih (fun c hc => h c (by simp [hc]))]

theorem map_dVal_lt {x : List Char} (h : allDigits x = true) :
    ∀ d ∈ x.map dVal, d < 10 := by
  rw [allDigits_iff] at h
  intro d hd
  simp only [List.mem_map] at hd
  obtain ⟨c, hc, rfl⟩ := hd
  obtain ⟨e, he, rfl⟩ := h c hc
  rw [dVal_dChar he]
  omega

theorem validNum_canonical {x : List Char} (hx : ValidNum x) :
    itoaChars (numVal x) = x := by
  obtain ⟨hne, hdig, hlead⟩ := hx
  rw [numVal, itoaChars_eq]
  have hmapne : x.map dVal ≠ [] := by simpa using hne
  rw [itoaDigits_of_valBE hmapne (map_dVal_lt hdig)]
  · exact map_dVal_dChar hdig
  · cases x with
    | nil => exact absurd rfl hne
    | cons c t =>
      cases t with
      | nil =>
        obtain ⟨e, he, rfl⟩ := allDigits_iff.1 hdig c (by simp)
        by_cases he0 : e = 0
        · right
          subst he0
          simp [dVal_dChar]
        · left
          intro d u hdu
          simp only [List.map_cons, List.map_nil, List.cons.injEq] at hdu
          rw [← hdu.1, dVal_dChar he]
          exact he0
      | cons c2 t2 =>
        left
        intro d u hdu
        simp only [noLeadZero] at hlead
        obtain ⟨e, he, rfl⟩ := allDigits_iff.1 hdig c (by simp)
        simp only [List.map_cons, List.cons.injEq] at hdu
        rw [← hdu.1, dVal_dChar he]
        intro he0
        subst he0
        rw [show dChar 0 = '0' by decide] at hlead
        simp at hlead

theorem validNum_itoaChars (n : Nat) : ValidNum (itoaChars n) := by
  refine ⟨by simpa [itoaChars_eq] using itoaDigits_ne_nil n, ?_, ?_⟩
  · rw [allDigits_iff]
    intro c hc
    simp only [itoaChars_eq, List.mem_map] at hc
    obtain ⟨d, hd, rfl⟩ := hc
    exact ⟨d, by have := itoaDigits_lt n d hd; omega, rfl⟩
  · rcases hd : itoaDigits n with _ | ⟨d, ds⟩
    · exact absurd hd (itoaDigits_ne_nil n)
    · rcases ds with _ | ⟨e, ds2⟩
      · simp [noLeadZero, itoaChars_eq, hd]
      · have hn0 : n ≠ 0 := by
          intro h0
          subst h0
          simp [itoaDigits] at hd
        have hdne := itoaDigits_head_ne_zero hn0 hd
        have hdle : d ≤ 9 := by
          have := itoaDigits_lt n d (by simp [hd])
          omega
        simp only [itoaChars_eq, hd, List.map_cons, noLeadZero]
        simp only [Bool.not_eq_eq_eq_not, Bool.not_true, decide_eq_false_iff_not]
        intro hc0
        rw [show ('0' : Char) = dChar 0 by decide] at hc0
        rw [dChar_inj hdle (by omega)] at hc0
        exact hdne hc0

theorem numVal_itoaChars (n : Nat) : numVal (itoaChars n) = n := by
  rw [numVal, itoaChars_eq]
  have h1 : ((itoaDigits n).map dChar).map dVal = itoaDigits n := by
    rw [List.map_map]
    have h2 : ∀ d ∈ itoaDigits n, (dVal ∘ dChar) d = id d := by
      intro d hd
      have := itoaDigits_lt n d hd
      simp [Function.comp, dVal_dChar (show d ≤ 9 by omega)]
    rw [List.map_congr_left h2, List.map_id]
  rw [h1, valBE_itoaDigits]

theorem validNum_val_inj {x y : List Char} (hx : ValidNum x) (hy : ValidNum y)
    (h : numVal x = numVal y) : x = y := by
  rw [← validNum_canonical hx, ← validNum_canonical hy, h]


/-! ### Languages of the generator fragments -/

theorem plain_litStr (cs : List Char) : plain (litStr cs) = true := by
  induction cs with
  | nil => rfl
  | cons c t ih => simp [litStr, plain] at ih ⊢; exact ih

theorem plain_litDigits (p : List Nat) : plain (litDigits p) = true :=
  plain_litStr _

theorem plain_digitRangeUpR (d : Nat) : plain (digitRangeUpR d) = true := by
  rw [digitRangeUpR]; split <;> rfl

theorem plain_digitRangeDownR (d : Nat) : plain (digitRangeDownR d) = true := by
  rw [digitRangeDownR]; split <;> rfl

theorem plain_altListR {ps : List Regex} (h : ∀ p ∈ ps, plain p = true) :
    plain (altListR ps) = true := by
  induction ps with
  | nil => rfl
  | cons p rest ih =>
    cases rest with
    | nil => exact h p (by simp)
    | cons q rest2 =>
      show plain (.alt p (altListR (q :: rest2))) = true
      simp only [plain, Bool.and_eq_true]
      exact ⟨h p (by simp), ih (fun r hr => h r (by simp [List.mem_cons] at hr ⊢; tauto))⟩

theorem plain_joinPatternsR {ps : List Regex} (h : ∀ p ∈ ps, plain p = true) :
    plain (joinPatternsR ps) = true := by
  cases ps with
  | nil => rfl
  | cons p rest =>
    cases rest with
    | nil => exact h p (by simp)
    | cons q rest2 =>
      show plain (.grp (altListR (p :: q :: rest2))) = true
      simpa [plain] using plain_altListR h

theorem plain_NumGreaterOrEqualR (n : Int) : plain (NumGreaterOrEqualR n) = true := by
  rw [NumGreaterOrEqualR]
  split
  · rfl
  · apply plain_joinPatternsR
    intro p hp
    simp only [List.mem_append, List.mem_filterMap, List.mem_range] at hp
    rcases hp with hp | ⟨i, _, hp⟩
    · split at hp <;> simp_all
      subst hp; rfl
    · split at hp
      · simp only [Option.some_inj] at hp
        rw [← hp]
        simp [plain, plain_litDigits, plain_digitRangeUpR]
      · split at hp
        · simp only [Option.some_inj] at hp
          rw [← hp]
          simp [plain, plain_litDigits, plain_digitRangeUpR]
        · simp at hp

theorem plain_NumLessOrEqualR {n : Int} (hn : 0 ≤ n) :
    plain (NumLessOrEqualR n) = true := by
  rw [NumLessOrEqualR]
  split
  · omega
  · apply plain_joinPatternsR
    intro p hp
    simp only [List.mem_append, List.mem_map, List.mem_filterMap, List.mem_range] at hp
    rcases hp with ⟨d, _, hp⟩ | ⟨i, _, hp⟩
    · split at hp <;> rw [← hp] <;> rfl
    · split at hp
      · simp only [Option.some_inj] at hp
        rw [← hp]
        simp [plain, plain_litDigits, plain_digitRangeDownR]
      · split at hp
        · simp only [Option.some_inj] at hp
          rw [← hp]
          simp [plain, plain_litDigits, plain_digitRangeDownR]
        · simp at hp

theorem fullmatch_litStr (cs s : List Char) :
    fullmatch (litStr cs) s = true ↔ s = cs := by
  induction cs generalizing s with
  | nil => simpa [litStr] using fullmatch_eps s
  | cons c t ih =>
    show fullmatch (.cat (.lit c) (litStr t)) s = true ↔ _
    have hpl : plain (Regex.lit c) = true := rfl
    rw [fullmatch_cat_iff hpl]
    constructor
    · rintro ⟨u, v, rfl, hu, hv⟩
      rw [fullmatch_lit] at hu
      rw [ih] at hv
      rw [hu, hv]
      rfl
    · rintro rfl
      exact ⟨[c], t, rfl, (fullmatch_lit c [c]).2 rfl, (ih t).2 rfl⟩

theorem fullmatch_litDigits (p : List Nat) (s : List Char) :
    fullmatch (litDigits p) s = true ↔ s = p.map dChar :=
  fullmatch_litStr _ s

theorem fullmatch_digitRangeUpR {d : Nat} (hd : d ≤ 9) (s : List Char) :
    fullmatch (digitRangeUpR d) s = true ↔
      ∃ e, d ≤ e ∧ e ≤ 9 ∧ s = [dChar e] := by
  rw [digitRangeUpR]
  split
  · rename_i h9
    subst h9
    rw [fullmatch_lit]
    constructor
    · rintro rfl
      exact ⟨9, le_rfl, le_rfl, by norm_num [show ('9' : Char) = dChar 9 by decide]⟩
    · rintro ⟨e, he1, he2, rfl⟩
      have : e = 9 := by omega
      subst this
      rw [show dChar 9 = '9' by decide]
  · rw [show ('9' : Char) = dChar 9 by decide, fullmatch_cls]
    constructor
    · rintro ⟨c, hc, rfl⟩
      obtain ⟨e, he1, he2, rfl⟩ := (chIn_digit_iff hd (by omega) c).1 hc
      exact ⟨e, he1, he2, rfl⟩
    · rintro ⟨e, he1, he2, rfl⟩
      exact ⟨dChar e, (chIn_digit_iff hd (by omega) _).2 ⟨e, he1, he2, rfl⟩, rfl⟩

theorem fullmatch_digitRangeDownR {d : Nat} (hd : d ≤ 9) (s : List Char) :
    fullmatch (digitRangeDownR d) s = true ↔
      ∃ e, e ≤ d ∧ s = [dChar e] := by
  rw [digitRangeDownR]
  split
  · rename_i h0
    subst h0
    rw [fullmatch_lit]
    constructor
    · rintro rfl
      exact ⟨0, le_rfl, by norm_num [show ('0' : Char) = dChar 0 by decide]⟩
    · rintro ⟨e, he1, rfl⟩
      have : e = 0 := by omega
      subst this
      rw [show dChar 0 = '0' by decide]
  · rw [show ('0' : Char) = dChar 0 by decide, fullmatch_cls]
    constructor
    · rintro ⟨c, hc, rfl⟩
      obtain ⟨e, he1, he2, rfl⟩ := (chIn_digit_iff (by omega) hd c).1 hc
      exact ⟨e, he2, rfl⟩
    · rintro ⟨e, he1, rfl⟩
      exact ⟨dChar e, (chIn_digit_iff (by omega) hd _).2 ⟨e, by omega, he1, rfl⟩, rfl⟩

theorem fullmatch_star_anyd (x : List Char) :
    fullmatch (.starR .anyd) x = true ↔ allDigits x = true := by
  induction x with
  | nil =>
    rw [fullmatch_iff, mrun_starR]
    simp [allDigits]
  | cons c t ih =>
    rw [fullmatch_iff, mrun_starR]
    by_cases hdc : chIn '0' '9' c = true
    · have hrun : mrun Regex.anyd (c :: t) = [t] := by
        rw [mrun_anyd]; simp [hdc]
      rw [hrun]
      have hfil : [t].filter (fun u => decide (u.length < (c :: t).length)) = [t] := by
        simp
      rw [hfil]
      simp only [List.flatMap_cons, List.flatMap_nil, List.append_nil, List.mem_cons]
      rw [fullmatch_iff] at ih
      simp only [allDigits, List.all_cons, hdc, Bool.true_and]
      constructor
      · rintro (h | h)
        · simp at h
        · exact ih.1 h
      · intro h
        exact Or.inr (ih.2 h)
    · have hrun : mrun Regex.anyd (c :: t) = [] := by
        rw [mrun_anyd]; simp [hdc]
      rw [hrun]
      simp only [List.filter_nil, List.flatMap_nil, List.mem_singleton]
      simp only [allDigits, List.all_cons]
      constructor
      · intro h; simp at h
      · intro h
        rw [Bool.and_eq_true] at h
        exact absurd h.1 hdc

theorem fullmatch_digitsR (x : List Char) :
    fullmatch digitsR x = true ↔ allDigits x = true ∧ x ≠ [] := by
  show fullmatch (.plusR .anyd) x = true ↔ _
  rw [fullmatch_iff, mrun_plusR]
  simp only [List.mem_flatMap]
  constructor
  · rintro ⟨t, ht, hst⟩
    cases x with
    | nil => simp [mrun_anyd] at ht
    | cons c u =>
      rw [mrun_anyd] at ht
      by_cases hdc : chIn '0' '9' c = true
      · simp only [hdc, if_true, List.mem_singleton] at ht
        subst ht
        rw [← fullmatch_iff, fullmatch_star_anyd] at hst
        simp only [allDigits, List.all_cons, hdc, Bool.true_and]
        exact ⟨hst, by simp⟩
      · simp [hdc] at ht
  · rintro ⟨hall, hne⟩
    cases x with
    | nil => exact absurd rfl hne
    | cons c u =>
      simp only [allDigits, List.all_cons, Bool.and_eq_true] at hall
      refine ⟨u, ?_, ?_⟩
      · rw [mrun_anyd]
        simp [hall.1]
      · rw [← fullmatch_iff, fullmatch_star_anyd]
        exact hall.2

theorem mrun_repE_anyd (k : Nat) (x t : List Char) :
    t ∈ mrun (.repE .anyd k) x ↔
      ∃ u, x = u ++ t ∧ u.length = k ∧ allDigits u = true := by
  induction k generalizing x with
  | zero =>
    rw [mrun_repE_zero]
    simp only [List.mem_singleton]
    constructor
    · rintro rfl
      exact ⟨[], rfl, rfl, rfl⟩
    · rintro ⟨u, rfl, hu, _⟩
      rw [List.length_eq_zero] at hu
      simp [hu]
  | succ k ih =>
    rw [mrun_repE_succ]
    simp only [List.mem_flatMap]
    constructor
    · rintro ⟨w, hw, htw⟩
      cases x with
      | nil => simp [mrun_anyd] at hw
      | cons c u =>
        rw [mrun_anyd] at hw
        by_cases hdc : chIn '0' '9' c = true
        · simp only [hdc, if_true, List.mem_singleton] at hw
          subst hw
          obtain ⟨v, rfl, hv1, hv2⟩ := (ih _).1 htw
          exact ⟨c :: v, rfl, by simp [hv1], by simp [allDigits, hdc] at hv2 ⊢; exact hv2⟩
        · simp [hdc] at hw
    · rintro ⟨u, rfl, hu1, hu2⟩
      cases u with
      | nil => simp at hu1
      | cons c v =>
        simp only [allDigits, List.all_cons, Bool.and_eq_true] at hu2
        refine ⟨v ++ t, ?_, ?_⟩
        · rw [mrun_anyd]
          simp [hu2.1]
        · exact (ih _).2 ⟨v, rfl, by simpa using hu1, hu2.2⟩

theorem fullmatch_repE_anyd (k : Nat) (x : List Char) :
    fullmatch (.repE .anyd k) x = true ↔
      allDigits x = true ∧ x.length = k := by
  rw [fullmatch_iff, mrun_repE_anyd]
  constructor
  · rintro ⟨u, hu, h1, h2⟩
    rw [List.append_nil] at hu
    subst hu
    exact ⟨h2, h1⟩
  · rintro ⟨h1, h2⟩
    exact ⟨x, by simp, h2, h1⟩

theorem fullmatch_repL_anyd (k : Nat) (x : List Char) :
    fullmatch (.repL .anyd k) x = true ↔
      allDigits x = true ∧ k ≤ x.length := by
  rw [fullmatch_iff, mrun_repL]
  simp only [List.mem_flatMap]
  constructor
  · rintro ⟨t, ht, hst⟩
    obtain ⟨u, rfl, hu1, hu2⟩ := (mrun_repE_anyd k _ t).1 ht
    rw [← fullmatch_iff, fullmatch_star_anyd] at hst
    constructor
    · simp only [allDigits, List.all_append, Bool.and_eq_true]
      exact ⟨hu2, hst⟩
    · simp [hu1]
  · rintro ⟨hall, hk⟩
    refine ⟨x.drop k, ?_, ?_⟩
    · refine (mrun_repE_anyd k x _).2 ⟨x.take k, by simp, by simp [hk], ?_⟩
      simp only [allDigits, List.all_eq_true] at hall ⊢
      intro c hc
      exact hall c (List.mem_of_mem_take hc)
    · rw [← fullmatch_iff, fullmatch_star_anyd]
      simp only [allDigits, List.all_eq_true] at hall ⊢
      intro c hc
      exact hall c (List.mem_of_mem_drop hc)

theorem fullmatch_altListR {ps : List Regex} (hne : ps ≠ []) (x : List Char) :
    fullmatch (altListR ps) x = true ↔ ∃ p ∈ ps, fullmatch p x = true := by
  induction ps with
  | nil => exact absurd rfl hne
  | cons p rest ih =>
    cases rest with
    | nil => simp [altListR]
    | cons q rest2 =>
      show fullmatch (.alt p (altListR (q :: rest2))) x = true ↔ _
      rw [fullmatch_alt, ih (by simp)]
      simp only [List.mem_cons]
      constructor
      · rintro (h | ⟨r, hr, h⟩)
        · exact ⟨p, Or.inl rfl, h⟩
        · exact ⟨r, Or.inr hr, h⟩
      · rintro ⟨r, hr | hr, h⟩
        · subst hr; exact Or.inl h
        · exact Or.inr ⟨r, hr, h⟩

theorem fullmatch_joinPatternsR {ps : List Regex} (hne : ps ≠ []) (x : List Char) :
    fullmatch (joinPatternsR ps) x = true ↔ ∃ p ∈ ps, fullmatch p x = true := by
  cases ps with
  | nil => exact absurd rfl hne
  | cons p rest =>
    cases rest with
    | nil => simp [joinPatternsR]
    | cons q rest2 =>
      show fullmatch (.grp (altListR (p :: q :: rest2))) x = true ↔ _
      rw [fullmatch_grp]
      exact fullmatch_altListR (by simp) x


/-! ### Positional comparison of equal-length digit lists -/

theorem valBE_lt_of_digit_lt {s y : List Nat} (hlen : s.length = y.length)
    (hs : ∀ d ∈ s, d < 10) {i : Nat} (hi : i < s.length)
    (hpre : s.take i = y.take i) (hlt : s.getD i 0 < y.getD i 0) :
    valBE s < valBE y := by
  have hiy : i < y.length := by omega
  have hsdec : s = s.take i ++ s[i] :: s.drop (i + 1) := by
    rw [← List.drop_eq_getElem_cons hi, List.take_append_drop]
  have hydec : y = y.take i ++ y[i] :: y.drop (i + 1) := by
    rw [← List.drop_eq_getElem_cons hiy, List.take_append_drop]
  have hgs : s.getD i 0 = s[i] := List.getD_eq_getElem s 0 hi
  have hgy : y.getD i 0 = y[i] := List.getD_eq_getElem y 0 hiy
  have hℓ : (s.drop (i + 1)).length = (y.drop (i + 1)).length := by
    simp [hlen]
  have hsv : valBE s =
      valBE (s.take i) * 10 ^ (s[i] :: s.drop (i + 1)).length
        + (s[i] * 10 ^ (s.drop (i + 1)).length + valBE (s.drop (i + 1))) := by
    conv_lhs => rw [hsdec]
    rw [valBE_append, valBE_cons]
  have hyv : valBE y =
      valBE (y.take i) * 10 ^ (y[i] :: y.drop (i + 1)).length
        + (y[i] * 10 ^ (y.drop (i + 1)).length + valBE (y.drop (i + 1))) := by
    conv_lhs => rw [hydec]
    rw [valBE_append, valBE_cons]
  have hdrop_lt : valBE (s.drop (i + 1)) < 10 ^ (s.drop (i + 1)).length :=
    valBE_lt_pow (fun d hd => hs d (List.mem_of_mem_drop hd))
  rw [hsv, hyv, ← hpre, hℓ]
  have hQ : s[i] * 10 ^ (y.drop (i + 1)).length + 10 ^ (y.drop (i + 1)).length
      ≤ y[i] * 10 ^ (y.drop (i + 1)).length := by
    have : (s[i] + 1) * 10 ^ (y.drop (i + 1)).length
        ≤ y[i] * 10 ^ (y.drop (i + 1)).length := by
      apply Nat.mul_le_mul_right
      omega
    calc s[i] * 10 ^ (y.drop (i + 1)).length + 10 ^ (y.drop (i + 1)).length
        = (s[i] + 1) * 10 ^ (y.drop (i + 1)).length := by ring
    _ ≤ y[i] * 10 ^ (y.drop (i + 1)).length := this
  have hlenc : (s[i] :: s.drop (i + 1)).length = (y[i] :: y.drop (i + 1)).length := by
    simp only [List.length_cons, List.length_drop]
    omega
  rw [hlenc]
  rw [hℓ] at hdrop_lt
  omega

theorem first_diff {s y : List Nat} (hlen : s.length = y.length) (hne : s ≠ y) :
    ∃ i, i < s.length ∧ s.take i = y.take i ∧ s.getD i 0 ≠ y.getD i 0 := by
  induction s generalizing y with
  | nil =>
    cases y with
    | nil => exact absurd rfl hne
    | cons b y' => simp at hlen
  | cons a s' ih =>
    cases y with
    | nil => simp at hlen
    | cons b y' =>
      by_cases hab : a = b
      · subst hab
        have hne' : s' ≠ y' := by
          intro h
          exact hne (by rw [h])
        obtain ⟨i, hi, hpre, hd⟩ := ih (by simpa using hlen) hne'
        refine ⟨i + 1, by simpa using hi, ?_, ?_⟩
        · simp [List.take_succ_cons, hpre]
        · simpa using hd
      · exact ⟨0, by simp, by simp, by simpa using hab⟩

theorem validNum_pow_le {x : List Char} (hx : ValidNum x) (h2 : 2 ≤ x.length) :
    10 ^ (x.length - 1) ≤ numVal x := by
  have hc := validNum_canonical hx
  by_cases h0 : numVal x = 0
  · rw [h0] at hc
    have hx0 : x = ['0'] := by
      rw [← hc]
      decide
    rw [hx0] at h2
    simp at h2
  · have h1 := pow_le_of_itoaDigits_length h0
    have hlen : x.length = (itoaDigits (numVal x)).length := by
      conv_lhs => rw [← hc]
      rw [itoaChars_eq]
      simp
    rw [hlen]
    exact h1

theorem numVal_lt_pow {x : List Char} (hdig : allDigits x = true) :
    numVal x < 10 ^ x.length := by
  have := valBE_lt_pow (map_dVal_lt hdig)
  simpa [numVal] using this


/-! ### Case analysis of the synthesizer alternations -/

theorem append_filterMap_range_ne_nil {α : Type} (A : List α) (f : Nat → Option α)
    (d i : Nat) (hi : i < d) (hf : (f i).isSome) :
    A ++ (List.range d).filterMap f ≠ [] := by
  intro h
  rcases List.append_eq_nil.mp h with ⟨-, hB⟩
  rw [List.filterMap_eq_nil_iff] at hB
  have := hB i (List.mem_range.2 hi)
  rw [this] at hf
  simp at hf

theorem fullmatch_numGE_cases (n : Nat) (hn : n ≠ 0) (x : List Char) :
    fullmatch (NumGreaterOrEqualR (n : Int)) x = true ↔
      ((itoaDigits n).length < 10 ∧
        fullmatch (.repL .anyd ((itoaDigits n).length + 1)) x = true) ∨
      (∃ i, i < (itoaDigits n).length ∧
        ((i = (itoaDigits n).length - 1 ∧
          fullmatch (.cat (litDigits ((itoaDigits n).take i))
            (digitRangeUpR ((itoaDigits n).getD i 0))) x = true) ∨
         (i ≠ (itoaDigits n).length - 1 ∧ (itoaDigits n).getD i 0 < 9 ∧
          fullmatch (.cat (litDigits ((itoaDigits n).take i))
            (.cat (digitRangeUpR ((itoaDigits n).getD i 0 + 1))
              (.repE .anyd ((itoaDigits n).length - i - 1)))) x = true))) := by
  have hpos : ¬ ((n : Int) ≤ 0) := by omega
  have hre : NumGreaterOrEqualR (n : Int) = joinPatternsR (
      (if (itoaDigits n).length < 10 then
        [Regex.repL .anyd ((itoaDigits n).length + 1)] else [])
      ++ (List.range (itoaDigits n).length).filterMap (fun i =>
        if i = (itoaDigits n).length - 1 then
          some (Regex.cat (litDigits ((itoaDigits n).take i))
            (digitRangeUpR ((itoaDigits n).getD i 0)))
        else if (itoaDigits n).getD i 0 < 9 then
          some (.cat (litDigits ((itoaDigits n).take i))
            (.cat (digitRangeUpR ((itoaDigits n).getD i 0 + 1))
              (.repE .anyd ((itoaDigits n).length - i - 1))))
        else none)) := by
    rw [NumGreaterOrEqualR, if_neg hpos]
    simp only [Int.toNat_natCast]
  have hd1 : 1 ≤ (itoaDigits n).length :=
    List.length_pos.2 (itoaDigits_ne_nil n)
  rw [hre, fullmatch_joinPatternsR
    (append_filterMap_range_ne_nil _ _ _ ((itoaDigits n).length - 1)
      (by omega) (by simp))]
  simp only [List.mem_append, List.mem_filterMap, List.mem_range]
  constructor
  · rintro ⟨p, hp | ⟨i, hi, hfi⟩, hm⟩
    · split at hp
      · simp only [List.mem_singleton] at hp
        subst hp
        exact Or.inl ⟨by assumption, hm⟩
      · simp at hp
    · split at hfi
      · rename_i hieq
        simp only [Option.some_inj] at hfi
        subst hfi
        exact Or.inr ⟨i, hi, Or.inl ⟨hieq, hm⟩⟩
      · rename_i hine
        split at hfi
        · rename_i hdig
          simp only [Option.some_inj] at hfi
          subst hfi
          exact Or.inr ⟨i, hi, Or.inr ⟨hine, hdig, hm⟩⟩
        · simp at hfi
  · rintro (⟨h10, hm⟩ | ⟨i, hi, ⟨hieq, hm⟩ | ⟨hine, hdig, hm⟩⟩)
    · exact ⟨_, Or.inl (by simp [h10]), hm⟩
    · exact ⟨_, Or.inr ⟨i, hi, by rw [if_pos hieq]⟩, hm⟩
    · exact ⟨_, Or.inr ⟨i, hi, by rw [if_neg hine, if_pos hdig]⟩, hm⟩

theorem fullmatch_numLE_cases (n : Nat) (x : List Char) :
    fullmatch (NumLessOrEqualR (n : Int)) x = true ↔
      (∃ k, k ∈ List.range' 1 ((itoaDigits n).length - 1) ∧
        fullmatch (if k = 1 then Regex.anyd else .repE .anyd k) x = true) ∨
      (∃ i, i < (itoaDigits n).length ∧
        ((i = (itoaDigits n).length - 1 ∧
          fullmatch (.cat (litDigits ((itoaDigits n).take i))
            (digitRangeDownR ((itoaDigits n).getD i 0))) x = true) ∨
         (i ≠ (itoaDigits n).length - 1 ∧ 0 < (itoaDigits n).getD i 0 ∧
          fullmatch (.cat (litDigits ((itoaDigits n).take i))
            (.cat (digitRangeDownR ((itoaDigits n).getD i 0 - 1))
              (.repE .anyd ((itoaDigits n).length - i - 1)))) x = true))) := by
  have hpos : ¬ ((n : Int) < 0) := by omega
  have hre : NumLessOrEqualR (n : Int) = joinPatternsR (
      (List.range' 1 ((itoaDigits n).length - 1)).map (fun d =>
        if d = 1 then Regex.anyd else .repE .anyd d)
      ++ (List.range (itoaDigits n).length).filterMap (fun i =>
        if i = (itoaDigits n).length - 1 then
          some (Regex.cat (litDigits ((itoaDigits n).take i))
            (digitRangeDownR ((itoaDigits n).getD i 0)))
        else if 0 < (itoaDigits n).getD i 0 then
          some (.cat (litDigits ((itoaDigits n).take i))
            (.cat (digitRangeDownR ((itoaDigits n).getD i 0 - 1))
              (.repE .anyd ((itoaDigits n).length - i - 1))))
        else none)) := by
    rw [NumLessOrEqualR, if_neg hpos]
    simp only [Int.toNat_natCast]
  have hd1 : 1 ≤ (itoaDigits n).length :=
    List.length_pos.2 (itoaDigits_ne_nil n)
  rw [hre, fullmatch_joinPatternsR
    (append_filterMap_range_ne_nil _ _ _ ((itoaDigits n).length - 1)
      (by omega) (by simp))]
  simp only [List.mem_append, List.mem_filterMap, List.mem_map, List.mem_range]
  constructor
  · rintro ⟨p, ⟨k, hk, hkp⟩ | ⟨i, hi, hfi⟩, hm⟩
    · subst hkp
      exact Or.inl ⟨k, hk, hm⟩
    · split at hfi
      · rename_i hieq
        simp only [Option.some_inj] at hfi
        subst hfi
        exact Or.inr ⟨i, hi, Or.inl ⟨hieq, hm⟩⟩
      · rename_i hine
        split at hfi
        · rename_i hdig
          simp only [Option.some_inj] at hfi
          subst hfi
          exact Or.inr ⟨i, hi, Or.inr ⟨hine, hdig, hm⟩⟩
        · simp at hfi
  · rintro (⟨k, hk, hm⟩ | ⟨i, hi, ⟨hieq, hm⟩ | ⟨hine, hdig, hm⟩⟩)
    · exact ⟨_, Or.inl ⟨k, hk, rfl⟩, hm⟩
    · exact ⟨_, Or.inr ⟨i, hi, by rw [if_pos hieq]⟩, hm⟩
    · exact ⟨_, Or.inr ⟨i, hi, by rw [if_neg hine, if_pos hdig]⟩, hm⟩


/-! ### Language of the positional alternatives -/

theorem map_dVal_map_dChar {l : List Nat} (h : ∀ d ∈ l, d < 10) :
    (l.map dChar).map dVal = l := by
  rw [List.map_map]
  have h2 : ∀ d ∈ l, (dVal ∘ dChar) d = id d := by
    intro d hd
    simp [Function.comp, dVal_dChar (show d ≤ 9 by have := h d hd; omega)]
  rw [List.map_congr_left h2, List.map_id]

theorem numVal_map_dChar {l : List Nat} (h : ∀ d ∈ l, d < 10) :
    numVal (l.map dChar) = valBE l := by
  rw [numVal, map_dVal_map_dChar h]

theorem allDigits_map_dChar {l : List Nat} (h : ∀ d ∈ l, d < 10) :
    allDigits (l.map dChar) = true := by
  rw [allDigits_iff]
  intro c hc
  simp only [List.mem_map] at hc
  obtain ⟨d, hd, rfl⟩ := hc
  exact ⟨d, by have := h d hd; omega, rfl⟩

theorem getD_append_cons (p q : List Nat) (e : Nat) :
    (p ++ e :: q).getD p.length 0 = e := by
  induction p with
  | nil => rfl
  | cons a t ih => simpa using ih

theorem list_decomp {l : List Nat} {i : Nat} (hi : i < l.length) :
    l = l.take i ++ l.getD i 0 :: l.drop (i + 1) := by
  rw [List.getD_eq_getElem l 0 hi, ← List.drop_eq_getElem_cons hi,
    List.take_append_drop]

theorem list_decomp_last {l : List Nat} {i : Nat} (hi : i < l.length)
    (hieq : i = l.length - 1) : l = l.take i ++ [l.getD i 0] := by
  have h := list_decomp hi
  have hd : l.drop (i + 1) = [] := by
    rw [List.drop_eq_nil_iff]
    omega
  rw [hd] at h
  exact h

theorem fullmatch_lastAltUp {p : List Nat} {dg : Nat} (hdg : dg ≤ 9)
    (x : List Char) :
    fullmatch (.cat (litDigits p) (digitRangeUpR dg)) x = true ↔
      ∃ e, dg ≤ e ∧ e ≤ 9 ∧ x = (p ++ [e]).map dChar := by
  rw [fullmatch_cat_iff (plain_litDigits p)]
  constructor
  · rintro ⟨u, v, rfl, hu, hv⟩
    rw [fullmatch_litDigits] at hu
    obtain ⟨e, he1, he2, rfl⟩ := (fullmatch_digitRangeUpR hdg v).1 hv
    exact ⟨e, he1, he2, by rw [hu]; simp⟩
  · rintro ⟨e, he1, he2, rfl⟩
    refine ⟨p.map dChar, [dChar e], by simp, (fullmatch_litDigits p _).2 rfl, ?_⟩
    exact (fullmatch_digitRangeUpR hdg _).2 ⟨e, he1, he2, rfl⟩

theorem fullmatch_lastAltDown {p : List Nat} {dg : Nat} (hdg : dg ≤ 9)
    (x : List Char) :
    fullmatch (.cat (litDigits p) (digitRangeDownR dg)) x = true ↔
      ∃ e, e ≤ dg ∧ x = (p ++ [e]).map dChar := by
  rw [fullmatch_cat_iff (plain_litDigits p)]
  constructor
  · rintro ⟨u, v, rfl, hu, hv⟩
    rw [fullmatch_litDigits] at hu
    obtain ⟨e, he1, rfl⟩ := (fullmatch_digitRangeDownR hdg v).1 hv
    exact ⟨e, he1, by rw [hu]; simp⟩
  · rintro ⟨e, he1, rfl⟩
    refine ⟨p.map dChar, [dChar e], by simp, (fullmatch_litDigits p _).2 rfl, ?_⟩
    exact (fullmatch_digitRangeDownR hdg _).2 ⟨e, he1, rfl⟩

theorem fullmatch_midAltUp {p : List Nat} {dg m : Nat} (hdg : dg ≤ 9)
    (x : List Char) :
    fullmatch (.cat (litDigits p)
      (.cat (digitRangeUpR dg) (.repE .anyd m))) x = true ↔
      ∃ e rest, dg ≤ e ∧ e ≤ 9 ∧ allDigits rest = true ∧ rest.length = m ∧
        x = p.map dChar ++ dChar e :: rest := by
  rw [fullmatch_cat_iff (plain_litDigits p)]
  constructor
  · rintro ⟨u, v, rfl, hu, hv⟩
    rw [fullmatch_litDigits] at hu
    rw [fullmatch_cat_iff (plain_digitRangeUpR dg)] at hv
    obtain ⟨v1, v2, rfl, hv1, hv2⟩ := hv
    obtain ⟨e, he1, he2, rfl⟩ := (fullmatch_digitRangeUpR hdg v1).1 hv1
    obtain ⟨hall, hlen⟩ := (fullmatch_repE_anyd m v2).1 hv2
    exact ⟨e, v2, he1, he2, hall, hlen, by rw [hu]; simp⟩
  · rintro ⟨e, rest, he1, he2, hall, hlen, rfl⟩
    refine ⟨p.map dChar, dChar e :: rest, rfl, (fullmatch_litDigits p _).2 rfl, ?_⟩
    rw [fullmatch_cat_iff (plain_digitRangeUpR dg)]
    refine ⟨[dChar e], rest, rfl, ?_, ?_⟩
    · exact (fullmatch_digitRangeUpR hdg _).2 ⟨e, he1, he2, rfl⟩
    · exact (fullmatch_repE_anyd m rest).2 ⟨hall, hlen⟩

theorem fullmatch_midAltDown {p : List Nat} {dg m : Nat} (hdg : dg ≤ 9)
    (x : List Char) :
    fullmatch (.cat (litDigits p)
      (.cat (digitRangeDownR dg) (.repE .anyd m))) x = true ↔
      ∃ e rest, e ≤ dg ∧ allDigits rest = true ∧ rest.length = m ∧
        x = p.map dChar ++ dChar e :: rest := by
  rw [fullmatch_cat_iff (plain_litDigits p)]
  constructor
  · rintro ⟨u, v, rfl, hu, hv⟩
    rw [fullmatch_litDigits] at hu
    rw [fullmatch_cat_iff (plain_digitRangeDownR dg)] at hv
    obtain ⟨v1, v2, rfl, hv1, hv2⟩ := hv
    obtain ⟨e, he1, rfl⟩ := (fullmatch_digitRangeDownR hdg v1).1 hv1
    obtain ⟨hall, hlen⟩ := (fullmatch_repE_anyd m v2).1 hv2
    exact ⟨e, v2, he1, hall, hlen, by rw [hu]; simp⟩
  · rintro ⟨e, rest, he1, hall, hlen, rfl⟩
    refine ⟨p.map dChar, dChar e :: rest, rfl, (fullmatch_litDigits p _).2 rfl, ?_⟩
    rw [fullmatch_cat_iff (plain_digitRangeDownR dg)]
    refine ⟨[dChar e], rest, rfl, ?_, ?_⟩
    · exact (fullmatch_digitRangeDownR hdg _).2 ⟨e, he1, rfl⟩
    · exact (fullmatch_repE_anyd m rest).2 ⟨hall, hlen⟩


/-! ### Correctness of the digit-range synthesizer -/

theorem take_of_append_take {l : List Nat} {i : Nat} (hi : i ≤ l.length)
    (rest : List Nat) : (l.take i ++ rest).take i = l.take i := by
  rw [List.take_append_of_le_length (by simp; omega), List.take_take]
  simp

theorem getD_of_append_take {l : List Nat} {i : Nat} (hi : i ≤ l.length)
    (e : Nat) (q : List Nat) : (l.take i ++ e :: q).getD i 0 = e := by
  rw [List.getD_append_right _ _ _ _ (by simp)]
  have h : (l.take i).length = i := by simp; omega
  rw [h]
  simp

theorem numGE_iff (n : Nat) {x : List Char} (hx : ValidNum x)
    (hlen10 : x.length ≤ 10) :
    fullmatch (NumGreaterOrEqualR (n : Int)) x = true ↔ n ≤ numVal x := by
  obtain ⟨hne, hdig, hlead⟩ := hx
  by_cases hn : n = 0
  · subst hn
    have h0 : NumGreaterOrEqualR ((0 : Nat) : Int) = digitsR := by
      rw [NumGreaterOrEqualR, if_pos (by norm_num)]
    rw [h0, fullmatch_digitsR]
    simp [hdig, hne]
  · rw [fullmatch_numGE_cases n hn x]
    have hd1 : 1 ≤ (itoaDigits n).length :=
      List.length_pos.2 (itoaDigits_ne_nil n)
    have hslt := itoaDigits_lt n
    have hval : valBE (itoaDigits n) = n := valBE_itoaDigits n
    have hnlt : n < 10 ^ (itoaDigits n).length := lt_pow_itoaDigits_length n
    have hnge : 10 ^ ((itoaDigits n).length - 1) ≤ n :=
      pow_le_of_itoaDigits_length hn
    have hxmap : x = (x.map dVal).map dChar := (map_dVal_dChar hdig).symm
    have hylt : ∀ d ∈ x.map dVal, d < 10 := map_dVal_lt hdig
    constructor
    · rintro (⟨h10, hm⟩ | ⟨i, hi, ⟨hieq, hm⟩ | ⟨hine, hdig9, hm⟩⟩)
      · obtain ⟨hall, hlen⟩ := (fullmatch_repL_anyd _ x).1 hm
        have h2 : 2 ≤ x.length := by omega
        have hle := validNum_pow_le ⟨hne, hdig, hlead⟩ h2
        have hmono : 10 ^ (itoaDigits n).length ≤ 10 ^ (x.length - 1) :=
          Nat.pow_le_pow_right (by omega) (by omega)
        omega
      · have hgd : (itoaDigits n).getD i 0 ≤ 9 := by
          have := hslt ((itoaDigits n).getD i 0)
            (by rw [List.getD_eq_getElem _ 0 hi]; exact List.getElem_mem hi)
          omega
        obtain ⟨e, he1, he2, hxe⟩ := (fullmatch_lastAltUp hgd x).1 hm
        have hnv : numVal x = valBE ((itoaDigits n).take i ++ [e]) := by
          rw [hxe]
          exact numVal_map_dChar (by
            intro d hd
            simp only [List.mem_append, List.mem_singleton] at hd
            rcases hd with hd | rfl
            · exact hslt d (List.mem_of_mem_take hd)
            · omega)
        by_cases heq : e = (itoaDigits n).getD i 0
        · rw [hnv, heq, ← list_decomp_last hi hieq, hval]
        · have hlt : (itoaDigits n).getD i 0 < e := by omega
          have hcmp : valBE (itoaDigits n) <
              valBE ((itoaDigits n).take i ++ [e]) := by
            apply valBE_lt_of_digit_lt
              (s := itoaDigits n) (y := (itoaDigits n).take i ++ [e])
              (by
                simp only [List.length_append, List.length_take,
                  List.length_singleton]
                omega)
              hslt hi
            · exact (take_of_append_take (by omega) _).symm
            · rw [getD_of_append_take (by omega)]
              omega
          omega
      · have hgd : (itoaDigits n).getD i 0 + 1 ≤ 9 := by omega
        obtain ⟨e, rest, he1, he2, hrall, hrlen, hxe⟩ :=
          (fullmatch_midAltUp hgd x).1 hm
        have hnv : numVal x =
            valBE ((itoaDigits n).take i ++ e :: rest.map dVal) := by
          rw [hxe, numVal, List.map_append, List.map_cons,
            map_dVal_map_dChar (fun d hd => hslt d (List.mem_of_mem_take hd)),
            dVal_dChar (show e ≤ 9 by omega)]
        have hcmp : valBE (itoaDigits n) <
            valBE ((itoaDigits n).take i ++ e :: rest.map dVal) := by
          apply valBE_lt_of_digit_lt
            (s := itoaDigits n) (y := (itoaDigits n).take i ++ e :: rest.map dVal)
            (by
              simp only [List.length_append, List.length_take,
                List.length_cons, List.length_map]
              omega)
            hslt hi
          · exact (take_of_append_take (by omega) _).symm
          · rw [getD_of_append_take (by omega)]
            omega
        omega
    · intro hnv
      rcases Nat.lt_trichotomy x.length (itoaDigits n).length with hlt | heq | hgt
      · exfalso
        have h1 : numVal x < 10 ^ x.length := numVal_lt_pow hdig
        have h2 : 10 ^ x.length ≤ 10 ^ ((itoaDigits n).length - 1) :=
          Nat.pow_le_pow_right (by omega) (by omega)
        omega
      · by_cases hye : x.map dVal = itoaDigits n
        · refine Or.inr ⟨(itoaDigits n).length - 1, by omega, Or.inl ⟨rfl, ?_⟩⟩
          have hi : (itoaDigits n).length - 1 < (itoaDigits n).length := by omega
          have hgd : (itoaDigits n).getD ((itoaDigits n).length - 1) 0 ≤ 9 := by
            have := hslt ((itoaDigits n).getD ((itoaDigits n).length - 1) 0)
              (by rw [List.getD_eq_getElem _ 0 hi]; exact List.getElem_mem hi)
            omega
          rw [fullmatch_lastAltUp hgd x]
          refine ⟨(itoaDigits n).getD ((itoaDigits n).length - 1) 0,
            le_rfl, hgd, ?_⟩
          rw [← list_decomp_last hi rfl, ← hye]
          exact hxmap
        · obtain ⟨i, hi, hpre, hdiff⟩ :=
            first_diff (s := itoaDigits n) (y := x.map dVal)
              (by simp [heq]) (fun h => hye (h.symm))
          rcases Nat.lt_or_ge ((x.map dVal).getD i 0)
              ((itoaDigits n).getD i 0) with hlt2 | hge2
          · exfalso
            have hcmp : valBE (x.map dVal) < valBE (itoaDigits n) :=
              valBE_lt_of_digit_lt
                (by simp [heq]) hylt (by simp; omega) hpre.symm hlt2
            have : numVal x = valBE (x.map dVal) := rfl
            omega
          · have hlt2 : (itoaDigits n).getD i 0 < (x.map dVal).getD i 0 := by
              omega
            have hylt_i : (x.map dVal).getD i 0 ≤ 9 := by
              have hiy : i < (x.map dVal).length := by simp; omega
              have := hylt ((x.map dVal).getD i 0)
                (by rw [List.getD_eq_getElem _ 0 hiy]; exact List.getElem_mem hiy)
              omega
            by_cases hieq : i = (itoaDigits n).length - 1
            · refine Or.inr ⟨i, hi, Or.inl ⟨hieq, ?_⟩⟩
              have hgd : (itoaDigits n).getD i 0 ≤ 9 := by omega
              rw [fullmatch_lastAltUp hgd x]
              refine ⟨(x.map dVal).getD i 0, by omega, hylt_i, ?_⟩
              have hiy : i < (x.map dVal).length := by simp; omega
              have hdecomp := list_decomp_last hiy (by simp; omega)
              rw [← hpre] at hdecomp
              conv_lhs => rw [hxmap]
              rw [← hdecomp]
            · refine Or.inr ⟨i, hi, Or.inr ⟨hieq, by omega, ?_⟩⟩
              have hgd : (itoaDigits n).getD i 0 + 1 ≤ 9 := by omega
              rw [fullmatch_midAltUp hgd x]
              refine ⟨(x.map dVal).getD i 0,
                ((x.map dVal).drop (i + 1)).map dChar, by omega, hylt_i,
                ?_, ?_, ?_⟩
              · exact allDigits_map_dChar
                  (fun d hd => hylt d (List.mem_of_mem_drop hd))
              · simp
                omega
              · have hiy : i < (x.map dVal).length := by simp; omega
                have hdecomp := list_decomp hiy
                rw [← hpre] at hdecomp
                conv_lhs => rw [hxmap]
                conv_lhs => rw [hdecomp]
                simp
      · refine Or.inl ⟨by omega, ?_⟩
        rw [fullmatch_repL_anyd]
        exact ⟨hdig, by omega⟩


theorem numLE_iff (n : Nat) {x : List Char} (hx : ValidNum x) :
    fullmatch (NumLessOrEqualR (n : Int)) x = true ↔ numVal x ≤ n := by
  obtain ⟨hne, hdig, hlead⟩ := hx
  rw [fullmatch_numLE_cases n x]
  have hd1 : 1 ≤ (itoaDigits n).length :=
    List.length_pos.2 (itoaDigits_ne_nil n)
  have hslt := itoaDigits_lt n
  have hval : valBE (itoaDigits n) = n := valBE_itoaDigits n
  have hnlt : n < 10 ^ (itoaDigits n).length := lt_pow_itoaDigits_length n
  have hxmap : x = (x.map dVal).map dChar := (map_dVal_dChar hdig).symm
  have hylt : ∀ d ∈ x.map dVal, d < 10 := map_dVal_lt hdig
  have hxlen1 : 1 ≤ x.length := List.length_pos.2 hne
  constructor
  · rintro (⟨k, hk, hm⟩ | ⟨i, hi, ⟨hieq, hm⟩ | ⟨hine, hdig0, hm⟩⟩)
    · rw [List.mem_range'_1] at hk
      have hn0 : n ≠ 0 := by
        intro h0
        subst h0
        have : (itoaDigits 0).length = 1 := by simp [itoaDigits]
        omega
      have hnge : 10 ^ ((itoaDigits n).length - 1) ≤ n :=
        pow_le_of_itoaDigits_length hn0
      have hxk : x.length = k := by
        by_cases hk1 : k = 1
        · subst hk1
          rw [if_pos rfl] at hm
          obtain ⟨c, -, rfl⟩ := (fullmatch_anyd x).1 hm
          rfl
        · rw [if_neg hk1] at hm
          exact ((fullmatch_repE_anyd k x).1 hm).2
      have h1 : numVal x < 10 ^ x.length := numVal_lt_pow hdig
      have h2 : 10 ^ x.length ≤ 10 ^ ((itoaDigits n).length - 1) :=
        Nat.pow_le_pow_right (by omega) (by omega)
      omega
    · have hgd : (itoaDigits n).getD i 0 ≤ 9 := by
        have := hslt ((itoaDigits n).getD i 0)
          (by rw [List.getD_eq_getElem _ 0 hi]; exact List.getElem_mem hi)
        omega
      obtain ⟨e, he1, hxe⟩ := (fullmatch_lastAltDown hgd x).1 hm
      have hnv : numVal x = valBE ((itoaDigits n).take i ++ [e]) := by
        rw [hxe]
        exact numVal_map_dChar (by
          intro d hd
          simp only [List.mem_append, List.mem_singleton] at hd
          rcases hd with hd | rfl
          · exact hslt d (List.mem_of_mem_take hd)
          · omega)
      by_cases heq : e = (itoaDigits n).getD i 0
      · rw [hnv, heq, ← list_decomp_last hi hieq, hval]
      · have hlt : e < (itoaDigits n).getD i 0 := by omega
        have hcmp : valBE ((itoaDigits n).take i ++ [e]) <
            valBE (itoaDigits n) := by
          apply valBE_lt_of_digit_lt
            (s := (itoaDigits n).take i ++ [e]) (y := itoaDigits n)
            (by
              simp only [List.length_append, List.length_take,
                List.length_singleton]
              omega)
            (by
              intro d hd
              simp only [List.mem_append, List.mem_singleton] at hd
              rcases hd with hd | rfl
              · exact hslt d (List.mem_of_mem_take hd)
              · omega)
            (by
              simp only [List.length_append, List.length_take,
                List.length_singleton]
              omega)
            (take_of_append_take (by omega) _)
          rw [getD_of_append_take (by omega)]
          omega
        omega
    · have hgd : (itoaDigits n).getD i 0 - 1 ≤ 9 := by
        have := hslt ((itoaDigits n).getD i 0)
          (by rw [List.getD_eq_getElem _ 0 hi]; exact List.getElem_mem hi)
        omega
      obtain ⟨e, rest, he1, hrall, hrlen, hxe⟩ :=
        (fullmatch_midAltDown hgd x).1 hm
      have hnv : numVal x =
          valBE ((itoaDigits n).take i ++ e :: rest.map dVal) := by
        rw [hxe, numVal, List.map_append, List.map_cons,
          map_dVal_map_dChar (fun d hd => hslt d (List.mem_of_mem_take hd)),
          dVal_dChar (show e ≤ 9 by omega)]
      have hcmp : valBE ((itoaDigits n).take i ++ e :: rest.map dVal) <
          valBE (itoaDigits n) := by
        apply valBE_lt_of_digit_lt
          (s := (itoaDigits n).take i ++ e :: rest.map dVal) (y := itoaDigits n)
          (by
            simp only [List.length_append, List.length_take,
              List.length_cons, List.length_map]
            omega)
          (by
            intro d hd
            simp only [List.mem_append, List.mem_cons] at hd
            rcases hd with hd | rfl | hd
            · exact hslt d (List.mem_of_mem_take hd)
            · omega
            · simp only [List.mem_map] at hd
              obtain ⟨c, hc, rfl⟩ := hd
              obtain ⟨f, hf, rfl⟩ := allDigits_iff.1 hrall c hc
              rw [dVal_dChar hf]
              omega)
          (by
            simp only [List.length_append, List.length_take,
              List.length_cons, List.length_map]
            omega)
          (take_of_append_take (by omega) _)
        rw [getD_of_append_take (by omega)]
        omega
      omega
  · intro hnv
    rcases Nat.lt_trichotomy x.length (itoaDigits n).length with hlt | heq | hgt
    · refine Or.inl ⟨x.length, ?_, ?_⟩
      · rw [List.mem_range'_1]
        omega
      · by_cases hk1 : x.length = 1
        · rw [hk1, if_pos rfl]
          cases x with
          | nil => simp at hk1
          | cons c t =>
            cases t with
            | nil =>
              rw [fullmatch_anyd]
              refine ⟨c, ?_, rfl⟩
              simpa [allDigits] using hdig
            | cons c2 t2 => simp at hk1
        · rw [if_neg hk1, fullmatch_repE_anyd]
          exact ⟨hdig, rfl⟩
    · by_cases hye : x.map dVal = itoaDigits n
      · refine Or.inr ⟨(itoaDigits n).length - 1, by omega, Or.inl ⟨rfl, ?_⟩⟩
        have hi : (itoaDigits n).length - 1 < (itoaDigits n).length := by omega
        have hgd : (itoaDigits n).getD ((itoaDigits n).length - 1) 0 ≤ 9 := by
          have := hslt ((itoaDigits n).getD ((itoaDigits n).length - 1) 0)
            (by rw [List.getD_eq_getElem _ 0 hi]; exact List.getElem_mem hi)
          omega
        rw [fullmatch_lastAltDown hgd x]
        refine ⟨(itoaDigits n).getD ((itoaDigits n).length - 1) 0, le_rfl, ?_⟩
        rw [← list_decomp_last hi rfl, ← hye]
        exact hxmap
      · obtain ⟨i, hi, hpre, hdiff⟩ :=
          first_diff (s := itoaDigits n) (y := x.map dVal)
            (by simp [heq]) (fun h => hye (h.symm))
        rcases Nat.lt_or_ge ((itoaDigits n).getD i 0)
            ((x.map dVal).getD i 0) with hlt2 | hge2
        · exfalso
          have hcmp : valBE (itoaDigits n) < valBE (x.map dVal) :=
            valBE_lt_of_digit_lt (by simp [heq]) hslt hi hpre hlt2
          have : numVal x = valBE (x.map dVal) := rfl
          omega
        · have hlt2 : (x.map dVal).getD i 0 < (itoaDigits n).getD i 0 := by
            omega
          have hylt_i : (x.map dVal).getD i 0 ≤ 9 := by
            have hiy : i < (x.map dVal).length := by simp; omega
            have := hylt ((x.map dVal).getD i 0)
              (by rw [List.getD_eq_getElem _ 0 hiy]; exact List.getElem_mem hiy)
            omega
          have hgd9 : (itoaDigits n).getD i 0 ≤ 9 := by
            have := hslt ((itoaDigits n).getD i 0)
              (by rw [List.getD_eq_getElem _ 0 hi]; exact List.getElem_mem hi)
            omega
          by_cases hieq : i = (itoaDigits n).length - 1
          · refine Or.inr ⟨i, hi, Or.inl ⟨hieq, ?_⟩⟩
            rw [fullmatch_lastAltDown hgd9 x]
            refine ⟨(x.map dVal).getD i 0, by omega, ?_⟩
            have hiy : i < (x.map dVal).length := by simp; omega
            have hdecomp := list_decomp_last hiy (by simp; omega)
            rw [← hpre] at hdecomp
            conv_lhs => rw [hxmap]
            rw [← hdecomp]
          · refine Or.inr ⟨i, hi, Or.inr ⟨hieq, by omega, ?_⟩⟩
            have hgd : (itoaDigits n).getD i 0 - 1 ≤ 9 := by omega
            rw [fullmatch_midAltDown hgd x]
            refine ⟨(x.map dVal).getD i 0,
              ((x.map dVal).drop (i + 1)).map dChar, by omega, ?_, ?_, ?_⟩
            · exact allDigits_map_dChar
                (fun d hd => hylt d (List.mem_of_mem_drop hd))
            · simp
              omega
            · have hiy : i < (x.map dVal).length := by simp; omega
              have hdecomp := list_decomp hiy
              rw [← hpre] at hdecomp
              conv_lhs => rw [hxmap]
              conv_lhs => rw [hdecomp]
              simp
    · exfalso
      have h2 : 2 ≤ x.length := by omega
      have hle := validNum_pow_le ⟨hne, hdig, hlead⟩ h2
      have hmono : 10 ^ (itoaDigits n).length ≤ 10 ^ (x.length - 1) :=
        Nat.pow_le_pow_right (by omega) (by omega)
      omega


/-! ### Version-string splitting and the optional suffix -/

theorem digit_ne_dot {c : Char} (h : chIn '0' '9' c = true) : c ≠ '.' := by
  intro rfl1
  subst rfl1
  exact absurd h (by decide)

theorem digit_ne_dash {c : Char} (h : chIn '0' '9' c = true) : c ≠ '-' := by
  intro rfl1
  subst rfl1
  exact absurd h (by decide)

theorem digit_ne_plus {c : Char} (h : chIn '0' '9' c = true) : c ≠ '+' := by
  intro rfl1
  subst rfl1
  exact absurd h (by decide)

theorem verStr_no_sign {xs ys zs : List Char} (hxs : allDigits xs = true)
    (hys : allDigits ys = true) (hzs : allDigits zs = true) :
    ∀ c ∈ verStr xs ys zs, ¬(c = '-') ∧ ¬(c = '+') := by
  intro c hc
  simp only [verStr, List.mem_append, List.mem_cons] at hc
  simp only [allDigits, List.all_eq_true] at hxs hys hzs
  have hdig : chIn '0' '9' c = true ∨ c = '.' := by tauto
  rcases hdig with h | rfl
  · exact ⟨digit_ne_dash h, digit_ne_plus h⟩
  · exact ⟨by decide, by decide⟩

theorem digit_dot_align {u v xs rest : List Char} (hu : allDigits u = true)
    (hxs : allDigits xs = true) (h : u ++ '.' :: v = xs ++ '.' :: rest) :
    u = xs ∧ v = rest := by
  induction u generalizing xs with
  | nil =>
    cases xs with
    | nil =>
      simp only [List.nil_append] at h
      injection h with h1 h2
      exact ⟨rfl, h2⟩
    | cons c xs' =>
      simp only [List.nil_append, List.cons_append] at h
      injection h with h1 h2
      have : allDigits (c :: xs') = true := hxs
      simp only [allDigits, List.all_cons, Bool.and_eq_true] at this
      exact absurd h1.symm (digit_ne_dot this.1)
  | cons c u' ih =>
    cases xs with
    | nil =>
      simp only [List.cons_append, List.nil_append] at h
      injection h with h1 h2
      simp only [allDigits, List.all_cons, Bool.and_eq_true] at hu
      exact absurd h1 (digit_ne_dot hu.1)
    | cons c2 xs' =>
      simp only [List.cons_append] at h
      injection h with h1 h2
      simp only [allDigits, List.all_cons, Bool.and_eq_true] at hu hxs
      obtain ⟨hu1, hrest⟩ := ih hu.2 hxs.2 h2
      exact ⟨by rw [h1, hu1], hrest⟩

theorem fullmatch_dotR (s : List Char) :
    fullmatch dotR s = true ↔ s = ['.'] :=
  fullmatch_esc '.' s

theorem fullmatch_hatA_cat (r : Regex) (s : List Char) :
    fullmatch (.cat .hatA r) s = true ↔ fullmatch r s = true := by
  simp [fullmatch_iff, mrun_cat, mrun_hatA]

theorem fullmatch_dollarA_cat (r : Regex) (s : List Char) :
    fullmatch (.cat r .dollarA) s = true ↔ fullmatch r s = true := by
  simp only [fullmatch_iff, mrun_cat, List.mem_flatMap]
  constructor
  · rintro ⟨t, ht, hd⟩
    rw [mrun_dollarA] at hd
    rcases t with _ | ⟨c, t'⟩
    · exact ht
    · simp at hd
  · intro h
    exact ⟨[], h, by rw [mrun_dollarA]; simp⟩

theorem plain_dotR : plain dotR = true := rfl

theorem plain_litC (c : Char) : plain (.lit c) = true := rfl

theorem plain_escC (c : Char) : plain (.esc c) = true := rfl

theorem plain_preR : plain PRE_RELEASE_R = true := rfl

theorem plain_suffixR : plain VERSION_SUFFIX_R = true := rfl

theorem fullmatch_suffix_nil : fullmatch VERSION_SUFFIX_R [] = true := by decide

theorem fullmatch_suffix_head {v : List Char}
    (h : fullmatch VERSION_SUFFIX_R v = true) :
    v = [] ∨ v.head? = some '-' ∨ v.head? = some '+' := by
  rw [VERSION_SUFFIX_R, fullmatch_cat_iff plain_preR] at h
  obtain ⟨a, b, rfl, ha, hb⟩ := h
  rw [PRE_RELEASE_R, fullmatch_opt, fullmatch_grp] at ha
  rcases ha with ha | rfl
  · rw [fullmatch_cat_iff (plain_litC '-')] at ha
    obtain ⟨a1, a2, rfl, ha1, -⟩ := ha
    rw [fullmatch_lit] at ha1
    subst ha1
    simp
  · rw [BUILD_META_R, fullmatch_opt, fullmatch_grp] at hb
    rcases hb with hb | rfl
    · rw [fullmatch_cat_iff (plain_escC '+')] at hb
      obtain ⟨b1, b2, rfl, hb1, -⟩ := hb
      rw [fullmatch_esc] at hb1
      subst hb1
      simp
    · simp

/-- Matching `A\.B\.C` against a three-part candidate whose first two
parts are digit strings decomposes componentwise. -/
theorem fullmatch_triple {A B C : Regex}
    (hA : plain A = true) (hB : plain B = true)
    (dA : ∀ w, fullmatch A w = true → allDigits w = true)
    (dB : ∀ w, fullmatch B w = true → allDigits w = true)
    {xs ys zs : List Char}
    (hxs : allDigits xs = true) (hys : allDigits ys = true) :
    fullmatch (.cat A (.cat dotR (.cat B (.cat dotR C)))) (verStr xs ys zs) = true ↔
      fullmatch A xs = true ∧ fullmatch B ys = true ∧ fullmatch C zs = true := by
  constructor
  · intro h
    rw [fullmatch_cat_iff hA] at h
    obtain ⟨u, v, hsplit, hu, hv⟩ := h
    rw [fullmatch_cat_iff plain_dotR] at hv
    obtain ⟨d1, v2, rfl, hd1, hv2⟩ := hv
    rw [fullmatch_dotR] at hd1
    subst hd1
    rw [verStr] at hsplit
    obtain ⟨rfl, hv2eq⟩ := digit_dot_align (dA u hu) hxs (by simpa using hsplit.symm)
    rw [fullmatch_cat_iff hB] at hv2
    obtain ⟨w, v3, hsplit2, hw, hv3⟩ := hv2
    rw [fullmatch_cat_iff plain_dotR] at hv3
    obtain ⟨d2, v4, rfl, hd2, hv4⟩ := hv3
    rw [fullmatch_dotR] at hd2
    subst hd2
    obtain ⟨rfl, rfl⟩ := digit_dot_align (dB w hw) hys
      (by simpa using (hv2eq.symm.trans hsplit2).symm)
    exact ⟨hu, hw, hv4⟩
  · rintro ⟨h1, h2, h3⟩
    rw [fullmatch_cat_iff hA]
    refine ⟨xs, '.' :: ys ++ '.' :: zs, by simp [verStr], h1, ?_⟩
    rw [fullmatch_cat_iff plain_dotR]
    refine ⟨['.'], ys ++ '.' :: zs, rfl, (fullmatch_dotR _).2 rfl, ?_⟩
    rw [fullmatch_cat_iff hB]
    refine ⟨ys, '.' :: zs, rfl, h2, ?_⟩
    rw [fullmatch_cat_iff plain_dotR]
    exact ⟨['.'], zs, rfl, (fullmatch_dotR _).2 rfl, h3⟩

/-- Same decomposition when the pattern carries the optional suffix and
end anchor after the third component. -/
theorem fullmatch_tripleT {A B C : Regex}
    (hA : plain A = true) (hB : plain B = true) (hC : plain C = true)
    (dA : ∀ w, fullmatch A w = true → allDigits w = true)
    (dB : ∀ w, fullmatch B w = true → allDigits w = true)
    {xs ys zs : List Char}
    (hxs : allDigits xs = true) (hys : allDigits ys = true)
    (hzs : allDigits zs = true) :
    fullmatch (.cat A (.cat dotR (.cat B (.cat dotR
      (.cat C (.cat VERSION_SUFFIX_R .dollarA)))))) (verStr xs ys zs) = true ↔
      fullmatch A xs = true ∧ fullmatch B ys = true ∧ fullmatch C zs = true := by
  have habsorb : ∀ w, allDigits w = true →
      (fullmatch (.cat C (.cat VERSION_SUFFIX_R .dollarA)) w = true ↔
        fullmatch C w = true) := by
    intro w hw
    rw [fullmatch_cat_iff hC]
    constructor
    · rintro ⟨u, v, rfl, hu, hv⟩
      rw [fullmatch_dollarA_cat] at hv
      rcases fullmatch_suffix_head hv with rfl | hh | hh
      · simpa using hu
      · rcases v with _ | ⟨c, v'⟩
        · simp at hh
        · simp only [List.head?_cons, Option.some_inj] at hh
          subst hh
          have : allDigits ('-' :: v') = true := by
            simp only [allDigits, List.all_eq_true] at hw ⊢
            intro a ha
            exact hw a (by simp [ha])
          simp only [allDigits, List.all_cons, Bool.and_eq_true] at this
          exact absurd rfl (digit_ne_dash this.1)
      · rcases v with _ | ⟨c, v'⟩
        · simp at hh
        · simp only [List.head?_cons, Option.some_inj] at hh
          subst hh
          have : allDigits ('+' :: v') = true := by
            simp only [allDigits, List.all_eq_true] at hw ⊢
            intro a ha
            exact hw a (by simp [ha])
          simp only [allDigits, List.all_cons, Bool.and_eq_true] at this
          exact absurd rfl (digit_ne_plus this.1)
    · intro h
      refine ⟨w, [], by simp, h, ?_⟩
      rw [fullmatch_dollarA_cat]
      exact fullmatch_suffix_nil
  have hCT : plain (.cat C (.cat VERSION_SUFFIX_R .dollarA)) = false := by
    simp [plain]
  constructor
  · intro h
    rw [fullmatch_cat_iff hA] at h
    obtain ⟨u, v, hsplit, hu, hv⟩ := h
    rw [fullmatch_cat_iff plain_dotR] at hv
    obtain ⟨d1, v2, rfl, hd1, hv2⟩ := hv
    rw [fullmatch_dotR] at hd1
    subst hd1
    rw [verStr] at hsplit
    obtain ⟨rfl, hv2eq⟩ := digit_dot_align (dA u hu) hxs (by simpa using hsplit.symm)
    rw [fullmatch_cat_iff hB] at hv2
    obtain ⟨w, v3, hsplit2, hw, hv3⟩ := hv2
    rw [fullmatch_cat_iff plain_dotR] at hv3
    obtain ⟨d2, v4, rfl, hd2, hv4⟩ := hv3
    rw [fullmatch_dotR] at hd2
    subst hd2
    obtain ⟨rfl, rfl⟩ := digit_dot_align (dB w hw) hys
      (by simpa using (hv2eq.symm.trans hsplit2).symm)
    exact ⟨hu, hw, (habsorb _ hzs).1 hv4⟩
  · rintro ⟨h1, h2, h3⟩
    rw [fullmatch_cat_iff hA]
    refine ⟨xs, '.' :: ys ++ '.' :: zs, by simp [verStr], h1, ?_⟩
    rw [fullmatch_cat_iff plain_dotR]
    refine ⟨['.'], ys ++ '.' :: zs, rfl, (fullmatch_dotR _).2 rfl, ?_⟩
    rw [fullmatch_cat_iff hB]
    refine ⟨ys, '.' :: zs, rfl, h2, ?_⟩
    rw [fullmatch_cat_iff plain_dotR]
    exact ⟨['.'], zs, rfl, (fullmatch_dotR _).2 rfl, (habsorb zs hzs).2 h3⟩


/-! ### The comparison clauses match only digit strings -/

theorem numGE_digitsOnly (n : Nat) {w : List Char}
    (h : fullmatch (NumGreaterOrEqualR (n : Int)) w = true) :
    allDigits w = true := by
  by_cases hn : n = 0
  · subst hn
    have h0 : NumGreaterOrEqualR ((0 : Nat) : Int) = digitsR := by
      rw [NumGreaterOrEqualR, if_pos (by norm_num)]
    rw [h0, fullmatch_digitsR] at h
    exact h.1
  · rw [fullmatch_numGE_cases n hn w] at h
    have hslt := itoaDigits_lt n
    rcases h with ⟨-, hm⟩ | ⟨i, hi, ⟨-, hm⟩ | ⟨-, hdig9, hm⟩⟩
    · exact ((fullmatch_repL_anyd _ w).1 hm).1
    · have hgd : (itoaDigits n).getD i 0 ≤ 9 := by
        have := hslt ((itoaDigits n).getD i 0)
          (by rw [List.getD_eq_getElem _ 0 hi]; exact List.getElem_mem hi)
        omega
      obtain ⟨e, -, he2, rfl⟩ := (fullmatch_lastAltUp hgd w).1 hm
      exact allDigits_map_dChar (by
        intro d hd
        simp only [List.mem_append, List.mem_singleton] at hd
        rcases hd with hd | rfl
        · exact hslt d (List.mem_of_mem_take hd)
        · omega)
    · have hgd : (itoaDigits n).getD i 0 + 1 ≤ 9 := by omega
      obtain ⟨e, rest, -, he2, hrall, -, rfl⟩ := (fullmatch_midAltUp hgd w).1 hm
      simp only [allDigits, List.all_append, List.all_cons, Bool.and_eq_true]
      refine ⟨?_, ?_, hrall⟩
      · exact allDigits_map_dChar (fun d hd => hslt d (List.mem_of_mem_take hd))
      · rw [isDigit_iff]
        exact ⟨e, by omega, rfl⟩

theorem numLE_digitsOnly (n : Nat) {w : List Char}
    (h : fullmatch (NumLessOrEqualR (n : Int)) w = true) :
    allDigits w = true := by
  rw [fullmatch_numLE_cases n w] at h
  have hslt := itoaDigits_lt n
  rcases h with ⟨k, hk, hm⟩ | ⟨i, hi, ⟨-, hm⟩ | ⟨-, hdig0, hm⟩⟩
  · by_cases hk1 : k = 1
    · subst hk1
      rw [if_pos rfl, fullmatch_anyd] at hm
      obtain ⟨c, hc, rfl⟩ := hm
      simp [allDigits, hc]
    · rw [if_neg hk1, fullmatch_repE_anyd] at hm
      exact hm.1
  · have hgd : (itoaDigits n).getD i 0 ≤ 9 := by
      have := hslt ((itoaDigits n).getD i 0)
        (by rw [List.getD_eq_getElem _ 0 hi]; exact List.getElem_mem hi)
      omega
    obtain ⟨e, he1, rfl⟩ := (fullmatch_lastAltDown hgd w).1 hm
    exact allDigits_map_dChar (by
      intro d hd
      simp only [List.mem_append, List.mem_singleton] at hd
      rcases hd with hd | rfl
      · exact hslt d (List.mem_of_mem_take hd)
      · omega)
  · have hgd : (itoaDigits n).getD i 0 - 1 ≤ 9 := by
      have := hslt ((itoaDigits n).getD i 0)
        (by rw [List.getD_eq_getElem _ 0 hi]; exact List.getElem_mem hi)
      omega
    obtain ⟨e, rest, he1, hrall, -, rfl⟩ := (fullmatch_midAltDown hgd w).1 hm
    simp only [allDigits, List.all_append, List.all_cons, Bool.and_eq_true]
    refine ⟨?_, ?_, hrall⟩
    · exact allDigits_map_dChar (fun d hd => hslt d (List.mem_of_mem_take hd))
    · rw [isDigit_iff]
      exact ⟨e, by omega, rfl⟩

theorem plain_litNumR (m : Nat) : plain (litNumR m) = true := plain_litStr _

theorem litNumR_digitsOnly (m : Nat) {w : List Char}
    (h : fullmatch (litNumR m) w = true) : allDigits w = true := by
  rw [litNumR, fullmatch_litStr] at h
  subst h
  exact (validNum_itoaChars m).2.1

theorem digitsR_digitsOnly {w : List Char}
    (h : fullmatch digitsR w = true) : allDigits w = true :=
  ((fullmatch_digitsR w).1 h).1

theorem fullmatch_litNumR (m : Nat) {x : List Char} (hx : ValidNum x) :
    fullmatch (litNumR m) x = true ↔ numVal x = m := by
  rw [litNumR, fullmatch_litStr]
  constructor
  · rintro rfl
    exact numVal_itoaChars m
  · intro h
    rw [← validNum_canonical hx, h, itoaChars]

/-! ### The anchored comparison patterns -/

theorem fullmatch_anchoredGroupR {ps : List Regex} (hne : ps ≠ [])
    (hp : ∀ p ∈ ps, plain p = true) {s : List Char}
    (hs : ∀ c ∈ s, ¬(c = '-') ∧ ¬(c = '+')) :
    fullmatch (anchoredGroupR ps) s = true ↔
      ∃ p ∈ ps, fullmatch p s = true := by
  rw [anchoredGroupR, fullmatch_hatA_cat,
    fullmatch_cat_iff (by simpa [plain] using plain_altListR hp :
      plain (Regex.grp (altListR ps)) = true)]
  constructor
  · rintro ⟨u, v, rfl, hu, hv⟩
    rw [fullmatch_dollarA_cat] at hv
    have hv0 : v = [] := by
      rcases fullmatch_suffix_head hv with rfl | hh | hh
      · rfl
      · rcases v with _ | ⟨c, v'⟩
        · rfl
        · simp only [List.head?_cons, Option.some_inj] at hh
          subst hh
          exact absurd rfl (hs '-' (by simp)).1
      · rcases v with _ | ⟨c, v'⟩
        · rfl
        · simp only [List.head?_cons, Option.some_inj] at hh
          subst hh
          exact absurd rfl (hs '+' (by simp)).2
    subst hv0
    rw [fullmatch_grp] at hu
    rw [List.append_nil]
    exact (fullmatch_altListR hne u).1 hu
  · intro h
    refine ⟨s, [], by simp, ?_, ?_⟩
    · rw [fullmatch_grp]
      exact (fullmatch_altListR hne s).2 h
    · rw [fullmatch_dollarA_cat]
      exact fullmatch_suffix_nil


theorem plain_digitsR : plain digitsR = true := rfl

/-! ### The `>=` version pattern -/

theorem gePattern_iff (M m p : Nat) {xs ys zs : List Char}
    (hxs : ValidNum xs) (hys : ValidNum ys) (hzs : ValidNum zs)
    (hxl : xs.length ≤ 10) (hyl : ys.length ≤ 10) (hzl : zs.length ≤ 10) :
    fullmatch (greaterThanEqualPatternR M m p) (verStr xs ys zs) = true ↔
      (M < numVal xs ∨ (numVal xs = M ∧ m < numVal ys) ∨
        (numVal xs = M ∧ numVal ys = m ∧ p ≤ numVal zs)) := by
  have hcast1 : ((M : Int) + 1) = ((M + 1 : Nat) : Int) := by push_cast; ring
  have hcast2 : ((m : Int) + 1) = ((m + 1 : Nat) : Int) := by push_cast; ring
  rw [greaterThanEqualPatternR, hcast1, hcast2]
  rw [fullmatch_anchoredGroupR (by simp)
    (by
      intro q hq
      simp only [List.mem_cons, List.not_mem_nil, or_false] at hq
      rcases hq with rfl | rfl | rfl <;>
        simp [plain, plain_NumGreaterOrEqualR, plain_litNumR])
    (verStr_no_sign hxs.2.1 hys.2.1 hzs.2.1)]
  have h1 : fullmatch (.cat (NumGreaterOrEqualR ((M + 1 : Nat) : Int))
      (.cat dotR (.cat digitsR (.cat dotR digitsR)))) (verStr xs ys zs) = true ↔
      M + 1 ≤ numVal xs := by
    rw [fullmatch_triple (plain_NumGreaterOrEqualR _) plain_digitsR
      (fun w hw => numGE_digitsOnly (M + 1) hw)
      (fun w hw => digitsR_digitsOnly hw) hxs.2.1 hys.2.1]
    rw [numGE_iff (M + 1) hxs hxl, fullmatch_digitsR, fullmatch_digitsR]
    constructor
    · rintro ⟨h, -, -⟩; exact h
    · intro h; exact ⟨h, ⟨hys.2.1, hys.1⟩, ⟨hzs.2.1, hzs.1⟩⟩
  have h2 : fullmatch (.cat (litNumR M)
      (.cat dotR (.cat (NumGreaterOrEqualR ((m + 1 : Nat) : Int))
        (.cat dotR digitsR)))) (verStr xs ys zs) = true ↔
      numVal xs = M ∧ m + 1 ≤ numVal ys := by
    rw [fullmatch_triple (plain_litNumR M) (plain_NumGreaterOrEqualR _)
      (fun w hw => litNumR_digitsOnly M hw)
      (fun w hw => numGE_digitsOnly (m + 1) hw) hxs.2.1 hys.2.1]
    rw [fullmatch_litNumR M hxs, numGE_iff (m + 1) hys hyl, fullmatch_digitsR]
    constructor
    · rintro ⟨h, h', -⟩; exact ⟨h, h'⟩
    · rintro ⟨h, h'⟩; exact ⟨h, h', ⟨hzs.2.1, hzs.1⟩⟩
  have h3 : fullmatch (.cat (litNumR M)
      (.cat dotR (.cat (litNumR m) (.cat dotR
        (NumGreaterOrEqualR (p : Int)))))) (verStr xs ys zs) = true ↔
      numVal xs = M ∧ numVal ys = m ∧ p ≤ numVal zs := by
    rw [fullmatch_triple (plain_litNumR M) (plain_litNumR m)
      (fun w hw => litNumR_digitsOnly M hw)
      (fun w hw => litNumR_digitsOnly m hw) hxs.2.1 hys.2.1]
    rw [fullmatch_litNumR M hxs, fullmatch_litNumR m hys, numGE_iff p hzs hzl]
  constructor
  · rintro ⟨q, hq, hmq⟩
    simp only [List.mem_cons, List.not_mem_nil, or_false] at hq
    rcases hq with rfl | rfl | rfl
    · exact Or.inl (by have := h1.1 hmq; omega)
    · exact Or.inr (Or.inl (by have := h2.1 hmq; omega))
    · exact Or.inr (Or.inr (h3.1 hmq))
  · rintro (h | h | h)
    · exact ⟨_, by simp, h1.2 (by omega)⟩
    · refine ⟨_, by simp, h2.2 ⟨h.1, by omega⟩⟩
    · exact ⟨_, by simp, h3.2 h⟩

/-! ### The caret pattern -/

theorem caretPattern_iff (M m : Nat) {xs ys zs : List Char}
    (hxs : ValidNum xs) (hys : ValidNum ys) (hzs : ValidNum zs) :
    fullmatch (caretPatternR M m) (verStr xs ys zs) = true ↔
      (numVal xs = M ∧ (M = 0 → numVal ys = m)) := by
  rw [caretPatternR]
  split
  · rename_i hM0
    subst hM0
    rw [fullmatch_hatA_cat]
    rw [fullmatch_tripleT (plain_litC '0') (plain_litNumR m) plain_digitsR
      (by
        intro w hw
        rw [fullmatch_lit] at hw
        subst hw
        decide)
      (fun w hw => litNumR_digitsOnly m hw) hxs.2.1 hys.2.1 hzs.2.1]
    rw [fullmatch_lit, fullmatch_litNumR m hys, fullmatch_digitsR]
    constructor
    · rintro ⟨h, h', -⟩
      have : numVal xs = 0 := by
        rw [h]
        decide
      exact ⟨this, fun _ => h'⟩
    · rintro ⟨h, h'⟩
      refine ⟨?_, h' rfl, ⟨hzs.2.1, hzs.1⟩⟩
      have := validNum_canonical hxs
      rw [h] at this
      rw [← this]
      decide
  · rename_i hM0
    rw [fullmatch_hatA_cat]
    rw [fullmatch_tripleT (plain_litNumR M) plain_digitsR plain_digitsR
      (fun w hw => litNumR_digitsOnly M hw)
      (fun w hw => digitsR_digitsOnly hw) hxs.2.1 hys.2.1 hzs.2.1]
    rw [fullmatch_litNumR M hxs, fullmatch_digitsR, fullmatch_digitsR]
    constructor
    · rintro ⟨h, -, -⟩
      exact ⟨h, fun h0 => absurd h0 hM0⟩
    · rintro ⟨h, -⟩
      exact ⟨h, ⟨hys.2.1, hys.1⟩, ⟨hzs.2.1, hzs.1⟩⟩

/-! ### The contradiction pattern -/

theorem fullmatch_emptyMatchR (s : List Char) :
    fullmatch emptyMatchR s = false := by
  rw [Bool.eq_false_iff]
  intro h
  rw [emptyMatchR, fullmatch_hatA_cat, fullmatch_dollarA_cat,
    fullmatch_iff, mrun_nlk] at h
  have hmem : s ∈ mrun (.starR .dotAny) s := by
    rw [mrun_starR]
    simp
  have hne : ¬ (mrun (.starR .dotAny) s).isEmpty = true := by
    intro he
    rw [List.isEmpty_iff] at he
    rw [he] at hmem
    simp at hmem
  rw [if_neg hne] at h
  simp at h

theorem lessThanPatternR_zero : lessThanPatternR 0 0 0 = emptyMatchR := rfl

theorem lessThanPatternR_eq_empty_iff (M m p : Nat) :
    lessThanPatternR M m p = emptyMatchR ↔ M = 0 ∧ m = 0 ∧ p = 0 := by
  constructor
  · intro h
    simp only [lessThanPatternR] at h
    by_cases hM : M > 0
    · exfalso
      rw [if_pos hM] at h
      simp only [List.singleton_append, List.cons_append] at h
      rw [if_neg (List.cons_ne_nil _ _)] at h
      simp [anchoredGroupR, emptyMatchR] at h
    by_cases hm : m > 0
    · exfalso
      rw [if_neg hM, if_pos hm] at h
      simp only [List.nil_append, List.singleton_append, List.cons_append] at h
      rw [if_neg (List.cons_ne_nil _ _)] at h
      simp [anchoredGroupR, emptyMatchR] at h
    by_cases hp : p > 0
    · exfalso
      rw [if_neg hM, if_neg hm, if_pos hp] at h
      simp only [List.nil_append] at h
      rw [if_neg (List.cons_ne_nil _ _)] at h
      simp [anchoredGroupR, emptyMatchR] at h
    exact ⟨by omega, by omega, by omega⟩
  · rintro ⟨rfl, rfl, rfl⟩
    rfl

theorem lessThanPatternS_zero : lessThanPatternS 0 0 0 = EMPTY_MATCH_PATTERN := rfl

theorem lessThanPatternS_eq_empty_iff (M m p : Nat) :
    lessThanPatternS M m p = EMPTY_MATCH_PATTERN ↔ M = 0 ∧ m = 0 ∧ p = 0 := by
  have hdis : ∀ ps : List (List Char), REGEX_START ++ "(?:".toList ++ joinBar ps
      ++ ")".toList ++ VERSION_SUFFIX_PATTERN ++ REGEX_END ≠ EMPTY_MATCH_PATTERN := by
    intro ps h
    have h2 : ('^' :: '(' :: '?' :: ':' :: (joinBar ps ++ ")".toList
        ++ VERSION_SUFFIX_PATTERN ++ REGEX_END) : List Char)
        = ('^' :: '(' :: '?' :: '!' :: ['.', '*', ')', '$'] : List Char) := h
    simp at h2
  constructor
  · intro h
    simp only [lessThanPatternS] at h
    by_cases hM : M > 0
    · exfalso
      rw [if_pos hM] at h
      simp only [List.singleton_append, List.cons_append] at h
      rw [if_neg (List.cons_ne_nil _ _)] at h
      exact hdis _ h
    by_cases hm : m > 0
    · exfalso
      rw [if_neg hM, if_pos hm] at h
      simp only [List.nil_append, List.singleton_append, List.cons_append] at h
      rw [if_neg (List.cons_ne_nil _ _)] at h
      exact hdis _ h
    by_cases hp : p > 0
    · exfalso
      rw [if_neg hM, if_neg hm, if_pos hp] at h
      simp only [List.nil_append] at h
      rw [if_neg (List.cons_ne_nil _ _)] at h
      exact hdis _ h
    exact ⟨by omega, by omega, by omega⟩
  · rintro ⟨rfl, rfl, rfl⟩
    rfl


/-! ### Rendering the tree-level fragments back to their pattern sources -/

theorem toList_ncgroup : "(?:".toList = ['(', '?', ':'] := rfl

theorem toList_rparen : ")".toList = [')'] := rfl

theorem toList_zeroCh : "0".toList = ['0'] := rfl

theorem toList_dbrace : "\\d\x7b".toList = ['\\', 'd', '\x7b'] := rfl

theorem toList_commabrace : ",\x7d".toList = [',', '\x7d'] := rfl

theorem toList_brace : "\x7d".toList = ['\x7d'] := rfl

theorem toList_dslash : "\\d".toList = ['\\', 'd'] := rfl

theorem REGEX_START_eq : REGEX_START = ['^'] := rfl

theorem REGEX_END_eq : REGEX_END = ['$'] := rfl

theorem REGEX_OR_eq : REGEX_OR = ['|'] := rfl

theorem VERSION_DOT_eq : VERSION_DOT = ['\\', '.'] := rfl

theorem VERSION_DIGITS_eq : VERSION_DIGITS = ['\\', 'd', '+'] := rfl

theorem renderR_dotR : renderR dotR = VERSION_DOT := rfl

theorem renderR_digitsR : renderR digitsR = VERSION_DIGITS := rfl

theorem renderR_suffix : renderR VERSION_SUFFIX_R = VERSION_SUFFIX_PATTERN := rfl

theorem renderR_emptyMatchR : renderR emptyMatchR = EMPTY_MATCH_PATTERN := rfl

theorem renderR_litStr (cs : List Char) : renderR (litStr cs) = cs := by
  induction cs with
  | nil => rfl
  | cons c t ih =>
    have h : litStr (c :: t) = .cat (.lit c) (litStr t) := rfl
    rw [h]
    simp [renderR, ih]

theorem renderR_litDigits (p : List Nat) : renderR (litDigits p) = p.map dChar := by
  rw [litDigits, renderR_litStr]

theorem renderR_litNumR (m : Nat) : renderR (litNumR m) = itoaChars m := by
  rw [litNumR, renderR_litStr]

theorem renderR_digitRangeUpR (d : Nat) :
    renderR (digitRangeUpR d) = digitRangeUpS d := by
  rw [digitRangeUpR, digitRangeUpS]
  split <;> rfl

theorem renderR_digitRangeDownR (d : Nat) :
    renderR (digitRangeDownR d) = digitRangeDownS d := by
  rw [digitRangeDownR, digitRangeDownS]
  split <;> rfl

theorem renderR_repL_anyd (k : Nat) :
    renderR (.repL .anyd k) = "\\d\x7b".toList ++ itoaChars k ++ ",\x7d".toList := rfl

theorem renderR_repE_anyd (k : Nat) :
    renderR (.repE .anyd k) = "\\d\x7b".toList ++ itoaChars k ++ "\x7d".toList := rfl

theorem renderR_altListR : ∀ ps : List Regex,
    renderR (altListR ps) = joinBar (ps.map renderR)
  | [] => rfl
  | [p] => rfl
  | p :: q :: ps => by
    have ih := renderR_altListR (q :: ps)
    show renderR (.alt p (altListR (q :: ps))) = _
    simp [renderR, ih, joinBar, REGEX_OR_eq]

theorem renderR_joinPatternsR : ∀ ps : List Regex,
    renderR (joinPatternsR ps) = joinPatternsS (ps.map renderR)
  | [] => rfl
  | [p] => rfl
  | p :: q :: ps => by
    show renderR (.grp (altListR (p :: q :: ps))) =
      joinPatternsS ((p :: q :: ps).map renderR)
    rw [show renderR (.grp (altListR (p :: q :: ps))) =
      '(' :: '?' :: ':' :: (renderR (altListR (p :: q :: ps)) ++ [')']) from rfl]
    rw [renderR_altListR]
    rfl

theorem filterMap_congr_mem {α β : Type} {f g : α → Option β} :
    ∀ {l : List α}, (∀ a ∈ l, f a = g a) → l.filterMap f = l.filterMap g
  | [], _ => rfl
  | a :: l, h => by
    have h1 := h a (by simp)
    have h2 : ∀ x ∈ l, f x = g x := fun x hx => h x (by simp [hx])
    simp only [List.filterMap_cons, h1, filterMap_congr_mem h2]

theorem length_itoaChars (n : Nat) :
    (itoaChars n).length = (itoaDigits n).length := by
  simp [itoaChars]

theorem getD_itoaChars (n i : Nat) :
    (itoaChars n).getD i '0' = dChar ((itoaDigits n).getD i 0) := by
  rcases Nat.lt_or_ge i (itoaDigits n).length with h | h
  · have h' : i < (itoaChars n).length := by simpa [itoaChars] using h
    rw [List.getD_eq_getElem _ _ h', List.getD_eq_getElem _ _ h]
    simp [itoaChars]
  · have h' : (itoaChars n).length ≤ i := by simpa [itoaChars] using h
    rw [List.getD_eq_default _ _ h', List.getD_eq_default _ _ h]
    rfl

theorem take_itoaChars (n i : Nat) :
    (itoaChars n).take i = ((itoaDigits n).take i).map dChar := by
  rw [itoaChars, ← List.map_take]

theorem renderR_numGE (n : Int) :
    renderR (NumGreaterOrEqualR n) = NumGreaterOrEqualS n := by
  simp only [NumGreaterOrEqualR, NumGreaterOrEqualS]
  by_cases hn : n ≤ 0
  · rw [if_pos hn, if_pos hn]
    rfl
  · rw [if_neg hn, if_neg hn]
    rw [renderR_joinPatternsR]
    congr 1
    rw [length_itoaChars, List.map_append]
    congr 1
    · by_cases h10 : (itoaDigits n.toNat).length < 10
      · rw [if_pos h10, if_pos h10]
        simp [renderR_repL_anyd]
      · rw [if_neg h10, if_neg h10]
        rfl
    · rw [List.map_filterMap]
      apply filterMap_congr_mem
      intro i hi
      rw [List.mem_range] at hi
      have hlt : (itoaDigits n.toNat).getD i 0 < 10 := by
        rw [List.getD_eq_getElem _ _ hi]
        exact itoaDigits_lt _ _ (List.getElem_mem _)
      rw [getD_itoaChars, dVal_dChar (by omega)]
      by_cases h1 : i = (itoaDigits n.toNat).length - 1
      · rw [if_pos h1, if_pos h1]
        simp [renderR, renderR_litDigits, renderR_digitRangeUpR, take_itoaChars]
      · rw [if_neg h1, if_neg h1]
        by_cases h2 : (itoaDigits n.toNat).getD i 0 < 9
        · rw [if_pos h2, if_pos h2]
          simp [renderR, renderR_litDigits, renderR_digitRangeUpR, renderR_repE_anyd,
            take_itoaChars, List.append_assoc]
        · rw [if_neg h2, if_neg h2]
          rfl

theorem renderR_numLE (n : Int) :
    renderR (NumLessOrEqualR n) = NumLessOrEqualS n := by
  simp only [NumLessOrEqualR, NumLessOrEqualS]
  by_cases hn : n < 0
  · rw [if_pos hn, if_pos hn]
    exact renderR_emptyMatchR
  · rw [if_neg hn, if_neg hn]
    rw [renderR_joinPatternsR]
    congr 1
    rw [length_itoaChars, List.map_append]
    congr 1
    · rw [List.map_map]
      apply List.map_congr_left
      intro d hd
      simp only [Function.comp]
      by_cases h1 : d = 1
      · rw [if_pos h1, if_pos h1]
        rfl
      · rw [if_neg h1, if_neg h1]
        exact renderR_repE_anyd d
    · rw [List.map_filterMap]
      apply filterMap_congr_mem
      intro i hi
      rw [List.mem_range] at hi
      have hlt : (itoaDigits n.toNat).getD i 0 < 10 := by
        rw [List.getD_eq_getElem _ _ hi]
        exact itoaDigits_lt _ _ (List.getElem_mem _)
      rw [getD_itoaChars, dVal_dChar (by omega)]
      by_cases h1 : i = (itoaDigits n.toNat).length - 1
      · rw [if_pos h1, if_pos h1]
        simp [renderR, renderR_litDigits, renderR_digitRangeDownR, take_itoaChars]
      · rw [if_neg h1, if_neg h1]
        by_cases h2 : 0 < (itoaDigits n.toNat).getD i 0
        · rw [if_pos h2, if_pos h2]
          simp [renderR, renderR_litDigits, renderR_digitRangeDownR, renderR_repE_anyd,
            take_itoaChars, List.append_assoc]
        · rw [if_neg h2, if_neg h2]
          rfl

theorem renderR_anchoredGroupR (ps : List Regex) :
    renderR (anchoredGroupR ps) = REGEX_START ++ "(?:".toList
      ++ joinBar (ps.map renderR) ++ ")".toList
      ++ VERSION_SUFFIX_PATTERN ++ REGEX_END := by
  have h : renderR (anchoredGroupR ps) =
      '^' :: ('(' :: '?' :: ':' :: (renderR (altListR ps) ++ [')'])
        ++ (renderR VERSION_SUFFIX_R ++ ['$'])) := rfl
  rw [h, renderR_altListR, renderR_suffix,
    REGEX_START_eq, REGEX_END_eq, toList_ncgroup, toList_rparen]
  simp [List.append_assoc]

theorem renderR_gePattern (M m p : Nat) :
    renderR (greaterThanEqualPatternR M m p) = greaterThanEqualPatternS M m p := by
  rw [greaterThanEqualPatternR, renderR_anchoredGroupR]
  simp only [greaterThanEqualPatternS]
  have hmap : ([Regex.cat (NumGreaterOrEqualR ((M : Int) + 1))
        (.cat dotR (.cat digitsR (.cat dotR digitsR))),
      .cat (litNumR M)
        (.cat dotR (.cat (NumGreaterOrEqualR ((m : Int) + 1)) (.cat dotR digitsR))),
      .cat (litNumR M)
        (.cat dotR (.cat (litNumR m) (.cat dotR (NumGreaterOrEqualR (p : Int)))))]).map
        renderR =
      [NumGreaterOrEqualS ((M : Int) + 1)
        ++ VERSION_DOT ++ VERSION_DIGITS ++ VERSION_DOT ++ VERSION_DIGITS,
      itoaChars M ++ VERSION_DOT ++ NumGreaterOrEqualS ((m : Int) + 1)
        ++ VERSION_DOT ++ VERSION_DIGITS,
      itoaChars M ++ VERSION_DOT ++ itoaChars m ++ VERSION_DOT
        ++ NumGreaterOrEqualS (p : Int)] := by
    simp [renderR, renderR_numGE, renderR_litNumR, VERSION_DOT_eq,
      VERSION_DIGITS_eq, List.append_assoc]
  rw [hmap]

theorem renderR_caretPattern (M m : Nat) :
    renderR (caretPatternR M m) = caretPatternS M m := by
  simp only [caretPatternR, caretPatternS]
  by_cases hM : M = 0
  · rw [if_pos hM, if_pos hM]
    rw [show renderR (Regex.cat .hatA (.cat (.lit '0') (.cat dotR (.cat (litNumR m)
        (.cat dotR (.cat digitsR (.cat VERSION_SUFFIX_R .dollarA))))))) =
      '^' :: '0' :: (renderR dotR ++ (renderR (litNumR m) ++ (renderR dotR
        ++ (renderR digitsR ++ (renderR VERSION_SUFFIX_R ++ ['$']))))) from rfl]
    rw [renderR_dotR, renderR_litNumR, renderR_digitsR, renderR_suffix,
      REGEX_START_eq, REGEX_END_eq, toList_zeroCh]
    simp [List.append_assoc]
  · rw [if_neg hM, if_neg hM]
    rw [show renderR (Regex.cat .hatA (.cat (litNumR M) (.cat dotR (.cat digitsR
        (.cat dotR (.cat digitsR (.cat VERSION_SUFFIX_R .dollarA))))))) =
      '^' :: (renderR (litNumR M) ++ (renderR dotR ++ (renderR digitsR
        ++ (renderR dotR ++ (renderR digitsR
          ++ (renderR VERSION_SUFFIX_R ++ ['$'])))))) from rfl]
    rw [renderR_dotR, renderR_litNumR, renderR_digitsR, renderR_suffix,
      REGEX_START_eq, REGEX_END_eq]
    simp [List.append_assoc]

theorem renderR_ltPattern (M m p : Nat) :
    renderR (lessThanPatternR M m p) = lessThanPatternS M m p := by
  simp only [lessThanPatternR, lessThanPatternS]
  have hc1 : (if M > 0 then
      [NumLessOrEqualS ((M : Int) - 1) ++ VERSION_DOT ++ VERSION_DIGITS
        ++ VERSION_DOT ++ VERSION_DIGITS] else []) =
    (if M > 0 then
      [Regex.cat (NumLessOrEqualR ((M : Int) - 1))
        (.cat dotR (.cat digitsR (.cat dotR digitsR)))] else []).map renderR := by
    by_cases hM : M > 0
    · rw [if_pos hM, if_pos hM]
      simp [renderR, renderR_numLE, VERSION_DOT_eq, VERSION_DIGITS_eq,
        List.append_assoc]
    · rw [if_neg hM, if_neg hM]
      rfl
  have hc2 : (if m > 0 then
      [itoaChars M ++ VERSION_DOT ++ NumLessOrEqualS ((m : Int) - 1)
        ++ VERSION_DOT ++ VERSION_DIGITS] else []) =
    (if m > 0 then
      [Regex.cat (litNumR M)
        (.cat dotR (.cat (NumLessOrEqualR ((m : Int) - 1)) (.cat dotR digitsR)))]
      else []).map renderR := by
    by_cases hm : m > 0
    · rw [if_pos hm, if_pos hm]
      simp [renderR, renderR_numLE, renderR_litNumR, VERSION_DOT_eq,
        VERSION_DIGITS_eq, List.append_assoc]
    · rw [if_neg hm, if_neg hm]
      rfl
  have hc3 : (if p > 0 then
      [itoaChars M ++ VERSION_DOT ++ itoaChars m ++ VERSION_DOT
        ++ NumLessOrEqualS ((p : Int) - 1)] else []) =
    (if p > 0 then
      [Regex.cat (litNumR M)
        (.cat dotR (.cat (litNumR m) (.cat dotR (NumLessOrEqualR ((p : Int) - 1)))))]
      else []).map renderR := by
    by_cases hp : p > 0
    · rw [if_pos hp, if_pos hp]
      simp [renderR, renderR_numLE, renderR_litNumR, VERSION_DOT_eq,
        VERSION_DIGITS_eq, List.append_assoc]
    · rw [if_neg hp, if_neg hp]
      rfl
  rw [hc1, hc2, hc3, ← List.map_append, ← List.map_append]
  by_cases hnil : ((if M > 0 then
      [Regex.cat (NumLessOrEqualR ((M : Int) - 1))
        (.cat dotR (.cat digitsR (.cat dotR digitsR)))] else [])
    ++ (if m > 0 then
      [Regex.cat (litNumR M)
        (.cat dotR (.cat (NumLessOrEqualR ((m : Int) - 1)) (.cat dotR digitsR)))]
      else [])
    ++ (if p > 0 then
      [Regex.cat (litNumR M)
        (.cat dotR (.cat (litNumR m) (.cat dotR (NumLessOrEqualR ((p : Int) - 1)))))]
      else [])) = []
  · rw [if_pos hnil, if_pos (by rw [hnil]; rfl)]
    exact renderR_emptyMatchR
  · rw [if_neg hnil, if_neg (fun hc => hnil (List.map_eq_nil_iff.mp hc))]
    exact renderR_anchoredGroupR _


/-! ### The contradiction fragment for negative bounds -/

theorem numLES_neg {n : Int} (h : n < 0) :
    NumLessOrEqualS n = EMPTY_MATCH_PATTERN := by
  rw [NumLessOrEqualS, if_pos h]

theorem numLER_neg {n : Int} (h : n < 0) :
    NumLessOrEqualR n = emptyMatchR := by
  rw [NumLessOrEqualR, if_pos h]

/-! ### No `>=` match beyond ten digits when the bound has ten digits -/

theorem numGE_no_long_match {n : Nat} (h9 : 10 ^ 9 ≤ n) (h10 : n < 10 ^ 10)
    {x : List Char} (hdig : allDigits x = true) (hlen : 10 < x.length) :
    fullmatch (NumGreaterOrEqualR (n : Int)) x = false := by
  have hn0 : n ≠ 0 := by
    intro hz
    rw [hz] at h9
    norm_num at h9
  have hL : (itoaDigits n).length = 10 := by
    have ha := lt_pow_itoaDigits_length n
    have hb := pow_le_of_itoaDigits_length hn0
    have h1 : 9 < (itoaDigits n).length := by
      by_contra hc
      push_neg at hc
      have hp : (10 : Nat) ^ (itoaDigits n).length ≤ 10 ^ 9 :=
        Nat.pow_le_pow_right (by omega) hc
      omega
    have h2 : (itoaDigits n).length - 1 < 10 := by
      by_contra hc
      push_neg at hc
      have hp : (10 : Nat) ^ 10 ≤ 10 ^ ((itoaDigits n).length - 1) :=
        Nat.pow_le_pow_right (by omega) hc
      omega
    omega
  rw [Bool.eq_false_iff]
  intro hm
  rw [fullmatch_numGE_cases n hn0] at hm
  rcases hm with ⟨hlt10, -⟩ | ⟨i, hi, hcase⟩
  · omega
  rcases hcase with ⟨hieq, hmc⟩ | ⟨hine, hd9, hmc⟩
  · rw [fullmatch_cat_iff (plain_litDigits _)] at hmc
    obtain ⟨u, v, hx, hu, hv⟩ := hmc
    rw [fullmatch_litDigits] at hu
    have hdig_i : (itoaDigits n).getD i 0 ≤ 9 := by
      rw [List.getD_eq_getElem _ _ hi]
      have hmem : (itoaDigits n)[i] ∈ itoaDigits n := List.getElem_mem hi
      have := itoaDigits_lt n _ hmem
      omega
    rw [fullmatch_digitRangeUpR hdig_i] at hv
    obtain ⟨e, -, -, hv⟩ := hv
    subst hu hv hx
    have hmin : min i (itoaDigits n).length = i := Nat.min_eq_left (by omega)
    simp only [List.length_append, List.length_map, List.length_take,
      List.length_cons, List.length_nil, hmin] at hlen
    omega
  · rw [fullmatch_cat_iff (plain_litDigits _)] at hmc
    obtain ⟨u, v, hx, hu, hv⟩ := hmc
    rw [fullmatch_cat_iff (plain_digitRangeUpR _)] at hv
    obtain ⟨v1, v2, hvv, hv1, hv2⟩ := hv
    rw [fullmatch_litDigits] at hu
    have hdlt : (itoaDigits n).getD i 0 + 1 ≤ 9 := by omega
    rw [fullmatch_digitRangeUpR hdlt] at hv1
    obtain ⟨e, -, -, hv1⟩ := hv1
    rw [fullmatch_repE_anyd] at hv2
    obtain ⟨-, hv2len⟩ := hv2
    subst hu hv1 hvv hx
    have hmin : min i (itoaDigits n).length = i := Nat.min_eq_left (by omega)
    simp only [List.length_append, List.length_map, List.length_take,
      List.length_cons, List.length_nil, hmin, hv2len] at hlen
    omega


/-! ### Anchoring of every produced pattern -/

theorem getLast_append_single {α : Type} (l : List α) (a : α) :
    (l ++ [a]).getLast? = some a := by
  simp

theorem except_map_ok {ε α β : Type} {x : Except ε α} {f : α → β} {b : β}
    (h : x.map f = .ok b) : ∃ a, x = .ok a ∧ b = f a := by
  cases x with
  | error e => simp [Except.map] at h
  | ok a =>
    refine ⟨a, rfl, ?_⟩
    simp only [Except.map, Except.ok.injEq] at h
    exact h.symm

theorem ite_anchored {P : Prop} [inst : Decidable P] {a b : List Char}
    (ha : a.head? = some '^' ∧ a.getLast? = some '$')
    (hb : b.head? = some '^' ∧ b.getLast? = some '$') :
    (if P then a else b).head? = some '^' ∧
    (if P then a else b).getLast? = some '$' := by
  split
  · exact ha
  · exact hb

theorem wildcard_anchored (v : List Char) :
    (wildcardToRegexS v).head? = some '^' ∧
    (wildcardToRegexS v).getLast? = some '$' := by
  simp only [wildcardToRegexS]
  exact ⟨rfl, by rw [REGEX_END_eq]; exact getLast_append_single _ _⟩

theorem goModule_anchored (v : List Char) :
    (goModuleVersionRegexS v).head? = some '^' ∧
    (goModuleVersionRegexS v).getLast? = some '$' := by
  simp only [goModuleVersionRegexS]
  exact ite_anchored
    ⟨rfl, by rw [REGEX_END_eq]; exact getLast_append_single _ _⟩
    ⟨rfl, by rw [REGEX_END_eq]; exact getLast_append_single _ _⟩

theorem csharp_anchored (v : List Char) :
    (csharpVersionRegexS v).head? = some '^' ∧
    (csharpVersionRegexS v).getLast? = some '$' := by
  simp only [csharpVersionRegexS]
  exact ⟨rfl, by rw [REGEX_END_eq]; exact getLast_append_single _ _⟩

theorem exactMatch_anchored (v : List Char) :
    (exactMatchRegexS v).head? = some '^' ∧
    (exactMatchRegexS v).getLast? = some '$' := by
  simp only [exactMatchRegexS]
  exact ite_anchored (wildcard_anchored _)
    (ite_anchored (goModule_anchored _)
      (ite_anchored (csharp_anchored _)
        ⟨rfl, by rw [REGEX_END_eq]; exact getLast_append_single _ _⟩))

theorem gePatternS_anchored (M m p : Nat) :
    (greaterThanEqualPatternS M m p).head? = some '^' ∧
    (greaterThanEqualPatternS M m p).getLast? = some '$' := by
  simp only [greaterThanEqualPatternS]
  exact ⟨rfl, by rw [REGEX_END_eq]; exact getLast_append_single _ _⟩

theorem lePatternS_anchored (M m p : Nat) :
    (lessThanEqualPatternS M m p).head? = some '^' ∧
    (lessThanEqualPatternS M m p).getLast? = some '$' := by
  simp only [lessThanEqualPatternS]
  exact ⟨rfl, by rw [REGEX_END_eq]; exact getLast_append_single _ _⟩

theorem gtPatternS_anchored (M m p : Nat) :
    (greaterThanPatternS M m p).head? = some '^' ∧
    (greaterThanPatternS M m p).getLast? = some '$' := by
  simp only [greaterThanPatternS]
  exact ⟨rfl, by rw [REGEX_END_eq]; exact getLast_append_single _ _⟩

theorem ltPatternS_anchored (M m p : Nat) :
    (lessThanPatternS M m p).head? = some '^' ∧
    (lessThanPatternS M m p).getLast? = some '$' := by
  simp only [lessThanPatternS]
  exact ite_anchored ⟨rfl, by decide⟩
    ⟨rfl, by rw [REGEX_END_eq]; exact getLast_append_single _ _⟩

theorem notEqualBase_anchored (core : List Char) :
    (notEqualBasePattern core).head? = some '^' ∧
    (notEqualBasePattern core).getLast? = some '$' := by
  simp only [notEqualBasePattern]
  exact ⟨rfl, by rw [REGEX_END_eq]; exact getLast_append_single _ _⟩

theorem caretPatternS_anchored (M m : Nat) :
    (caretPatternS M m).head? = some '^' ∧
    (caretPatternS M m).getLast? = some '$' := by
  simp only [caretPatternS]
  exact ite_anchored
    ⟨rfl, by rw [REGEX_END_eq]; exact getLast_append_single _ _⟩
    ⟨rfl, by rw [REGEX_END_eq]; exact getLast_append_single _ _⟩

theorem tildePatternS_anchored (M m : Nat) :
    (tildePatternS M m).head? = some '^' ∧
    (tildePatternS M m).getLast? = some '$' := by
  simp only [tildePatternS]
  exact ⟨rfl, by rw [REGEX_END_eq]; exact getLast_append_single _ _⟩

theorem mavenBoth_anchored (lo hi : List Char) :
    (mavenBothBoundsPatternS lo hi).head? = some '^' ∧
    (mavenBothBoundsPatternS lo hi).getLast? = some '$' := by
  simp only [mavenBothBoundsPatternS]
  exact ite_anchored
    ⟨rfl, by rw [REGEX_END_eq]; exact getLast_append_single _ _⟩
    ⟨rfl, by rw [REGEX_END_eq]; exact getLast_append_single _ _⟩

theorem mavenLower_anchored (lo : List Char) :
    (mavenLowerBoundPatternS lo).head? = some '^' ∧
    (mavenLowerBoundPatternS lo).getLast? = some '$' := by
  simp only [mavenLowerBoundPatternS]
  exact ⟨rfl, by rw [REGEX_END_eq]; exact getLast_append_single _ _⟩

theorem mavenUpper_anchored (hi : List Char) :
    (mavenUpperBoundPatternS hi).head? = some '^' ∧
    (mavenUpperBoundPatternS hi).getLast? = some '$' := by
  simp only [mavenUpperBoundPatternS]
  exact ite_anchored
    ⟨rfl, by rw [REGEX_END_eq]; exact getLast_append_single _ _⟩
    ⟨rfl, by rw [REGEX_END_eq]; exact getLast_append_single _ _⟩

theorem constraintToRegex_anchored (c : VersionConstraintL) (pat : List Char)
    (h : constraintToRegexL c = .ok pat) :
    pat.head? = some '^' ∧ pat.getLast? = some '$' := by
  simp only [constraintToRegexL] at h
  split at h
  · cases h
    exact exactMatch_anchored _
  split at h
  · rw [greaterThanEqualRegexS] at h
    obtain ⟨t, -, rfl⟩ := except_map_ok h
    exact gePatternS_anchored _ _ _
  split at h
  · rw [lessThanEqualRegexS] at h
    obtain ⟨t, -, rfl⟩ := except_map_ok h
    exact lePatternS_anchored _ _ _
  split at h
  · rw [greaterThanRegexS] at h
    obtain ⟨t, -, rfl⟩ := except_map_ok h
    exact gtPatternS_anchored _ _ _
  split at h
  · rw [lessThanRegexS] at h
    obtain ⟨t, -, rfl⟩ := except_map_ok h
    exact ltPatternS_anchored _ _ _
  split at h
  · simp only [notEqualRegexS] at h
    cases h
    exact notEqualBase_anchored _
  split at h
  · rw [caretRangeRegexS] at h
    obtain ⟨t, -, rfl⟩ := except_map_ok h
    exact caretPatternS_anchored _ _
  split at h
  · rw [tildeRangeRegexS] at h
    obtain ⟨t, -, rfl⟩ := except_map_ok h
    exact tildePatternS_anchored _ _
  split at h
  · rw [compatibleReleaseRegexS, tildeRangeRegexS] at h
    obtain ⟨t, -, rfl⟩ := except_map_ok h
    exact tildePatternS_anchored _ _
  split at h
  · rw [mavenRangeRegexS] at h
    obtain ⟨b, -, rfl⟩ := except_map_ok h
    exact ite_anchored (mavenBoth_anchored _ _)
      (ite_anchored (mavenLower_anchored _)
        (ite_anchored (mavenUpper_anchored _) ⟨rfl, by decide⟩))
  · exact Except.noConfusion h


/-! ### Which builders emit the negative-lookahead opener -/

theorem containsLk_eq_false {pat : List Char} (h : '!' ∉ pat) :
    containsLk pat = false := by
  rw [Bool.eq_false_iff]
  intro hc
  rw [containsLk] at hc
  simp only [List.any_eq_true, List.mem_range] at hc
  obtain ⟨i, -, hp⟩ := hc
  rw [List.isPrefixOf_iff_prefix] at hp
  exact h (List.drop_subset _ _ (hp.subset (by decide)))

theorem bang_not_mem_itoaChars (n : Nat) : '!' ∉ itoaChars n := by
  intro h
  rw [itoaChars] at h
  simp only [List.mem_map] at h
  obtain ⟨d, hd, hdc⟩ := h
  have hlt := itoaDigits_lt n d hd
  have h2 := dChar_toNat (show d ≤ 9 by omega)
  rw [hdc] at h2
  have h3 : ('!').toNat = 33 := rfl
  omega

theorem getD_itoaDigits_le (n i : Nat) : (itoaDigits n).getD i 0 ≤ 9 := by
  rcases Nat.lt_or_ge i (itoaDigits n).length with h | h
  · rw [List.getD_eq_getElem _ _ h]
    have hmem : (itoaDigits n)[i] ∈ itoaDigits n := List.getElem_mem h
    have := itoaDigits_lt n _ hmem
    omega
  · rw [List.getD_eq_default _ _ h]
    omega

theorem dVal_getD_itoaChars_le (n i : Nat) :
    dVal ((itoaChars n).getD i '0') ≤ 9 := by
  rw [getD_itoaChars, dVal_dChar (getD_itoaDigits_le n i)]
  exact getD_itoaDigits_le n i

theorem bang_not_mem_digitRangeUpS {d : Nat} (hd : d ≤ 9) :
    '!' ∉ digitRangeUpS d := by
  rw [digitRangeUpS]
  split
  · decide
  · intro hm
    simp only [List.mem_cons] at hm
    rcases hm with h | h | h
    · exact absurd h (by decide)
    · have h2 := dChar_toNat hd
      rw [← h] at h2
      have h3 : ('!').toNat = 33 := rfl
      omega
    · exact absurd h (by decide)

theorem bang_not_mem_digitRangeDownS {d : Nat} (hd : d ≤ 9) :
    '!' ∉ digitRangeDownS d := by
  rw [digitRangeDownS]
  split
  · decide
  · intro hm
    simp only [List.mem_append, List.mem_cons] at hm
    rcases hm with h | h | h
    · exact absurd h (by decide)
    · have h2 := dChar_toNat hd
      rw [← h] at h2
      have h3 : ('!').toNat = 33 := rfl
      omega
    · exact absurd h (by decide)

theorem bang_not_mem_joinBar : ∀ {ps : List (List Char)},
    (∀ p ∈ ps, '!' ∉ p) → '!' ∉ joinBar ps
  | [], _ => by simp [joinBar]
  | [p], h => by
    intro hm
    exact h p (by simp) hm
  | p :: q :: ps, h => by
    intro hm
    rw [show joinBar (p :: q :: ps) = p ++ REGEX_OR ++ joinBar (q :: ps) from rfl] at hm
    simp only [List.mem_append] at hm
    rcases hm with (hm | hm) | hm
    · exact h p (by simp) hm
    · rw [REGEX_OR_eq] at hm
      exact absurd hm (by decide)
    · exact bang_not_mem_joinBar (fun r hr => h r (List.mem_cons_of_mem _ hr)) hm

theorem bang_not_mem_joinPatternsS : ∀ {ps : List (List Char)},
    (∀ p ∈ ps, '!' ∉ p) → '!' ∉ joinPatternsS ps
  | [], _ => by decide
  | [p], h => by
    intro hm
    exact h p (by simp) hm
  | p :: q :: ps, h => by
    intro hm
    rw [show joinPatternsS (p :: q :: ps) =
      "(?:".toList ++ joinBar (p :: q :: ps) ++ ")".toList from rfl] at hm
    simp only [List.mem_append] at hm
    rcases hm with (hm | hm) | hm
    · exact absurd hm (by decide)
    · exact bang_not_mem_joinBar h hm
    · exact absurd hm (by decide)

theorem bang_not_mem_numGES (n : Int) : '!' ∉ NumGreaterOrEqualS n := by
  rw [NumGreaterOrEqualS]
  split
  · decide
  apply bang_not_mem_joinPatternsS
  intro p hp
  simp only [List.mem_append] at hp
  rcases hp with hp | hp
  · revert hp
    split
    · intro hp
      simp only [List.mem_cons, List.not_mem_nil, or_false] at hp
      subst hp
      intro hm
      simp only [List.mem_append] at hm
      rcases hm with (hm | hm) | hm
      · exact absurd hm (by decide)
      · exact bang_not_mem_itoaChars _ hm
      · exact absurd hm (by decide)
    · intro hp
      simp at hp
  · rw [List.mem_filterMap] at hp
    obtain ⟨i, -, hfi⟩ := hp
    revert hfi
    split
    · intro hfi
      cases hfi
      intro hm
      simp only [List.mem_append] at hm
      rcases hm with hm | hm
      · exact bang_not_mem_itoaChars _ (List.take_subset _ _ hm)
      · exact bang_not_mem_digitRangeUpS (dVal_getD_itoaChars_le _ _) hm
    split
    · rename_i hdlt
      intro hfi
      cases hfi
      intro hm
      simp only [List.mem_append] at hm
      rcases hm with (((hm | hm) | hm) | hm) | hm
      · exact bang_not_mem_itoaChars _ (List.take_subset _ _ hm)
      · exact bang_not_mem_digitRangeUpS (by omega) hm
      · exact absurd hm (by decide)
      · exact bang_not_mem_itoaChars _ hm
      · exact absurd hm (by decide)
    · intro hfi
      exact absurd hfi (by simp)

theorem bang_not_mem_numLES {n : Int} (hn : 0 ≤ n) : '!' ∉ NumLessOrEqualS n := by
  rw [NumLessOrEqualS, if_neg (by omega)]
  apply bang_not_mem_joinPatternsS
  intro p hp
  simp only [List.mem_append] at hp
  rcases hp with hp | hp
  · rw [List.mem_map] at hp
    obtain ⟨d, -, hpd⟩ := hp
    revert hpd
    split
    · intro hpd
      subst hpd
      decide
    · intro hpd
      subst hpd
      intro hm
      simp only [List.mem_append] at hm
      rcases hm with (hm | hm) | hm
      · exact absurd hm (by decide)
      · exact bang_not_mem_itoaChars _ hm
      · exact absurd hm (by decide)
  · rw [List.mem_filterMap] at hp
    obtain ⟨i, -, hfi⟩ := hp
    revert hfi
    split
    · intro hfi
      cases hfi
      intro hm
      simp only [List.mem_append] at hm
      rcases hm with hm | hm
      · exact bang_not_mem_itoaChars _ (List.take_subset _ _ hm)
      · exact bang_not_mem_digitRangeDownS (dVal_getD_itoaChars_le _ _) hm
    split
    · rename_i hdpos
      intro hfi
      cases hfi
      intro hm
      simp only [List.mem_append] at hm
      rcases hm with (((hm | hm) | hm) | hm) | hm
      · exact bang_not_mem_itoaChars _ (List.take_subset _ _ hm)
      · exact bang_not_mem_digitRangeDownS
          (by have := dVal_getD_itoaChars_le n.toNat i; omega) hm
      · exact absurd hm (by decide)
      · exact bang_not_mem_itoaChars _ hm
      · exact absurd hm (by decide)
    · intro hfi
      exact absurd hfi (by simp)

theorem bang_not_mem_anchored (ps : List (List Char))
    (h : ∀ p ∈ ps, '!' ∉ p) :
    '!' ∉ REGEX_START ++ "(?:".toList ++ joinBar ps ++ ")".toList
      ++ VERSION_SUFFIX_PATTERN ++ REGEX_END := by
  intro hm
  simp only [List.mem_append] at hm
  rcases hm with ((((hm | hm) | hm) | hm) | hm) | hm
  · exact absurd hm (by decide)
  · exact absurd hm (by decide)
  · exact bang_not_mem_joinBar h hm
  · exact absurd hm (by decide)
  · exact absurd hm (by decide)
  · exact absurd hm (by decide)


theorem containsLk_gePatternS (M m p : Nat) :
    containsLk (greaterThanEqualPatternS M m p) = false := by
  apply containsLk_eq_false
  simp only [greaterThanEqualPatternS]
  apply bang_not_mem_anchored
  intro q hq
  simp only [List.mem_cons, List.not_mem_nil, or_false] at hq
  rcases hq with rfl | rfl | rfl <;>
    · intro hm
      simp only [List.mem_append] at hm
      rcases hm with (((hm | hm) | hm) | hm) | hm
      · first
        | exact bang_not_mem_numGES _ hm
        | exact bang_not_mem_itoaChars _ hm
      · first
        | exact absurd hm (by decide)
        | exact bang_not_mem_itoaChars _ hm
      · first
        | exact absurd hm (by decide)
        | exact bang_not_mem_numGES _ hm
        | exact bang_not_mem_itoaChars _ hm
      · first
        | exact absurd hm (by decide)
        | exact bang_not_mem_itoaChars _ hm
      · first
        | exact absurd hm (by decide)
        | exact bang_not_mem_numGES _ hm

theorem containsLk_gtPatternS (M m p : Nat) :
    containsLk (greaterThanPatternS M m p) = false := by
  apply containsLk_eq_false
  simp only [greaterThanPatternS]
  apply bang_not_mem_anchored
  intro q hq
  simp only [List.mem_cons, List.not_mem_nil, or_false] at hq
  rcases hq with rfl | rfl | rfl <;>
    · intro hm
      simp only [List.mem_append] at hm
      rcases hm with (((hm | hm) | hm) | hm) | hm
      · first
        | exact bang_not_mem_numGES _ hm
        | exact bang_not_mem_itoaChars _ hm
      · first
        | exact absurd hm (by decide)
        | exact bang_not_mem_itoaChars _ hm
      · first
        | exact absurd hm (by decide)
        | exact bang_not_mem_numGES _ hm
        | exact bang_not_mem_itoaChars _ hm
      · first
        | exact absurd hm (by decide)
        | exact bang_not_mem_itoaChars _ hm
      · first
        | exact absurd hm (by decide)
        | exact bang_not_mem_numGES _ hm

theorem containsLk_lePatternS (M m p : Nat) :
    containsLk (lessThanEqualPatternS M m p) = false := by
  apply containsLk_eq_false
  simp only [lessThanEqualPatternS]
  apply bang_not_mem_anchored
  intro q hq
  simp only [List.mem_append] at hq
  rcases hq with (hq | hq) | hq
  · revert hq
    split
    · rename_i hM
      intro hq
      simp only [List.mem_cons, List.not_mem_nil, or_false] at hq
      subst hq
      intro hm
      simp only [List.mem_append] at hm
      rcases hm with (((hm | hm) | hm) | hm) | hm
      · exact bang_not_mem_numLES (by omega) hm
      · exact absurd hm (by decide)
      · exact absurd hm (by decide)
      · exact absurd hm (by decide)
      · exact absurd hm (by decide)
    · intro hq
      simp at hq
  · revert hq
    split
    · rename_i hm0
      intro hq
      simp only [List.mem_cons, List.not_mem_nil, or_false] at hq
      subst hq
      intro hm
      simp only [List.mem_append] at hm
      rcases hm with (((hm | hm) | hm) | hm) | hm
      · exact bang_not_mem_itoaChars _ hm
      · exact absurd hm (by decide)
      · exact bang_not_mem_numLES (by omega) hm
      · exact absurd hm (by decide)
      · exact absurd hm (by decide)
    · intro hq
      simp at hq
  · simp only [List.mem_cons, List.not_mem_nil, or_false] at hq
    subst hq
    intro hm
    simp only [List.mem_append] at hm
    rcases hm with (((hm | hm) | hm) | hm) | hm
    · exact bang_not_mem_itoaChars _ hm
    · exact absurd hm (by decide)
    · exact bang_not_mem_itoaChars _ hm
    · exact absurd hm (by decide)
    · exact bang_not_mem_numLES (by omega) hm

theorem containsLk_caretPatternS (M m : Nat) :
    containsLk (caretPatternS M m) = false := by
  apply containsLk_eq_false
  simp only [caretPatternS]
  split
  · intro hm
    simp only [List.mem_append] at hm
    rcases hm with ((((((hm | hm) | hm) | hm) | hm) | hm) | hm) | hm
    · exact absurd hm (by decide)
    · exact absurd hm (by decide)
    · exact absurd hm (by decide)
    · exact bang_not_mem_itoaChars _ hm
    · exact absurd hm (by decide)
    · exact absurd hm (by decide)
    · exact absurd hm (by decide)
    · exact absurd hm (by decide)
  · intro hm
    simp only [List.mem_append] at hm
    rcases hm with ((((((hm | hm) | hm) | hm) | hm) | hm) | hm) | hm
    · exact absurd hm (by decide)
    · exact bang_not_mem_itoaChars _ hm
    · exact absurd hm (by decide)
    · exact absurd hm (by decide)
    · exact absurd hm (by decide)
    · exact absurd hm (by decide)
    · exact absurd hm (by decide)
    · exact absurd hm (by decide)

theorem containsLk_tildePatternS (M m : Nat) :
    containsLk (tildePatternS M m) = false := by
  apply containsLk_eq_false
  simp only [tildePatternS]
  intro hm
  simp only [List.mem_append] at hm
  rcases hm with ((((((hm | hm) | hm) | hm) | hm) | hm) | hm) | hm
  · exact absurd hm (by decide)
  · exact bang_not_mem_itoaChars _ hm
  · exact absurd hm (by decide)
  · exact bang_not_mem_itoaChars _ hm
  · exact absurd hm (by decide)
  · exact absurd hm (by decide)
  · exact absurd hm (by decide)
  · exact absurd hm (by decide)

theorem containsLk_ltPatternS_iff (M m p : Nat) :
    containsLk (lessThanPatternS M m p) = true ↔ M = 0 ∧ m = 0 ∧ p = 0 := by
  constructor
  · intro h
    by_contra hc
    rw [containsLk_eq_false ?hnb] at h
    · exact Bool.false_ne_true h
    case hnb =>
      simp only [lessThanPatternS]
      have hall : ∀ q ∈ ((if M > 0 then
          [NumLessOrEqualS ((M : Int) - 1) ++ VERSION_DOT ++ VERSION_DIGITS
            ++ VERSION_DOT ++ VERSION_DIGITS] else [])
        ++ (if m > 0 then
          [itoaChars M ++ VERSION_DOT ++ NumLessOrEqualS ((m : Int) - 1)
            ++ VERSION_DOT ++ VERSION_DIGITS] else [])
        ++ (if p > 0 then
          [itoaChars M ++ VERSION_DOT ++ itoaChars m ++ VERSION_DOT
            ++ NumLessOrEqualS ((p : Int) - 1)] else [])), '!' ∉ q := by
        intro q hq
        simp only [List.mem_append] at hq
        rcases hq with (hq | hq) | hq
        · revert hq
          split
          · rename_i hM
            intro hq
            simp only [List.mem_cons, List.not_mem_nil, or_false] at hq
            subst hq
            intro hm
            simp only [List.mem_append] at hm
            rcases hm with (((hm | hm) | hm) | hm) | hm
            · exact bang_not_mem_numLES (by omega) hm
            · exact absurd hm (by decide)
            · exact absurd hm (by decide)
            · exact absurd hm (by decide)
            · exact absurd hm (by decide)
          · intro hq
            simp at hq
        · revert hq
          split
          · rename_i hm0
            intro hq
            simp only [List.mem_cons, List.not_mem_nil, or_false] at hq
            subst hq
            intro hm
            simp only [List.mem_append] at hm
            rcases hm with (((hm | hm) | hm) | hm) | hm
            · exact bang_not_mem_itoaChars _ hm
            · exact absurd hm (by decide)
            · exact bang_not_mem_numLES (by omega) hm
            · exact absurd hm (by decide)
            · exact absurd hm (by decide)
          · intro hq
            simp at hq
        · revert hq
          split
          · rename_i hp0
            intro hq
            simp only [List.mem_cons, List.not_mem_nil, or_false] at hq
            subst hq
            intro hm
            simp only [List.mem_append] at hm
            rcases hm with (((hm | hm) | hm) | hm) | hm
            · exact bang_not_mem_itoaChars _ hm
            · exact absurd hm (by decide)
            · exact bang_not_mem_itoaChars _ hm
            · exact absurd hm (by decide)
            · exact bang_not_mem_numLES (by omega) hm
          · intro hq
            simp at hq
      by_cases hM : M > 0
      · rw [if_pos hM]
        simp only [List.singleton_append, List.cons_append]
        rw [if_neg (List.cons_ne_nil _ _)]
        apply bang_not_mem_anchored
        intro q hq
        apply hall
        rw [if_pos hM]
        simpa using hq
      by_cases hm0 : m > 0
      · rw [if_neg hM, if_pos hm0]
        simp only [List.nil_append, List.singleton_append, List.cons_append]
        rw [if_neg (List.cons_ne_nil _ _)]
        apply bang_not_mem_anchored
        intro q hq
        apply hall
        rw [if_neg hM, if_pos hm0]
        simpa using hq
      by_cases hp0 : p > 0
      · rw [if_neg hM, if_neg hm0, if_pos hp0]
        simp only [List.nil_append]
        rw [if_neg (List.cons_ne_nil _ _)]
        apply bang_not_mem_anchored
        intro q hq
        apply hall
        rw [if_neg hM, if_neg hm0, if_pos hp0]
        simpa using hq
      · exact absurd ⟨by omega, by omega, by omega⟩ hc
  · rintro ⟨rfl, rfl, rfl⟩
    decide


theorem plain_geClause1 (a : Int) :
    plain (Regex.cat (NumGreaterOrEqualR a)
      (.cat dotR (.cat digitsR (.cat dotR digitsR)))) = true := by
  simp [plain, plain_NumGreaterOrEqualR]

theorem plain_geClause2 (M : Nat) (a : Int) :
    plain (Regex.cat (litNumR M)
      (.cat dotR (.cat (NumGreaterOrEqualR a) (.cat dotR digitsR)))) = true := by
  simp [plain, plain_NumGreaterOrEqualR, plain_litNumR]

theorem plain_geClause3 (M m : Nat) (a : Int) :
    plain (Regex.cat (litNumR M)
      (.cat dotR (.cat (litNumR m) (.cat dotR (NumGreaterOrEqualR a))))) = true := by
  simp [plain, plain_NumGreaterOrEqualR, plain_litNumR]

/-! ## Claim theorems -/

/-- Claim C1 (corrected): for `0 ≤ n ≤ 9999999999`, the anchored
`NumGreaterOrEqual(n)` fragment (whose source string is exactly the
rendering of the embedded tree) matches a well-formed decimal literal
`x` **of at most ten digits** iff its value is `≥ n`.  The spec's
unrestricted version is refuted by `claim_C1_counterexample`: an
eleven-digit candidate with value `≥ n` is rejected when `n` itself
has ten digits. -/
theorem claim_C1 (n : Nat) (hn : n ≤ 9999999999) {x : List Char}
    (hx : ValidNum x) (hlen : x.length ≤ 10) :
    NumGreaterOrEqualS (n : Int) = renderR (NumGreaterOrEqualR (n : Int)) ∧
    (fullmatch (NumGreaterOrEqualR (n : Int)) x = true ↔ n ≤ numVal x) :=
  ⟨(renderR_numGE _).symm, numGE_iff n hx hlen⟩

/-- Witness for `claim_C1` at `n = 3`, `x = "42"`. -/
theorem claim_C1_witness :
    (3 : Nat) ≤ 9999999999 ∧ ValidNum ['4', '2'] ∧
      (['4', '2'] : List Char).length ≤ 10 ∧
    (NumGreaterOrEqualS ((3 : Nat) : Int) =
        renderR (NumGreaterOrEqualR ((3 : Nat) : Int)) ∧
      (fullmatch (NumGreaterOrEqualR ((3 : Nat) : Int)) ['4', '2'] = true ↔
        3 ≤ numVal ['4', '2'])) :=
  ⟨by norm_num, by decide, by decide, claim_C1 3 (by norm_num) (by decide) (by decide)⟩

/-- Counterexample to the unrestricted C1: `n = 10^9` (ten digits),
candidate `x = itoaChars (10^10)` (eleven digits, no leading zero,
value `≥ n`), yet the fragment rejects it — the synthesizer only emits
alternatives for at most `len(n)` digits plus, when `len(n) < 10`, a
single `\d{len+1,}` catch-all that is omitted exactly at ten digits. -/
theorem claim_C1_counterexample :
    (1000000000 : Nat) ≤ 9999999999 ∧
    ValidNum (itoaChars 10000000000) ∧
    1000000000 ≤ numVal (itoaChars 10000000000) ∧
    fullmatch (NumGreaterOrEqualR ((1000000000 : Nat) : Int))
      (itoaChars 10000000000) = false := by
  have hval : numVal (itoaChars 10000000000) = 10000000000 := numVal_itoaChars _
  have hvn := validNum_itoaChars 10000000000
  have hL : (itoaDigits 10000000000).length = 11 := by
    rw [itoaDigits, if_neg (by norm_num), List.length_reverse]
    rw [Nat.digits_len 10 10000000000 (by norm_num) (by norm_num)]
    rw [show Nat.log 10 10000000000 = 10 from
      Nat.log_eq_of_pow_le_of_lt_pow (by norm_num) (by norm_num)]
  refine ⟨by norm_num, hvn, by rw [hval]; norm_num, ?_⟩
  apply numGE_no_long_match (by norm_num) (by norm_num) hvn.2.1
  rw [length_itoaChars, hL]
  omega

/-- Claim C2 (confirmed): for `0 ≤ n ≤ 9999999999`, the anchored
`NumLessOrEqual(n)` fragment (source string exactly the rendering of
the embedded tree) matches a well-formed decimal literal `x` iff its
value is `≤ n`; in particular `NumLessOrEqual(0)` matches only `"0"`. -/
theorem claim_C2 (n : Nat) (hn : n ≤ 9999999999) {x : List Char}
    (hx : ValidNum x) :
    NumLessOrEqualS (n : Int) = renderR (NumLessOrEqualR (n : Int)) ∧
    (fullmatch (NumLessOrEqualR (n : Int)) x = true ↔ numVal x ≤ n) ∧
    (fullmatch (NumLessOrEqualR ((0 : Nat) : Int)) x = true ↔ x = ['0']) := by
  refine ⟨(renderR_numLE _).symm, numLE_iff n hx, ?_⟩
  rw [numLE_iff 0 hx]
  constructor
  · intro h
    have h0 : numVal x = 0 := by omega
    have := validNum_canonical hx
    rw [h0] at this
    rw [← this]
    rfl
  · rintro rfl
    decide

/-- Witness for `claim_C2` at `n = 2`, `x = "1"`. -/
theorem claim_C2_witness :
    (2 : Nat) ≤ 9999999999 ∧ ValidNum ['1'] ∧
    (NumLessOrEqualS ((2 : Nat) : Int) =
        renderR (NumLessOrEqualR ((2 : Nat) : Int)) ∧
      (fullmatch (NumLessOrEqualR ((2 : Nat) : Int)) ['1'] = true ↔
        numVal ['1'] ≤ 2) ∧
      (fullmatch (NumLessOrEqualR ((0 : Nat) : Int)) ['1'] = true ↔
        (['1'] : List Char) = ['0'])) :=
  ⟨by norm_num, by decide, claim_C2 2 (by norm_num) (by decide)⟩

/-- Claim C3 (corrected): the `>=` pattern (source string exactly the
rendering of the embedded tree) matches a dot-separated candidate
`x.y.z` of well-formed components **of at most ten digits each** iff
`(x,y,z) ≥ (M,m,p)` lexicographically.  The spec's unrestricted
version is refuted by `claim_C3_counterexample`, inherited from the
`NumGreaterOrEqual` ten-digit cap. -/
theorem claim_C3 (M m p : Nat) {xs ys zs : List Char}
    (hxs : ValidNum xs) (hys : ValidNum ys) (hzs : ValidNum zs)
    (hxl : xs.length ≤ 10) (hyl : ys.length ≤ 10) (hzl : zs.length ≤ 10) :
    greaterThanEqualPatternS M m p = renderR (greaterThanEqualPatternR M m p) ∧
    (fullmatch (greaterThanEqualPatternR M m p) (verStr xs ys zs) = true ↔
      (M < numVal xs ∨ (numVal xs = M ∧ m < numVal ys) ∨
        (numVal xs = M ∧ numVal ys = m ∧ p ≤ numVal zs))) :=
  ⟨(renderR_gePattern M m p).symm, gePattern_iff M m p hxs hys hzs hxl hyl hzl⟩

/-- Witness for `claim_C3` at `>=1.2.3` against `"1.2.3"`. -/
theorem claim_C3_witness :
    ValidNum ['1'] ∧ ValidNum ['2'] ∧ ValidNum ['3'] ∧
      (['1'] : List Char).length ≤ 10 ∧ (['2'] : List Char).length ≤ 10 ∧
      (['3'] : List Char).length ≤ 10 ∧
    (greaterThanEqualPatternS 1 2 3 = renderR (greaterThanEqualPatternR 1 2 3) ∧
      (fullmatch (greaterThanEqualPatternR 1 2 3) (verStr ['1'] ['2'] ['3']) = true ↔
        (1 < numVal ['1'] ∨ (numVal ['1'] = 1 ∧ 2 < numVal ['2']) ∨
          (numVal ['1'] = 1 ∧ numVal ['2'] = 2 ∧ 3 ≤ numVal ['3'])))) :=
  ⟨by decide, by decide, by decide, by decide, by decide, by decide,
    claim_C3 1 2 3 (by decide) (by decide) (by decide) (by decide) (by decide)
      (by decide)⟩

/-- Counterexample to the unrestricted C3: against `>=1000000000.0.0`
the candidate `10000000000.0.0` has major `10^10 > 10^9`, yet the
pattern rejects it. -/
theorem claim_C3_counterexample :
    1000000000 < numVal (itoaChars 10000000000) ∧
    ValidNum (itoaChars 10000000000) ∧ ValidNum ['0'] ∧
    fullmatch (greaterThanEqualPatternR 1000000000 0 0)
      (verStr (itoaChars 10000000000) ['0'] ['0']) = false := by
  have hval : numVal (itoaChars 10000000000) = 10000000000 := numVal_itoaChars _
  have hvn := validNum_itoaChars 10000000000
  have hL : (itoaDigits 10000000000).length = 11 := by
    rw [itoaDigits, if_neg (by norm_num), List.length_reverse]
    rw [Nat.digits_len 10 10000000000 (by norm_num) (by norm_num)]
    rw [show Nat.log 10 10000000000 = 10 from
      Nat.log_eq_of_pow_le_of_lt_pow (by norm_num) (by norm_num)]
  have hlen : 10 < (itoaChars 10000000000).length := by
    rw [length_itoaChars, hL]
    omega
  refine ⟨by rw [hval]; norm_num, hvn, by decide, ?_⟩
  have hc1 : ((1000000000 : Nat) : Int) + 1 = ((1000000001 : Nat) : Int) := by
    norm_num
  have hc2 : ((0 : Nat) : Int) + 1 = ((1 : Nat) : Int) := by norm_num
  rw [Bool.eq_false_iff]
  intro h
  rw [greaterThanEqualPatternR, hc1, hc2] at h
  rw [fullmatch_anchoredGroupR (by simp)
    (by
      intro q hq
      simp only [List.mem_cons, List.not_mem_nil, or_false] at hq
      rcases hq with rfl | rfl | rfl
      · exact plain_geClause1 _
      · exact plain_geClause2 _ _
      · exact plain_geClause3 _ _ _)
    (verStr_no_sign hvn.2.1 (by decide) (by decide))] at h
  obtain ⟨q, hq, hmq⟩ := h
  simp only [List.mem_cons, List.not_mem_nil, or_false] at hq
  rcases hq with rfl | rfl | rfl
  · rw [fullmatch_triple (plain_NumGreaterOrEqualR _) plain_digitsR
      (fun w hw => numGE_digitsOnly 1000000001 hw)
      (fun w hw => digitsR_digitsOnly hw) hvn.2.1 (by decide)] at hmq
    obtain ⟨h1, -, -⟩ := hmq
    have hf := numGE_no_long_match (n := 1000000001) (by norm_num) (by norm_num)
      hvn.2.1 hlen
    rw [hf] at h1
    exact Bool.false_ne_true h1
  · rw [fullmatch_triple (plain_litNumR _) (plain_NumGreaterOrEqualR _)
      (fun w hw => litNumR_digitsOnly _ hw)
      (fun w hw => numGE_digitsOnly 1 hw) hvn.2.1 (by decide)] at hmq
    obtain ⟨h1, -, -⟩ := hmq
    rw [fullmatch_litNumR _ hvn] at h1
    rw [hval] at h1
    norm_num at h1
  · rw [fullmatch_triple (plain_litNumR _) (plain_litNumR _)
      (fun w hw => litNumR_digitsOnly _ hw)
      (fun w hw => litNumR_digitsOnly _ hw) hvn.2.1 (by decide)] at hmq
    obtain ⟨h1, -, -⟩ := hmq
    rw [fullmatch_litNumR _ hvn] at h1
    rw [hval] at h1
    norm_num at h1

/-- Claim C4 (corrected): the numeric comparison builders `>=`, `<=`,
`>`, `^`, `~`/`~>`/`~=` never emit the negative-lookahead opener
`(?!`, but the strict `<` builder **does** emit it exactly when the
parsed triple is `0.0.0` — so not-equal is not the only operator whose
output requires lookahead support, refuting the spec (see
`claim_C4_counterexample` for the `<0.0.0` pipeline output). -/
theorem claim_C4 (M m p : Nat) :
    (containsLk (lessThanPatternS M m p) = true ↔ M = 0 ∧ m = 0 ∧ p = 0) ∧
    containsLk (greaterThanEqualPatternS M m p) = false ∧
    containsLk (lessThanEqualPatternS M m p) = false ∧
    containsLk (greaterThanPatternS M m p) = false ∧
    containsLk (caretPatternS M m) = false ∧
    containsLk (tildePatternS M m) = false :=
  ⟨containsLk_ltPatternS_iff M m p, containsLk_gePatternS M m p,
    containsLk_lePatternS M m p, containsLk_gtPatternS M m p,
    containsLk_caretPatternS M m, containsLk_tildePatternS M m⟩

/-- Counterexample to C4 as stated: compiling `"<0.0.0"` succeeds at
the string-pipeline level and produces exactly the contradiction
pattern `^(?!.*)$`, which contains the negative-lookahead opener. -/
theorem claim_C4_counterexample :
    VersionToRegexL ("<0.0.0".toList) = .ok EMPTY_MATCH_PATTERN ∧
    containsLk EMPTY_MATCH_PATTERN = true :=
  ⟨rfl, by decide⟩

/-- Claim C5 (confirmed): `lessThan("0.0.0")` yields exactly the
contradiction fragment, whose tree matches no string at all, and the
`<` pattern degenerates to that fragment exactly when `M = m = p = 0`. -/
theorem claim_C5 :
    lessThanRegexS ("0.0.0".toList) = .ok EMPTY_MATCH_PATTERN ∧
    lessThanPatternS 0 0 0 = EMPTY_MATCH_PATTERN ∧
    lessThanPatternR 0 0 0 = emptyMatchR ∧
    renderR emptyMatchR = EMPTY_MATCH_PATTERN ∧
    (∀ s : List Char, fullmatch emptyMatchR s = false) ∧
    (∀ M m p : Nat,
      lessThanPatternS M m p = EMPTY_MATCH_PATTERN ↔ M = 0 ∧ m = 0 ∧ p = 0) ∧
    (∀ M m p : Nat,
      lessThanPatternR M m p = emptyMatchR ↔ M = 0 ∧ m = 0 ∧ p = 0) :=
  ⟨rfl, rfl, rfl, rfl, fullmatch_emptyMatchR,
    lessThanPatternS_eq_empty_iff, lessThanPatternR_eq_empty_iff⟩

/-- Claim C6 (confirmed): the caret pattern (source string exactly the
rendering of the embedded tree) matches a candidate `x.y.z` of
well-formed components iff `x = M`, and additionally `y = m` when
`M = 0` — any minor and patch otherwise. -/
theorem claim_C6 (M m : Nat) {xs ys zs : List Char}
    (hxs : ValidNum xs) (hys : ValidNum ys) (hzs : ValidNum zs) :
    caretPatternS M m = renderR (caretPatternR M m) ∧
    (fullmatch (caretPatternR M m) (verStr xs ys zs) = true ↔
      (numVal xs = M ∧ (M = 0 → numVal ys = m))) :=
  ⟨(renderR_caretPattern M m).symm, caretPattern_iff M m hxs hys hzs⟩

/-- Witness for `claim_C6` at `^1.2.3` against `"1.9.9"`. -/
theorem claim_C6_witness :
    ValidNum ['1'] ∧ ValidNum ['9'] ∧ ValidNum ['9'] ∧
    (caretPatternS 1 2 = renderR (caretPatternR 1 2) ∧
      (fullmatch (caretPatternR 1 2) (verStr ['1'] ['9'] ['9']) = true ↔
        (numVal ['1'] = 1 ∧ (1 = 0 → numVal ['9'] = 2)))) :=
  ⟨by decide, by decide, by decide,
    claim_C6 1 2 (by decide) (by decide) (by decide)⟩

/-- Claim C7 (corrected): when a component of the version literal
fails to parse, the eight numeric operators propagate the structured
error naming the failing component — but the exact-match operators
`==`/`=` and the not-equal operator (which wraps the exact-match core
in the lookahead template) quote the literal without any numeric
validation and always succeed, refuting the "for every operator"
form (see `claim_C7_counterexample`). -/
theorem claim_C7 (v : List Char) (e : ConvErr)
    (h : parseVersionPartsL v = .error e) :
    (∃ s, e = .invalidMajor s ∨ e = .invalidMinor s ∨ e = .invalidPatch s) ∧
    constraintToRegexL ⟨OP_GREATER_EQUAL, v⟩ = .error e ∧
    constraintToRegexL ⟨OP_LESS_EQUAL, v⟩ = .error e ∧
    constraintToRegexL ⟨OP_GREATER, v⟩ = .error e ∧
    constraintToRegexL ⟨OP_LESS, v⟩ = .error e ∧
    constraintToRegexL ⟨OP_CARET, v⟩ = .error e ∧
    constraintToRegexL ⟨OP_TILDE, v⟩ = .error e ∧
    constraintToRegexL ⟨OP_PESSIMISTIC, v⟩ = .error e ∧
    constraintToRegexL ⟨OP_COMPATIBLE, v⟩ = .error e ∧
    constraintToRegexL ⟨OP_EQUAL_EQUAL, v⟩ = .ok (exactMatchRegexS v) ∧
    constraintToRegexL ⟨OP_EQUAL, v⟩ = .ok (exactMatchRegexS v) ∧
    constraintToRegexL ⟨OP_NOT_EQUAL, v⟩ =
      .ok (notEqualBasePattern
        (trimPfx REGEX_START (trimSfx REGEX_END (exactMatchRegexS v)))) := by
  refine ⟨?_, ?_, ?_, ?_, ?_, ?_, ?_, ?_, ?_, rfl, rfl, rfl⟩
  · simp only [parseVersionPartsL] at h
    split at h
    · rename_i hm
      cases h
      exact ⟨_, Or.inl rfl⟩
    split at h
    · exact Except.noConfusion h
    split at h
    · rename_i hm
      cases h
      exact ⟨_, Or.inr (Or.inl rfl)⟩
    split at h
    · exact Except.noConfusion h
    split at h
    · rename_i hm
      cases h
      exact ⟨_, Or.inr (Or.inr rfl)⟩
    · exact Except.noConfusion h
  · rw [show constraintToRegexL ⟨OP_GREATER_EQUAL, v⟩ =
      greaterThanEqualRegexS v from rfl, greaterThanEqualRegexS, h]
    rfl
  · rw [show constraintToRegexL ⟨OP_LESS_EQUAL, v⟩ =
      lessThanEqualRegexS v from rfl, lessThanEqualRegexS, h]
    rfl
  · rw [show constraintToRegexL ⟨OP_GREATER, v⟩ =
      greaterThanRegexS v from rfl, greaterThanRegexS, h]
    rfl
  · rw [show constraintToRegexL ⟨OP_LESS, v⟩ =
      lessThanRegexS v from rfl, lessThanRegexS, h]
    rfl
  · rw [show constraintToRegexL ⟨OP_CARET, v⟩ =
      caretRangeRegexS v from rfl, caretRangeRegexS, h]
    rfl
  · rw [show constraintToRegexL ⟨OP_TILDE, v⟩ =
      tildeRangeRegexS v from rfl, tildeRangeRegexS, h]
    rfl
  · rw [show constraintToRegexL ⟨OP_PESSIMISTIC, v⟩ =
      tildeRangeRegexS v from rfl, tildeRangeRegexS, h]
    rfl
  · rw [show constraintToRegexL ⟨OP_COMPATIBLE, v⟩ =
      compatibleReleaseRegexS v from rfl, compatibleReleaseRegexS,
      tildeRangeRegexS, h]
    rfl

/-- Witness for `claim_C7` at `v = "a.b.c"`. -/
theorem claim_C7_witness :
    parseVersionPartsL ("a.b.c".toList) = .error (.invalidMajor ("a".toList)) ∧
    ((∃ s, ConvErr.invalidMajor ("a".toList) = .invalidMajor s ∨
        ConvErr.invalidMajor ("a".toList) = .invalidMinor s ∨
        ConvErr.invalidMajor ("a".toList) = .invalidPatch s) ∧
      constraintToRegexL ⟨OP_GREATER_EQUAL, "a.b.c".toList⟩ =
        .error (.invalidMajor ("a".toList)) ∧
      constraintToRegexL ⟨OP_LESS_EQUAL, "a.b.c".toList⟩ =
        .error (.invalidMajor ("a".toList)) ∧
      constraintToRegexL ⟨OP_GREATER, "a.b.c".toList⟩ =
        .error (.invalidMajor ("a".toList)) ∧
      constraintToRegexL ⟨OP_LESS, "a.b.c".toList⟩ =
        .error (.invalidMajor ("a".toList)) ∧
      constraintToRegexL ⟨OP_CARET, "a.b.c".toList⟩ =
        .error (.invalidMajor ("a".toList)) ∧
      constraintToRegexL ⟨OP_TILDE, "a.b.c".toList⟩ =
        .error (.invalidMajor ("a".toList)) ∧
      constraintToRegexL ⟨OP_PESSIMISTIC, "a.b.c".toList⟩ =
        .error (.invalidMajor ("a".toList)) ∧
      constraintToRegexL ⟨OP_COMPATIBLE, "a.b.c".toList⟩ =
        .error (.invalidMajor ("a".toList)) ∧
      constraintToRegexL ⟨OP_EQUAL_EQUAL, "a.b.c".toList⟩ =
        .ok (exactMatchRegexS ("a.b.c".toList)) ∧
      constraintToRegexL ⟨OP_EQUAL, "a.b.c".toList⟩ =
        .ok (exactMatchRegexS ("a.b.c".toList)) ∧
      constraintToRegexL ⟨OP_NOT_EQUAL, "a.b.c".toList⟩ =
        .ok (notEqualBasePattern (trimPfx REGEX_START
          (trimSfx REGEX_END (exactMatchRegexS ("a.b.c".toList)))))) :=
  ⟨rfl, claim_C7 ("a.b.c".toList) (.invalidMajor ("a".toList)) rfl⟩

/-- Counterexample to C7 as stated: the exact-match operator accepts
the unparseable literal `"a.b.c"` and returns a quoted pattern, while
the numeric parse of the same literal fails. -/
theorem claim_C7_counterexample :
    constraintToRegexL ⟨OP_EQUAL_EQUAL, "a.b.c".toList⟩ =
      .ok (exactMatchRegexS ("a.b.c".toList)) ∧
    parseVersionPartsL ("a.b.c".toList) = .error (.invalidMajor ("a".toList)) ∧
    VersionToRegexL ("a.b.c".toList) = .ok (exactMatchRegexS ("a.b.c".toList)) :=
  ⟨rfl, rfl, rfl⟩

/-- Claim C8 (confirmed): for every negative bound `n`,
`NumLessOrEqual(n)` returns (never errors) exactly the contradiction
fragment, whose tree matches no string whatsoever — including the
empty string. -/
theorem claim_C8 (n : Int) (hn : n < 0) :
    NumLessOrEqualS n = EMPTY_MATCH_PATTERN ∧
    NumLessOrEqualR n = emptyMatchR ∧
    renderR (NumLessOrEqualR n) = EMPTY_MATCH_PATTERN ∧
    (∀ s : List Char, fullmatch (NumLessOrEqualR n) s = false) := by
  refine ⟨numLES_neg hn, numLER_neg hn, ?_, ?_⟩
  · rw [numLER_neg hn]
    exact renderR_emptyMatchR
  · intro s
    rw [numLER_neg hn]
    exact fullmatch_emptyMatchR s

/-- Witness for `claim_C8` at `n = -1`. -/
theorem claim_C8_witness :
    (-1 : Int) < 0 ∧
    (NumLessOrEqualS (-1) = EMPTY_MATCH_PATTERN ∧
      NumLessOrEqualR (-1) = emptyMatchR ∧
      renderR (NumLessOrEqualR (-1)) = EMPTY_MATCH_PATTERN ∧
      (∀ s : List Char, fullmatch (NumLessOrEqualR (-1)) s = false)) :=
  ⟨by norm_num, claim_C8 (-1) (by norm_num)⟩

/-- Claim C9 (confirmed): every pattern string the compiler produces,
for every operator and every accepted version literal, begins with the
start anchor and ends with the end anchor. -/
theorem claim_C9 (c : VersionConstraintL) (pat : List Char)
    (h : constraintToRegexL c = .ok pat) :
    pat.head? = some '^' ∧ pat.getLast? = some '$' :=
  constraintToRegex_anchored c pat h

/-- Witness for `claim_C9` on the exact-match constraint `1.2.3`. -/
theorem claim_C9_witness :
    constraintToRegexL ⟨OP_EQUAL_EQUAL, "1.2.3".toList⟩ =
      .ok (exactMatchRegexS ("1.2.3".toList)) ∧
    ((exactMatchRegexS ("1.2.3".toList)).head? = some '^' ∧
      (exactMatchRegexS ("1.2.3".toList)).getLast? = some '$') :=
  ⟨rfl, claim_C9 ⟨OP_EQUAL_EQUAL, "1.2.3".toList⟩ (exactMatchRegexS ("1.2.3".toList)) rfl⟩

/-- Claim C10 (corrected): when the **trimmed** input does not open a
bracket range, the constraint parser always succeeds; with no
recognized operator prefix the whole trimmed string becomes the
version of an exact-match constraint, and the pipeline returns a
pattern with no error even for `"a.b.c"` and the empty string.  The
claim's literal wording — conditioning on the raw input's first
character — is refuted by `claim_C10_counterexample`: the parser trims
before the bracket check. -/
theorem claim_C10 (vs : List Char)
    (h : ¬((trimSpaceL vs).head? = some '[' ∨ (trimSpaceL vs).head? = some '(')) :
    (∃ c, parseVersionConstraintL vs = .ok c) ∧
    (findOp operatorsL (trimSpaceL vs) = none →
      parseVersionConstraintL vs = .ok ⟨OP_EQUAL_EQUAL, trimSpaceL vs⟩) ∧
    (∃ p, VersionToRegexL ("a.b.c".toList) = .ok p) ∧
    (∃ p, VersionToRegexL ([] : List Char) = .ok p) := by
  refine ⟨?_, ?_, ⟨_, rfl⟩, ⟨_, rfl⟩⟩
  · simp only [parseVersionConstraintL]
    rw [if_neg h]
    cases findOp operatorsL (trimSpaceL vs) with
    | some c => exact ⟨c, rfl⟩
    | none => exact ⟨⟨OP_EQUAL_EQUAL, trimSpaceL vs⟩, rfl⟩
  · intro hfo
    simp only [parseVersionConstraintL]
    rw [if_neg h, hfo]

/-- Witness for `claim_C10` at `vs = "foo"`. -/
theorem claim_C10_witness :
    ¬((trimSpaceL ("foo".toList)).head? = some '[' ∨
        (trimSpaceL ("foo".toList)).head? = some '(') ∧
    ((∃ c, parseVersionConstraintL ("foo".toList) = .ok c) ∧
      (findOp operatorsL (trimSpaceL ("foo".toList)) = none →
        parseVersionConstraintL ("foo".toList) =
          .ok ⟨OP_EQUAL_EQUAL, trimSpaceL ("foo".toList)⟩) ∧
      (∃ p, VersionToRegexL ("a.b.c".toList) = .ok p) ∧
      (∃ p, VersionToRegexL ([] : List Char) = .ok p)) :=
  ⟨by decide, claim_C10 ("foo".toList) (by decide)⟩

/-- Counterexample to C10 as literally stated: `" [x"` does not begin
with `'['` or `'('` (it begins with a space), yet the parser trims the
input first, takes the bracket-range branch on the trimmed string and
rejects it with a Maven format error — so conditioning on the raw
first character is wrong; the correct condition is on the trimmed
string. -/
theorem claim_C10_counterexample :
    (" [x".toList).head? = some ' ' ∧
    VersionToRegexL (" [x".toList) = .error (.mavenFormat ("[x".toList)) :=
  ⟨rfl, rfl⟩

end V2R
